import Mathlib

/-!
# Prolly-tree cursor (`go/store/prolly/tree/node_cursor.go`)

A shallow embedding of the cursor that walks a content-addressed, ordered
B-tree, followed by theorems about traversal, ordinal seek, item seek and
cursor comparison.

Conventions of the embedding

* `NodeItem` (`[]byte`) is a list of byte values, `hash.Hash` is a number.
* `Node` is the decoded read view.  Its declaration is outside
  `node_cursor.go`; the fields below are the ones the cursor reads
  (`count`, `level`, keys, values, child refs, subtree counts, tree count,
  the byte backing).
* `NodeStore.Read` returns the Go pair `(Node, error)`.
* A `*Cursor` is the list of its frames, leaf first: the head is the frame
  the pointer designates, the tail is `cur.parent`, and `[]` is `nil`.
* Every operation returns the memory of the cursor after the call, the
  hashes it passed to `NodeStore.Read` (in order) and its outcome.  A Go
  panic (failed `assertTrue`, `nil` dereference, index out of range) is the
  fault `panic`; a descent loop that ran out of its iteration bound is the
  fault `fuel`.
-/

namespace Prolly

/-! ## Data model -/

/-- Content hash of a chunk (`hash.Hash`). -/
abbrev Hash := Nat

/-- Byte slice used for keys, values and probes (`NodeItem`). -/
abbrev NodeItem := List Nat

/-- Error returned by a failed `NodeStore.Read`. -/
structure StoreError where
  code : Nat
deriving DecidableEq, Repr

/-- Read view of a tree node: the fields the cursor consults. -/
structure Node where
  keys : List NodeItem
  values : List NodeItem
  refs : List Hash
  subtrees : List Nat
  count : Nat
  level : Nat
  treeCount : Nat
  hasBytes : Bool
deriving DecidableEq, Repr

/-- The zero `Node` value of Go. -/
def Node.zero : Node := ⟨[], [], [], [], 0, 0, 0, false⟩

/-- Content-addressed read interface: `Read(ctx, hash)` gives `(Node, error)`. -/
abbrev NodeStore := Hash → Node × Option StoreError

abbrev CompareFn := NodeItem → NodeItem → Int

abbrev ItemSearchFn := NodeItem → Node → Int

/-- One `Cursor` struct: node, index and the lazily loaded subtree counts. -/
structure Frame where
  nd : Node
  idx : Int
  subtrees : Option (List Nat)
deriving DecidableEq, Repr

/-- A cursor pointer: its frames from the leaf (head) to the root. -/
abbrev Cursor := List Frame

/-- Ways an operation can fail to return normally. -/
inductive Fault where
  | store (e : StoreError)
  | panic
  | fuel
deriving DecidableEq, Repr

/-- Result of an operation: cursor memory afterwards, store reads, outcome. -/
structure Ret (α : Type) where
  cur : Cursor
  reads : List Hash
  out : Except Fault α

/-- Outcomes can be compared. -/
instance outcomeDecEq {α : Type} [DecidableEq α] : DecidableEq (Except Fault α)
  | .ok a, .ok b =>
    if h : a = b then isTrue (by rw [h]) else isFalse (by intro e; cases e; exact h rfl)
  | .error a, .error b =>
    if h : a = b then isTrue (by rw [h]) else isFalse (by intro e; cases e; exact h rfl)
  | .ok _, .error _ => isFalse (by intro e; cases e)
  | .error _, .ok _ => isFalse (by intro e; cases e)

/-! ## Node accessors -/

/-- Accessor `nd.GetKey(i)`; an index outside the key array panics. -/
def Node.GetKey (nd : Node) (i : Int) : Option NodeItem :=
  if 0 ≤ i then nd.keys[i.toNat]? else none

/-- Accessor `nd.getValue(i)`. -/
def Node.getValue (nd : Node) (i : Int) : Option NodeItem :=
  if 0 ≤ i then nd.values[i.toNat]? else none

/-- Accessor `nd.getRef(i)`. -/
def Node.getRef (nd : Node) (i : Int) : Option Hash :=
  if 0 ≤ i then nd.refs[i.toNat]? else none

def Node.getSubtreeCounts (nd : Node) : List Nat := nd.subtrees

def Node.IsLeaf (nd : Node) : Bool := nd.level == 0

def Node.TreeCount (nd : Node) : Nat := nd.treeCount

/-- The Go expression `int(cur.nd.count - 1)`: the subtraction is done on
`uint16`, so a zero count gives 65535. -/
def lastKeyIdx (nd : Node) : Int := ((nd.count + 65535) % 65536 : Nat)

/-- Two's complement wrap of a 64-bit `int` result. -/
def wrapInt (x : Int) : Int := (x + 9223372036854775808) % 18446744073709551616 - 9223372036854775808

/-- Conversion `int64(u)` of a `uint64`. -/
def toInt64 (u : Nat) : Int := wrapInt (u % 18446744073709551616 : Nat)

/-! ## Frame helpers -/

def Frame.isLeaf (f : Frame) : Bool := f.nd.level == 0

def Frame.CurrentRef (f : Frame) : Option Hash := f.nd.getRef f.idx

def Frame.firstKey (f : Frame) : Option NodeItem := f.nd.GetKey 0

def Frame.lastKey (f : Frame) : Option NodeItem := f.nd.GetKey (lastKeyIdx f.nd)

def Frame.skipToNodeStart (f : Frame) : Frame := { f with idx := 0 }

def Frame.skipToNodeEnd (f : Frame) : Frame := { f with idx := lastKeyIdx f.nd }

def Frame.keepInBounds (f : Frame) : Frame :=
  let f1 := if f.idx < 0 then f.skipToNodeStart else f
  if f1.idx > lastKeyIdx f1.nd then f1.skipToNodeEnd else f1

def Frame.atNodeStart (f : Frame) : Bool := f.idx == 0

def Frame.atNodeEnd (f : Frame) : Bool := f.idx == lastKeyIdx f.nd

def Frame.Valid (f : Frame) : Bool :=
  f.nd.count != 0 && f.nd.hasBytes && decide (0 ≤ f.idx) && decide (f.idx < (f.nd.count : Int))

/-- Position of a cursor: node and index of every frame, leaf first. -/
def position (c : Cursor) : List (Node × Int) := c.map (fun f => (f.nd, f.idx))

/-! ## Position queries -/

def Valid : Cursor → Bool
  | [] => false
  | f :: _ => f.Valid

def Invalidate : Cursor → Cursor
  | [] => []
  | f :: ps => { f with idx := -2147483648 } :: ps

def CurrentKey : Cursor → Option NodeItem
  | [] => none
  | f :: _ => f.nd.GetKey f.idx

def CurrentValue : Cursor → Option NodeItem
  | [] => none
  | f :: _ => f.nd.getValue f.idx

def CurrentRef : Cursor → Option Hash
  | [] => none
  | f :: _ => f.CurrentRef

/-- The pair read by `CurrentCursorTuples`. -/
def CurrentCursorTuples (c : Cursor) : Option (NodeItem × NodeItem) :=
  match CurrentKey c, CurrentValue c with
  | some k, some v => some (k, v)
  | _, _ => none

/-- Method `currentSubtreeSize`: result and the frame with its cache loaded. -/
def currentSubtreeSize : Cursor → Option (Nat × Cursor)
  | [] => none
  | f :: ps =>
    if f.isLeaf then some (1, f :: ps)
    else
      let st := match f.subtrees with
        | none => f.nd.getSubtreeCounts
        | some s => s
      if 0 ≤ f.idx then
        match st[f.idx.toNat]? with
        | some n => some (n, { f with subtrees := some st } :: ps)
        | none => none
      else none

/-! ## Descent factories -/

/-- Loop of `NewCursorAtStart`. -/
def atStartLoop (ns : NodeStore) : Nat → Cursor → List Hash → Ret Unit
  | 0, cur, rs => ⟨cur, rs, .error .fuel⟩
  | _ + 1, [], rs => ⟨[], rs, .error .panic⟩
  | n + 1, f :: ps, rs =>
    if f.isLeaf then ⟨f :: ps, rs, .ok ()⟩
    else
      match f.CurrentRef with
      | none => ⟨f :: ps, rs, .error .panic⟩
      | some h =>
        match (ns h).2 with
        | some e => ⟨[], rs ++ [h], .error (.store e)⟩
        | none => atStartLoop ns n (⟨(ns h).1, 0, none⟩ :: f :: ps) (rs ++ [h])

def NewCursorAtStart (ns : NodeStore) (fuel : Nat) (nd : Node) : Ret Unit :=
  atStartLoop ns fuel [⟨nd, 0, none⟩] []

/-- Loop of `NewCursorAtEnd`. -/
def atEndLoop (ns : NodeStore) : Nat → Cursor → List Hash → Ret Unit
  | 0, cur, rs => ⟨cur, rs, .error .fuel⟩
  | _ + 1, [], rs => ⟨[], rs, .error .panic⟩
  | n + 1, f :: ps, rs =>
    if f.isLeaf then ⟨f :: ps, rs, .ok ()⟩
    else
      match f.CurrentRef with
      | none => ⟨f :: ps, rs, .error .panic⟩
      | some h =>
        match (ns h).2 with
        | some e => ⟨[], rs ++ [h], .error (.store e)⟩
        | none =>
          atEndLoop ns n ((Frame.mk (ns h).1 0 none).skipToNodeEnd :: f :: ps) (rs ++ [h])

def NewCursorAtEnd (ns : NodeStore) (fuel : Nat) (nd : Node) : Ret Unit :=
  atEndLoop ns fuel [(Frame.mk nd 0 none).skipToNodeEnd] []

/-- Loop of `NewCursorFromSearchFn`; the search callback may carry state
(the closure variable of `NewCursorAtOrdinal`). -/
def fromSearchLoop {σ : Type} (ns : NodeStore) (search : σ → Node → Int × σ) :
    Nat → σ → Cursor → List Hash → Ret Unit
  | 0, _, cur, rs => ⟨cur, rs, .error .fuel⟩
  | _ + 1, _, [], rs => ⟨[], rs, .error .panic⟩
  | n + 1, s, f :: ps, rs =>
    if f.isLeaf then ⟨f :: ps, rs, .ok ()⟩
    else
      let f1 := f.keepInBounds
      match f1.CurrentRef with
      | none => ⟨f1 :: ps, rs, .error .panic⟩
      | some h =>
        match (ns h).2 with
        | some e => ⟨f1 :: ps, rs ++ [h], .error (.store e)⟩
        | none =>
          let r := search s (ns h).1
          fromSearchLoop ns search n r.2 (⟨(ns h).1, r.1, none⟩ :: f1 :: ps) (rs ++ [h])

def NewCursorFromSearchFn {σ : Type} (ns : NodeStore) (fuel : Nat) (nd : Node)
    (search : σ → Node → Int × σ) (s : σ) : Ret Unit :=
  let r := search s nd
  fromSearchLoop ns search fuel r.2 [⟨nd, r.1, none⟩] []

def NewCursorAtItem (ns : NodeStore) (fuel : Nat) (nd : Node) (item : NodeItem)
    (search : ItemSearchFn) : Ret Unit :=
  NewCursorFromSearchFn ns fuel nd (fun (_ : Unit) n => (search item n, ())) ()

/-! ## Bidirectional iteration -/

/-- Method `advanceInBounds`. -/
def advanceInBounds (ns : NodeStore) : Cursor → Ret Bool
  | [] => ⟨[], [], .error .panic⟩
  | f :: ps =>
    if f.idx < lastKeyIdx f.nd then ⟨{ f with idx := f.idx + 1 } :: ps, [], .ok true⟩
    else if f.idx = (f.nd.count : Int) then ⟨f :: ps, [], .ok false⟩
    else if !f.atNodeEnd then ⟨f :: ps, [], .error .panic⟩
    else
      match ps with
      | [] => ⟨f :: ps, [], .ok false⟩
      | _ :: _ =>
        let r := advanceInBounds ns ps
        match r.out with
        | .error e => ⟨f :: r.cur, r.reads, .error e⟩
        | .ok false => ⟨f :: r.cur, r.reads, .ok false⟩
        | .ok true =>
          -- fetchNode, skipToNodeStart, drop the cached counts
          match CurrentRef r.cur with
          | none => ⟨f :: r.cur, r.reads, .error .panic⟩
          | some h =>
            match (ns h).2 with
            | some e => ⟨{ f with nd := (ns h).1, idx := -1 } :: r.cur, r.reads ++ [h], .error (.store e)⟩
            | none => ⟨⟨(ns h).1, 0, none⟩ :: r.cur, r.reads ++ [h], .ok true⟩

/-- Overwrite the index of the frame the pointer designates. -/
def setIdx (i : Int) : Cursor → Cursor
  | [] => []
  | f :: ps => { f with idx := i } :: ps

/-- Count of the node of the designated frame, as `int`. -/
def headCount : Cursor → Int
  | [] => 0
  | f :: _ => (f.nd.count : Int)

/-- Method `Advance`. -/
def Advance (ns : NodeStore) (cur : Cursor) : Ret Bool :=
  let r := advanceInBounds ns cur
  match r.out with
  | .error e => ⟨r.cur, r.reads, .error e⟩
  | .ok false => ⟨setIdx (headCount r.cur) r.cur, r.reads, .ok false⟩
  | .ok true => ⟨r.cur, r.reads, .ok true⟩

/-- Method `retreatInBounds`. -/
def retreatInBounds (ns : NodeStore) : Cursor → Ret Bool
  | [] => ⟨[], [], .error .panic⟩
  | f :: ps =>
    if f.idx > 0 then ⟨{ f with idx := f.idx - 1 } :: ps, [], .ok true⟩
    else if f.idx = -1 then ⟨f :: ps, [], .ok false⟩
    else if !f.atNodeStart then ⟨f :: ps, [], .error .panic⟩
    else
      match ps with
      | [] => ⟨f :: ps, [], .ok false⟩
      | _ :: _ =>
        let r := retreatInBounds ns ps
        match r.out with
        | .error e => ⟨f :: r.cur, r.reads, .error e⟩
        | .ok false => ⟨f :: r.cur, r.reads, .ok false⟩
        | .ok true =>
          -- fetchNode, skipToNodeEnd, drop the cached counts
          match CurrentRef r.cur with
          | none => ⟨f :: r.cur, r.reads, .error .panic⟩
          | some h =>
            match (ns h).2 with
            | some e => ⟨{ f with nd := (ns h).1, idx := -1 } :: r.cur, r.reads ++ [h], .error (.store e)⟩
            | none => ⟨⟨(ns h).1, lastKeyIdx (ns h).1, none⟩ :: r.cur, r.reads ++ [h], .ok true⟩

/-- Method `Retreat`. -/
def Retreat (ns : NodeStore) (cur : Cursor) : Ret Bool :=
  let r := retreatInBounds ns cur
  match r.out with
  | .error e => ⟨r.cur, r.reads, .error e⟩
  | .ok false => ⟨setIdx (-1) r.cur, r.reads, .ok false⟩
  | .ok true => ⟨r.cur, r.reads, .ok true⟩

/-! ## Search within a node and seek -/

/-- Loop of Go's `sort.Search`: the interval `[i, j)` is halved until empty.
The first argument bounds the number of iterations. -/
def sortSearchLoop (f : Nat → Option Bool) : Nat → Nat → Nat → Option Nat
  | 0, i, _ => some i
  | fuel + 1, i, j =>
    if i < j then
      let h := (i + j) / 2
      match f h with
      | none => none
      | some false => sortSearchLoop f fuel (h + 1) j
      | some true => sortSearchLoop f fuel i h
    else some i

/-- Go's `sort.Search(n, f)`; `none` when the predicate panics.  The interval
shrinks at every iteration, so `n` iterations always suffice. -/
def sortSearch (n : Nat) (f : Nat → Option Bool) : Option Nat :=
  sortSearchLoop f n 0 n

/-- The closure passed to `sort.Search` by `Cursor.search`. -/
def searchPred (nd : Node) (item : NodeItem) (cb : CompareFn) (i : Nat) : Option Bool :=
  match nd.GetKey (i : Int) with
  | some k => some (decide (cb item k ≤ 0))
  | none => none

/-- Method `search` on the node of a frame. -/
def search (nd : Node) (item : NodeItem) (cb : CompareFn) : Option Int :=
  match sortSearch nd.count (searchPred nd item cb) with
  | some i => some (i : Int)
  | none => none

/-- The `inBounds` flag computed at the head of `seek`; `none` is a panic of
`firstKey` or `lastKey`. -/
def seekInBounds (f : Frame) (hasParent : Bool) (item : NodeItem) (cb : CompareFn) :
    Option Bool :=
  if hasParent then
    match f.firstKey with
    | none => none
    | some fk =>
      if cb item fk ≥ 0 then
        match f.lastKey with
        | none => none
        | some lk => some (decide (cb item lk ≤ 0))
      else some false
  else some true

/-- Apply `keepInBounds` to the designated frame. -/
def keepInBoundsHead : Cursor → Cursor
  | [] => []
  | p :: ps => p.keepInBounds :: ps

/-- Final assignment `cur.idx = cur.search(item, cb)` of `seek`. -/
def seekFinish (f : Frame) (ps : Cursor) (rs : List Hash) (item : NodeItem) (cb : CompareFn) :
    Ret Unit :=
  match search f.nd item cb with
  | none => ⟨f :: ps, rs, .error .panic⟩
  | some i => ⟨{ f with idx := i } :: ps, rs, .ok ()⟩

/-- Method `seek`. -/
def seek (ns : NodeStore) (item : NodeItem) (cb : CompareFn) : Cursor → Ret Unit
  | [] => ⟨[], [], .error .panic⟩
  | f :: ps =>
    match seekInBounds f (!ps.isEmpty) item cb with
    | none => ⟨f :: ps, [], .error .panic⟩
    | some true => seekFinish f ps [] item cb
    | some false =>
      let r := seek ns item cb ps
      match r.out with
      | .error e => ⟨f :: r.cur, r.reads, .error e⟩
      | .ok () =>
        let ps1 := keepInBoundsHead r.cur
        match CurrentRef ps1 with
        | none => ⟨f :: ps1, r.reads, .error .panic⟩
        | some h =>
          match (ns h).2 with
          | some e => ⟨{ f with nd := (ns h).1 } :: ps1, r.reads ++ [h], .error (.store e)⟩
          | none => seekFinish { f with nd := (ns h).1 } ps1 (r.reads ++ [h]) item cb

/-! ## Remaining factories -/

def NewCursorPastEnd (ns : NodeStore) (fuel : Nat) (nd : Node) : Ret Unit :=
  let r := NewCursorAtEnd ns fuel nd
  match r.out with
  | .error e => ⟨[], r.reads, .error e⟩
  | .ok () =>
    let a := Advance ns r.cur
    match a.out with
    | .error e => ⟨[], r.reads ++ a.reads, .error e⟩
    | .ok true => ⟨a.cur, r.reads ++ a.reads, .error .panic⟩
    | .ok false => ⟨a.cur, r.reads ++ a.reads, .ok ()⟩

/-- The `for idx = range subtrees` loop of the ordinal search closure:
`i` is the position reached, `idx` the index variable, `d` the distance. -/
def ordinalLoop : List Nat → Int → Int → Int → Int × Int
  | [], _, idx, d => (idx, d)
  | c :: cs, i, _, d =>
    if wrapInt (d - toInt64 c) < 0 then (i, d)
    else ordinalLoop cs (i + 1) i (wrapInt (d - toInt64 c))

/-- The search closure of `NewCursorAtOrdinal`; its state is `distance`. -/
def ordinalSearch (distance : Int) (nd : Node) : Int × Int :=
  if nd.IsLeaf then (distance, distance)
  else ordinalLoop nd.getSubtreeCounts 0 0 distance

def NewCursorAtOrdinal (ns : NodeStore) (fuel : Nat) (nd : Node) (ord : Nat) : Ret Unit :=
  if ord ≥ nd.TreeCount % 18446744073709551616 then NewCursorPastEnd ns fuel nd
  else NewCursorFromSearchFn ns fuel nd ordinalSearch (toInt64 ord)

/-- Loop of `NewLeafCursorAtItem`: a single frame is reused. -/
def leafCursorLoop (ns : NodeStore) (item : NodeItem) (search : ItemSearchFn) :
    Nat → Frame → List Hash → Ret Unit
  | 0, f, rs => ⟨[f], rs, .error .fuel⟩
  | n + 1, f, rs =>
    if f.isLeaf then ⟨[f], rs, .ok ()⟩
    else
      let f1 := f.keepInBounds
      match f1.CurrentRef with
      | none => ⟨[f1], rs, .error .panic⟩
      | some h =>
        match (ns h).2 with
        | some e => ⟨[{ f1 with nd := (ns h).1 }], rs ++ [h], .error (.store e)⟩
        | none =>
          leafCursorLoop ns item search n
            { f1 with nd := (ns h).1, idx := search item (ns h).1 } (rs ++ [h])

def NewLeafCursorAtItem (ns : NodeStore) (fuel : Nat) (nd : Node) (item : NodeItem)
    (search : ItemSearchFn) : Ret Unit :=
  leafCursorLoop ns item search fuel ⟨nd, search item nd, none⟩ []

/-! ## Comparison, clone, copy -/

/-- Loop of `compareCursors`; `none` is a `nil` dereference. -/
def compareLoop : Int → Cursor → Cursor → Option Int
  | _, [], _ => none
  | _, _ :: _, [] => none
  | diff, l :: lp, r :: rp =>
    let d := wrapInt (l.idx - r.idx)
    let diff1 := if d ≠ 0 then d else diff
    if lp.isEmpty || rp.isEmpty then some diff1
    else compareLoop diff1 lp rp

def compareCursors (left right : Cursor) : Option Int := compareLoop 0 left right

/-- Method `Compare`. -/
def Compare (cur other : Cursor) : Option Int := compareCursors cur other

/-- Method `Clone`: node and index of every frame; the cache is not copied. -/
def Clone : Cursor → Cursor
  | [] => []
  | f :: ps => ⟨f.nd, f.idx, none⟩ :: Clone ps

/-- Method `copy`; `none` is a failed depth assertion. -/
def copy : Cursor → Cursor → Option Cursor
  | [], _ => none
  | _ :: _, [] => none
  | c :: cp, o :: op =>
    match cp, op with
    | [], [] => some [{ c with nd := o.nd, idx := o.idx }]
    | [], _ :: _ => none
    | _ :: _, [] => none
    | _ :: _, _ :: _ =>
      match copy cp op with
      | some cp1 => some ({ c with nd := o.nd, idx := o.idx } :: cp1)
      | none => none

/-! ## Trees in a store

The predicates below describe the trees the cursor is specified for.  The
first argument after the store is the level of the node. -/

/-- Shape of a reachable node: at least one entry, a `uint16` count that is
the number of keys, and a byte backing. -/
def NodeShape (nd : Node) : Prop :=
  1 ≤ nd.count ∧ nd.count < 65536 ∧ nd.keys.length = nd.count ∧ nd.hasBytes = true

/-- Well-formed tree: every reachable node has a proper shape, levels go
down by one per descent to 0, and every child read succeeds. -/
def WellFormed (ns : NodeStore) : Nat → Node → Prop
  | 0, nd => NodeShape nd ∧ nd.level = 0 ∧ nd.values.length = nd.count
  | l + 1, nd => NodeShape nd ∧ nd.level = l + 1 ∧ nd.refs.length = nd.count ∧
      ∀ h ∈ nd.refs, (ns h).2 = none ∧ WellFormed ns l (ns h).1

/-- Number of leaf entries below a node. -/
def treeSize (ns : NodeStore) : Nat → Node → Nat
  | 0, nd => nd.count
  | l + 1, nd => (nd.refs.map (fun h => treeSize ns l (ns h).1)).sum

/-- In-order sequence of the leaf entries below a node. -/
def entries (ns : NodeStore) : Nat → Node → List (NodeItem × NodeItem)
  | 0, nd => nd.keys.zip nd.values
  | l + 1, nd => (nd.refs.map (fun h => entries ns l (ns h).1)).flatten

/-- In-order sequence of the leaf keys below a node. -/
def treeKeys (ns : NodeStore) (l : Nat) (nd : Node) : List NodeItem :=
  (entries ns l nd).map Prod.fst

/-- Number of leaf entries below the first `i` items of a node. -/
def before (ns : NodeStore) : Nat → Node → Nat → Nat
  | 0, _, i => i
  | l + 1, nd, i => ((nd.refs.take i).map (fun h => treeSize ns l (ns h).1)).sum

/-- Subtree counts agree with the tree: each cached cardinality is the
number of leaf entries under the child at the same index, and the tree count
is their total, at every node. -/
def Consistent (ns : NodeStore) : Nat → Node → Prop
  | 0, nd => nd.treeCount = nd.count
  | l + 1, nd => nd.treeCount = treeSize ns (l + 1) nd ∧
      nd.subtrees = nd.refs.map (fun h => treeSize ns l (ns h).1) ∧
      ∀ h ∈ nd.refs, Consistent ns l (ns h).1

/-- Attachment `Attached ns root nd ps`: the node `nd` hangs below the frames `ps`,
whose last frame holds `root`; every frame of `ps` is in bounds, one level
above the node below it, and its child reference reads that node. -/
def Attached (ns : NodeStore) (root : Node) : Node → Cursor → Prop
  | nd, [] => nd = root
  | nd, p :: ps => 0 ≤ p.idx ∧ p.idx < (p.nd.count : Int) ∧ p.nd.level = nd.level + 1 ∧
      p.CurrentRef.map (fun h => (ns h).1) = some nd ∧ Attached ns root p.nd ps

/-- A cursor positioned on the tree of `root`: all frames above the leaf
frame are in bounds and linked; the index of the head frame is free. -/
def OnTree (ns : NodeStore) (root : Node) : Cursor → Prop
  | [] => False
  | f :: ps => Attached ns root f.nd ps

/-- Number of leaf entries that precede the subtree designated by the
frames `ps` (each taken at its index). -/
def rankAbove (ns : NodeStore) : Cursor → Nat
  | [] => 0
  | p :: ps => before ns p.nd.level p.nd p.idx.toNat + rankAbove ns ps

/-- Traversal index of a cursor: 0-based rank of its position in the
in-order sequence of leaf entries. -/
def rank (ns : NodeStore) : Cursor → Int
  | [] => 0
  | f :: ps => f.idx + (rankAbove ns ps : Int)

/-- Repeated `Advance` from the current position, recording the entry under
the cursor before each call, until `Advance` returns false.  `none` when a
call fails or the bound on the number of calls is reached first. -/
def scanForward (ns : NodeStore) : Nat → Cursor → Option (List (NodeItem × NodeItem))
  | 0, _ => none
  | n + 1, c =>
    match CurrentCursorTuples c with
    | none => none
    | some e =>
      match (Advance ns c).out with
      | .error _ => none
      | .ok false => some [e]
      | .ok true => (scanForward ns n (Advance ns c).cur).map (fun es => e :: es)

/-- Repeated `Retreat`, as `scanForward`. -/
def scanBackward (ns : NodeStore) : Nat → Cursor → Option (List (NodeItem × NodeItem))
  | 0, _ => none
  | n + 1, c =>
    match CurrentCursorTuples c with
    | none => none
    | some e =>
      match (Retreat ns c).out with
      | .error _ => none
      | .ok false => some [e]
      | .ok true => (scanBackward ns n (Retreat ns c).cur).map (fun es => e :: es)

/-- Apply `Advance` `k` times, stopping at the first call that does not
return true. -/
def advanceTimes (ns : NodeStore) : Nat → Cursor → Option Cursor
  | 0, c => some c
  | k + 1, c =>
    match (Advance ns c).out with
    | .ok true => advanceTimes ns k (Advance ns c).cur
    | _ => none

/-! ## Example trees -/

/-- Bytewise lexicographic comparison of two items. -/
def bytesCompare : CompareFn
  | [], [] => 0
  | [], _ :: _ => -1
  | _ :: _, [] => 1
  | a :: as, b :: bs => if a < b then -1 else if b < a then 1 else bytesCompare as bs

/-- A leaf node with the given keys and values. -/
def mkLeaf (ks vs : List NodeItem) : Node := ⟨ks, vs, [], [], ks.length, 0, ks.length, true⟩

/-- The tree `[(a,1),(b,2),(c,3)]`: a single leaf. -/
def abcTree : Node := mkLeaf [[97], [98], [99]] [[49], [50], [51]]

/-- A store without chunks: every read fails. -/
def emptyStore : NodeStore := fun _ => (Node.zero, some ⟨1⟩)

/-- Leaf chunk `[k0,k1]`. -/
def chunkA : Node := mkLeaf [[10], [11]] [[0], [1]]

/-- Leaf chunk `[k2,k3]`. -/
def chunkB : Node := mkLeaf [[20], [21]] [[2], [3]]

/-- Root over the two leaf chunks. -/
def twoChunkRoot : Node := ⟨[[11], [21]], [], [1, 2], [2, 2], 2, 1, 4, true⟩

/-- Store holding the two leaf chunks under the hashes 1 and 2. -/
def twoChunkStore : NodeStore := fun h =>
  match h with
  | 1 => (chunkA, none)
  | 2 => (chunkB, none)
  | _ => (Node.zero, some ⟨1⟩)

/-- A cursor on the tree whose head frame is in bounds as well. -/
def InBounds (ns : NodeStore) (root : Node) : Cursor → Prop
  | [] => False
  | f :: ps => Attached ns root f.nd ps ∧ 0 ≤ f.idx ∧ f.idx < (f.nd.count : Int)

/-- Number of leaf entries up to the end of the item under the cursor. -/
def rankAfter (ns : NodeStore) : Cursor → Nat
  | [] => 0
  | f :: ps => rankAbove ns ps + before ns f.nd.level f.nd (f.idx.toNat + 1)

/-- Levels of the frames of a cursor, leaf first. -/
def levels (c : Cursor) : List Nat := c.map (fun f => f.nd.level)

/-- Decision procedure for the shape of a node. -/
instance NodeShape.decide (nd : Node) : Decidable (NodeShape nd) :=
  inferInstanceAs (Decidable (1 ≤ nd.count ∧ nd.count < 65536 ∧ nd.keys.length = nd.count ∧
    nd.hasBytes = true))

/-- Decision procedure for well-formedness, by recursion on the level. -/
def WellFormed.decide (ns : NodeStore) : (l : Nat) → (nd : Node) → Decidable (WellFormed ns l nd)
  | 0, nd =>
    inferInstanceAs (Decidable (NodeShape nd ∧ nd.level = 0 ∧ nd.values.length = nd.count))
  | l + 1, nd =>
    have : ∀ h, Decidable (WellFormed ns l (ns h).1) := fun h => WellFormed.decide ns l (ns h).1
    inferInstanceAs (Decidable (NodeShape nd ∧ nd.level = l + 1 ∧ nd.refs.length = nd.count ∧
      ∀ h ∈ nd.refs, (ns h).2 = none ∧ WellFormed ns l (ns h).1))

instance (ns : NodeStore) (l : Nat) (nd : Node) : Decidable (WellFormed ns l nd) :=
  WellFormed.decide ns l nd

/-- Decision procedure for attachment, by recursion on the frames. -/
def Attached.decide (ns : NodeStore) (root : Node) :
    (nd : Node) → (ps : Cursor) → Decidable (Attached ns root nd ps)
  | nd, [] => inferInstanceAs (Decidable (nd = root))
  | nd, p :: ps =>
    have : Decidable (Attached ns root p.nd ps) := Attached.decide ns root p.nd ps
    inferInstanceAs (Decidable (0 ≤ p.idx ∧ p.idx < (p.nd.count : Int) ∧
      p.nd.level = nd.level + 1 ∧ p.CurrentRef.map (fun h => (ns h).1) = some nd ∧
      Attached ns root p.nd ps))

instance (ns : NodeStore) (root nd : Node) (ps : Cursor) : Decidable (Attached ns root nd ps) :=
  Attached.decide ns root nd ps

instance (ns : NodeStore) (root : Node) : (c : Cursor) → Decidable (OnTree ns root c)
  | [] => inferInstanceAs (Decidable False)
  | f :: ps => inferInstanceAs (Decidable (Attached ns root f.nd ps))

instance (ns : NodeStore) (root : Node) : (c : Cursor) → Decidable (InBounds ns root c)
  | [] => inferInstanceAs (Decidable False)
  | f :: ps => inferInstanceAs (Decidable (Attached ns root f.nd ps ∧ 0 ≤ f.idx ∧
      f.idx < (f.nd.count : Int)))

/-- Decision procedure for consistency of the counts, by recursion on the level. -/
def Consistent.decide (ns : NodeStore) : (l : Nat) → (nd : Node) → Decidable (Consistent ns l nd)
  | 0, nd => inferInstanceAs (Decidable (nd.treeCount = nd.count))
  | l + 1, nd =>
    have : ∀ h, Decidable (Consistent ns l (ns h).1) := fun h => Consistent.decide ns l (ns h).1
    inferInstanceAs (Decidable (nd.treeCount = treeSize ns (l + 1) nd ∧
      nd.subtrees = nd.refs.map (fun h => treeSize ns l (ns h).1) ∧
      ∀ h ∈ nd.refs, Consistent ns l (ns h).1))

instance (ns : NodeStore) (l : Nat) (nd : Node) : Decidable (Consistent ns l nd) :=
  Consistent.decide ns l nd

/-! ## Ordered trees and the seek-to-key callback -/

/-- The compare function orders the items totally: the signs of `cmp a b`
and `cmp b a` are opposite, and `≤` is transitive. -/
structure TotalOrder (cmp : CompareFn) : Prop where
  flip : ∀ a b, cmp a b < 0 ↔ 0 < cmp b a
  trans : ∀ a b c, cmp a b ≤ 0 → cmp b c ≤ 0 → cmp a c ≤ 0

/-- Every key of an internal node is the largest (last) key of the subtree of
the child at the same index. -/
def Separators (ns : NodeStore) : Nat → Node → Prop
  | 0, _ => True
  | l + 1, nd => ∀ p ∈ nd.keys.zip nd.refs,
      (treeKeys ns l (ns p.2).1).getLast? = some p.1 ∧ Separators ns l (ns p.2).1

/-- Keys strictly increasing in traversal order, and separator keys. -/
def KeyOrder (cmp : CompareFn) (ns : NodeStore) (l : Nat) (nd : Node) : Prop :=
  (treeKeys ns l nd).Pairwise (fun a b => cmp a b < 0) ∧ Separators ns l nd

/-- Decision procedure for the separator keys, by recursion on the level. -/
def Separators.decide (ns : NodeStore) : (l : Nat) → (nd : Node) → Decidable (Separators ns l nd)
  | 0, _ => inferInstanceAs (Decidable True)
  | l + 1, nd =>
    have : ∀ h, Decidable (Separators ns l (ns h).1) := fun h => Separators.decide ns l (ns h).1
    inferInstanceAs (Decidable (∀ p ∈ nd.keys.zip nd.refs,
      (treeKeys ns l (ns p.2).1).getLast? = some p.1 ∧ Separators ns l (ns p.2).1))

instance (ns : NodeStore) (l : Nat) (nd : Node) : Decidable (Separators ns l nd) :=
  Separators.decide ns l nd

instance (cmp : CompareFn) (ns : NodeStore) (l : Nat) (nd : Node) :
    Decidable (KeyOrder cmp ns l nd) :=
  inferInstanceAs (Decidable ((treeKeys ns l nd).Pairwise (fun a b => cmp a b < 0) ∧
    Separators ns l nd))

/-- The lowest-index search callback: the first `i` with
`cmp item key(i) ≤ 0`, else the count. -/
def lowestIndexSearch (cmp : CompareFn) : ItemSearchFn := fun item nd =>
  (((nd.keys.take nd.count).findIdx (fun k => decide (cmp item k ≤ 0)) : Nat) : Int)

/-- Leaf keys below the first `i` children of an internal node. -/
def keysBefore (ns : NodeStore) (l : Nat) (nd : Node) (i : Nat) : List NodeItem :=
  ((nd.refs.take i).map (fun h => treeKeys ns l (ns h).1)).flatten

/-- Leaf keys below the children after child `i` of an internal node. -/
def keysAfter (ns : NodeStore) (l : Nat) (nd : Node) (i : Nat) : List NodeItem :=
  ((nd.refs.drop (i + 1)).map (fun h => treeKeys ns l (ns h).1)).flatten

/-- State `PastEnd` of the leaf frame: the index equals the count. -/
def PastEnd : Cursor → Prop
  | [] => False
  | f :: _ => f.idx = (f.nd.count : Int)

instance : (c : Cursor) → Decidable (PastEnd c)
  | [] => inferInstanceAs (Decidable False)
  | f :: _ => inferInstanceAs (Decidable (f.idx = (f.nd.count : Int)))

/-- Lower bound of an item in a key sequence: the index of the first key the
item does not exceed, or the length. -/
def lowerBound (cmp : CompareFn) (item : NodeItem) (ks : List NodeItem) : Nat :=
  ks.findIdx (fun k => decide (cmp item k ≤ 0))

/-- The subtree of `nd`, hanging below the frames `ps`, covers the lower
bound of the item in the whole tree: the bound is the bound inside the
subtree shifted by the rank of the subtree, and it falls inside the subtree
unless the item exceeds every key of the tree. -/
def Covers (cmp : CompareFn) (ns : NodeStore) (root : Node) (item : NodeItem) (nd : Node)
    (ps : Cursor) : Prop :=
  lowerBound cmp item (treeKeys ns root.level root)
      = rankAbove ns ps + lowerBound cmp item (treeKeys ns nd.level nd) ∧
    (lowerBound cmp item (treeKeys ns nd.level nd) < treeSize ns nd.level nd ∨
      lowerBound cmp item (treeKeys ns root.level root) = treeSize ns root.level root)

/-- The cursor returned by `NewCursorAtItem` with the lowest-index search
callback. -/
def cursorAtItem (ns : NodeStore) (fuel : Nat) (root : Node) (cmp : CompareFn) (item : NodeItem) :
    Cursor :=
  (NewCursorAtItem ns fuel root item (lowestIndexSearch cmp)).cur

/-! ## Cursor comparison -/

/-- Index difference of two cursors at the frame nearest the root where the
indices differ, 0 when none differ. -/
def lexDiff : Cursor → Cursor → Int
  | [], _ => 0
  | _ :: _, [] => 0
  | l :: lp, r :: rp => if lexDiff lp rp ≠ 0 then lexDiff lp rp else l.idx - r.idx

/-- Every frame is at the last index of its node. -/
def AllLast (ps : Cursor) : Prop := ∀ p ∈ ps, p.idx = lastKeyIdx p.nd

/-- Every frame is at index 0. -/
def AllFirst (ps : Cursor) : Prop := ∀ p ∈ ps, p.idx = 0

instance (ps : Cursor) : Decidable (AllLast ps) :=
  inferInstanceAs (Decidable (∀ p ∈ ps, p.idx = lastKeyIdx p.nd))

instance (ps : Cursor) : Decidable (AllFirst ps) :=
  inferInstanceAs (Decidable (∀ p ∈ ps, p.idx = 0))

/-- A leaf cursor at a position of the traversal: on an entry, or past the
end of the last leaf chunk (where `Advance` leaves it), or before the start
of the first leaf chunk (where `Retreat` leaves it). -/
def Positioned (ns : NodeStore) (root : Node) : Cursor → Prop
  | [] => False
  | f :: ps => Attached ns root f.nd ps ∧ f.nd.level = 0 ∧
      ((0 ≤ f.idx ∧ f.idx < (f.nd.count : Int)) ∨ (f.idx = (f.nd.count : Int) ∧ AllLast ps) ∨
        (f.idx = -1 ∧ AllFirst ps))

instance (ns : NodeStore) (root : Node) : (c : Cursor) → Decidable (Positioned ns root c)
  | [] => inferInstanceAs (Decidable False)
  | f :: ps => inferInstanceAs (Decidable (Attached ns root f.nd ps ∧ f.nd.level = 0 ∧
      ((0 ≤ f.idx ∧ f.idx < (f.nd.count : Int)) ∨ (f.idx = (f.nd.count : Int) ∧ AllLast ps) ∨
        (f.idx = -1 ∧ AllFirst ps))))

/-- Index of the leaf frame, as `int`. -/
def headIdx : Cursor → Int
  | [] => 0
  | f :: _ => f.idx

/-- Traversal index with the sentinel states read off the leaf frame alone:
the tree count when the leaf index equals the count, -1 when it is -1, the
rank otherwise. -/
def traversalIndex (ns : NodeStore) (root : Node) (c : Cursor) : Int :=
  if headIdx c = headCount c then (root.TreeCount : Int)
  else if headIdx c = -1 then -1
  else rank ns c

/-- A cursor in the first leaf chunk with the leaf index equal to the count. -/
def endOfChunkA : Cursor := [⟨chunkA, 2, none⟩, ⟨twoChunkRoot, 0, none⟩]

/-- A cursor on the first entry of the second leaf chunk. -/
def startOfChunkB : Cursor := [⟨chunkB, 0, none⟩, ⟨twoChunkRoot, 1, none⟩]

/-- A cursor on the last entry of the first leaf chunk. -/
def lastOfChunkA : Cursor := [⟨chunkA, 1, none⟩, ⟨twoChunkRoot, 0, none⟩]

/-- The item lies between the first and the last key of the node of the
frame: the test `seek` makes on a frame that has a parent. -/
def Bracketed (cmp : CompareFn) (item : NodeItem) (f : Frame) : Prop :=
  ∃ fk lk, f.firstKey = some fk ∧ f.lastKey = some lk ∧ cmp item fk ≥ 0 ∧ cmp item lk ≤ 0

/-- Apply `keepInBounds` to every frame above the leaf frame. -/
def clampAbove : Cursor → Cursor
  | [] => []
  | f :: ps => f :: ps.map Frame.keepInBounds

/-- Store in which the first leaf chunk reads and the second one fails. -/
def brokenStore : NodeStore := fun h =>
  match h with
  | 1 => (chunkA, none)
  | _ => (Node.zero, some ⟨7⟩)

/-- Store in which the second leaf chunk reads and the first one fails. -/
def brokenStoreA : NodeStore := fun h =>
  match h with
  | 2 => (chunkB, none)
  | _ => (Node.zero, some ⟨7⟩)

/-- The result of `Compare` as the specification words it: the index
difference of the leaf frames when it is non-zero, otherwise the difference at
the nearest frame above whose indices differ, 0 when none differ. -/
def deepestDiff : Cursor → Cursor → Int
  | [], _ => 0
  | _ :: _, [] => 0
  | l :: lp, r :: rp => if l.idx - r.idx ≠ 0 then l.idx - r.idx else deepestDiff lp rp

/-- The call `cur.parent.currentSubtreeSize()`: its result and the cursor
with the cache of the parent frame loaded. -/
def parentSubtreeSize : Cursor → Option (Nat × Cursor)
  | [] => none
  | f :: ps =>
    match currentSubtreeSize ps with
    | some r => some (r.1, f :: r.2)
    | none => none

/-- Leaf chunk `[k4]`. -/
def chunkC : Node := mkLeaf [[30]] [[4]]

/-- Leaf chunk `[k5,k6,k7]`. -/
def chunkD : Node := mkLeaf [[40], [41], [42]] [[5], [6], [7]]

/-- Internal node over the chunks `chunkA` and `chunkB`. -/
def midLeft : Node := ⟨[[11], [21]], [], [1, 2], [2, 2], 2, 1, 4, true⟩

/-- Internal node over the chunks `chunkC` and `chunkD`. -/
def midRight : Node := ⟨[[30], [42]], [], [3, 4], [1, 3], 2, 1, 4, true⟩

/-- Root of a tree of three levels and eight entries. -/
def tallRoot : Node := ⟨[[21], [42]], [], [5, 6], [4, 4], 2, 2, 8, true⟩

/-- Store of the three-level tree. -/
def tallStore : NodeStore := fun h =>
  match h with
  | 1 => (chunkA, none)
  | 2 => (chunkB, none)
  | 3 => (chunkC, none)
  | 4 => (chunkD, none)
  | 5 => (midLeft, none)
  | 6 => (midRight, none)
  | _ => (Node.zero, some ⟨1⟩)

/-- The cursor of `NewCursorAtStart` on the three-level tree after one call
of `currentSubtreeSize` on its parent frame. -/
def cachedAtStart : Cursor :=
  [⟨chunkA, 0, none⟩, ⟨midLeft, 0, some [2, 2]⟩, ⟨tallRoot, 0, none⟩]

/-- A cursor on the entry `k6` of the three-level tree, no cache loaded. -/
def atK6 : Cursor := [⟨chunkD, 1, none⟩, ⟨midRight, 1, none⟩, ⟨tallRoot, 1, none⟩]

/-- The cursor on `k6` whose parent frame carries the counts of `midLeft`. -/
def staleAtK6 : Cursor :=
  [⟨chunkD, 1, none⟩, ⟨midRight, 1, some [2, 2]⟩, ⟨tallRoot, 1, none⟩]

/-! ## Sequences of cursor operations -/

/-- One call on a cursor. -/
inductive Op where
  | advance
  | retreat
  | seek (item : NodeItem)
deriving DecidableEq, Repr

/-- Run a sequence of calls of `Advance`, `Retreat` and `seek`, stopping at
the first one that does not return normally. -/
def runOps (ns : NodeStore) (cb : CompareFn) : List Op → Cursor → Except Fault Cursor
  | [], c => .ok c
  | .advance :: ops, c =>
    match (Advance ns c).out with
    | .error e => .error e
    | .ok _ => runOps ns cb ops (Advance ns c).cur
  | .retreat :: ops, c =>
    match (Retreat ns c).out with
    | .error e => .error e
    | .ok _ => runOps ns cb ops (Retreat ns c).cur
  | .seek item :: ops, c =>
    match (seek ns item cb c).out with
    | .error e => .error e
    | .ok _ => runOps ns cb ops (seek ns item cb c).cur

/-- Frame linkage invariant: every frame above the leaf frame is in bounds
and its child reference reads the node of the frame below; the designated
frame is a leaf whose index lies in [-1, count]. -/
def Linked (ns : NodeStore) (root : Node) (c : Cursor) : Prop :=
  OnTree ns root c ∧ (levels c).head? = some 0 ∧ -1 ≤ headIdx c ∧ headIdx c ≤ headCount c

instance (ns : NodeStore) (root : Node) (c : Cursor) : Decidable (Linked ns root c) :=
  inferInstanceAs (Decidable (OnTree ns root c ∧ (levels c).head? = some 0 ∧ -1 ≤ headIdx c ∧
    headIdx c ≤ headCount c))

/-- Leaf with a run of equal keys: `a`, `b`, `b`, `d`. -/
def dupLeaf : Node := mkLeaf [[97], [98], [98], [100]] [[1], [2], [3], [4]]

/-- An empty root leaf: no keys, count 0, with a backing buffer. -/
def emptyLeaf : Node := mkLeaf [] []

/-! ## A tree with more than 2^63 entries

A content-addressed store holds a subtree once, however often it is
referenced, so a tree with more than 2^63 leaf entries takes eleven chunks. -/

/-- Internal node whose `n` items all carry the key `k` and reference the
same child `h` of `size` entries. -/
def fanNode (n : Nat) (k : NodeItem) (h : Hash) (size level : Nat) : Node :=
  ⟨List.replicate n k, [], List.replicate n h, List.replicate n size, n, level, n * size, true⟩

/-- Leaf chunk of four entries. -/
def wideLeaf : Node := mkLeaf [[20], [21], [22], [23]] [[0], [1], [2], [3]]

/-- Root over one subtree of 2 entries and three references to one subtree
of 2^62 entries: 2 + 3 * 2^62 entries in all. -/
def giantRoot : Node :=
  ⟨[[11], [23], [23], [23]], [], [14, 24, 24, 24],
    [2, 4611686018427387904, 4611686018427387904, 4611686018427387904], 4, 5,
    13835058055282163714, true⟩

/-- Store of the tree of `giantRoot`: a chain of single-item nodes over
`chunkA`, and four levels of fan-out 32768 over `wideLeaf`. -/
def giantStore : NodeStore := fun h =>
  match h with
  | 10 => (chunkA, none)
  | 11 => (fanNode 1 [11] 10 2 1, none)
  | 12 => (fanNode 1 [11] 11 2 2, none)
  | 13 => (fanNode 1 [11] 12 2 3, none)
  | 14 => (fanNode 1 [11] 13 2 4, none)
  | 20 => (wideLeaf, none)
  | 21 => (fanNode 32768 [23] 20 4 1, none)
  | 22 => (fanNode 32768 [23] 21 131072 2, none)
  | 23 => (fanNode 32768 [23] 22 4294967296 3, none)
  | 24 => (fanNode 32768 [23] 23 140737488355328 4, none)
  | _ => (Node.zero, some ⟨1⟩)

end Prolly

/-! # Theorems -/

namespace Prolly

theorem lastKeyIdx_of_shape {nd : Node} (h : NodeShape nd) : lastKeyIdx nd = (nd.count : Int) - 1 := by
  obtain ⟨h1, h2, -, -⟩ := h
  unfold lastKeyIdx
  omega

theorem WellFormed.shape {ns : NodeStore} {l : Nat} {nd : Node} (h : WellFormed ns l nd) :
    NodeShape nd := by
  cases l with
  | zero => exact h.1
  | succ l => exact h.1

theorem WellFormed.level_eq {ns : NodeStore} {l : Nat} {nd : Node} (h : WellFormed ns l nd) :
    nd.level = l := by
  cases l with
  | zero => exact h.2.1
  | succ l => exact h.2.1

theorem getRef_of_lt {nd : Node} {i : Int} (h0 : 0 ≤ i) (h1 : i.toNat < nd.refs.length) :
    nd.getRef i = some (nd.refs.get ⟨i.toNat, h1⟩) := by
  unfold Node.getRef
  simp [h0, List.getElem?_eq_getElem h1]

theorem getRef_some {nd : Node} {i : Int} {h : Hash} (hr : nd.getRef i = some h) :
    0 ≤ i ∧ nd.refs[i.toNat]? = some h := by
  unfold Node.getRef at hr
  split at hr
  · exact ⟨by assumption, hr⟩
  · cases hr

/-- Child of a well-formed internal node at an index in bounds. -/
theorem WellFormed.child {ns : NodeStore} {l : Nat} {nd : Node} (h : WellFormed ns (l + 1) nd)
    {i : Int} (h0 : 0 ≤ i) (h1 : i < (nd.count : Int)) :
    ∃ r, nd.getRef i = some r ∧ nd.refs[i.toNat]? = some r ∧ (ns r).2 = none ∧
      WellFormed ns l (ns r).1 := by
  obtain ⟨-, -, hlen, hch⟩ := h
  have hlt : i.toNat < nd.refs.length := by omega
  refine ⟨nd.refs.get ⟨i.toNat, hlt⟩, getRef_of_lt h0 hlt, ?_, ?_⟩
  · simp [List.getElem?_eq_getElem hlt]
  · exact hch _ (List.get_mem _ _ _)

theorem before_zero (ns : NodeStore) (l : Nat) (nd : Node) : before ns l nd 0 = 0 := by
  cases l <;> simp [before]

theorem before_succ_internal {ns : NodeStore} {l : Nat} {nd : Node} {i : Nat} {r : Hash}
    (hr : nd.refs[i]? = some r) :
    before ns (l + 1) nd (i + 1) = before ns (l + 1) nd i + treeSize ns l (ns r).1 := by
  simp [before, List.take_succ, hr]

theorem before_count {ns : NodeStore} {l : Nat} {nd : Node} (h : WellFormed ns l nd) :
    before ns l nd nd.count = treeSize ns l nd := by
  cases l with
  | zero => simp [before, treeSize]
  | succ l =>
    obtain ⟨-, -, hlen, -⟩ := h
    simp [before, treeSize, ← hlen]

theorem before_mono (ns : NodeStore) (l : Nat) (nd : Node) {i j : Nat} (h : i ≤ j) :
    before ns l nd i ≤ before ns l nd j := by
  cases l with
  | zero => simpa [before] using h
  | succ l =>
    induction j with
    | zero =>
      have : i = 0 := by omega
      subst this; exact Nat.le_refl _
    | succ j ih =>
      rcases Nat.lt_or_ge i (j + 1) with hlt | hge
      · have h1 := ih (by omega)
        refine Nat.le_trans h1 ?_
        simp only [before, List.take_succ, List.map_append, List.sum_append]
        omega
      · have : i = j + 1 := by omega
        subst this; exact Nat.le_refl _

theorem treeSize_pos {ns : NodeStore} : ∀ {l : Nat} {nd : Node}, WellFormed ns l nd →
    1 ≤ treeSize ns l nd
  | 0, nd, h => by simpa [treeSize] using h.1.1
  | l + 1, nd, h => by
    obtain ⟨hs, -, hlen, hch⟩ := h
    have hpos : 0 < nd.refs.length := by have := hs.1; omega
    cases hrefs : nd.refs with
    | nil => simp [hrefs] at hpos
    | cons r rs =>
      have := treeSize_pos (hch r (by simp [hrefs])).2
      simp only [treeSize, hrefs, List.map_cons, List.sum_cons]
      omega

theorem entries_length {ns : NodeStore} : ∀ {l : Nat} {nd : Node}, WellFormed ns l nd →
    (entries ns l nd).length = treeSize ns l nd
  | 0, nd, h => by
    obtain ⟨hs, -, hv⟩ := h
    simp [entries, treeSize, hs.2.2.1, hv]
  | l + 1, nd, h => by
    obtain ⟨-, -, -, hch⟩ := h
    simp only [entries, treeSize, List.length_flatten, List.map_map]
    congr 1
    apply List.map_congr_left
    intro r hr
    exact entries_length (hch r hr).2

/-- The link of a frame to the node below it, spelled out. -/
theorem Attached.link {ns : NodeStore} {root nd : Node} {p : Frame} {ps : Cursor}
    (h : Attached ns root nd (p :: ps)) :
    ∃ r, p.nd.getRef p.idx = some r ∧ (ns r).1 = nd := by
  obtain ⟨-, -, -, hl, -⟩ := h
  unfold Frame.CurrentRef at hl
  cases hg : p.nd.getRef p.idx with
  | none => simp [hg] at hl
  | some r => exact ⟨r, rfl, by simpa [hg] using hl⟩

/-- Every node of a cursor attached to a well-formed root is well formed. -/
theorem Attached.wf {ns : NodeStore} {root : Node} (hroot : WellFormed ns root.level root) :
    ∀ {ps : Cursor} {nd : Node}, Attached ns root nd ps → WellFormed ns nd.level nd
  | [], nd, h => by
    have : nd = root := h
    subst this; exact hroot
  | p :: ps, nd, h => by
    have hp : WellFormed ns p.nd.level p.nd := Attached.wf hroot h.2.2.2.2
    obtain ⟨r, hr, hnd⟩ := h.link
    obtain ⟨h0, h1, hlev, -, -⟩ := h
    rw [hlev] at hp
    obtain ⟨r2, hr2, -, -, hwf⟩ := hp.child h0 h1
    rw [hr] at hr2
    cases hr2
    rw [hnd] at hwf
    exact hwf

/-! ## Equations of `advanceInBounds` and `retreatInBounds` -/

theorem advanceInBounds_step (ns : NodeStore) {f : Frame} (ps : Cursor)
    (h : f.idx < lastKeyIdx f.nd) :
    advanceInBounds ns (f :: ps) = ⟨{ f with idx := f.idx + 1 } :: ps, [], .ok true⟩ := by
  simp [advanceInBounds, h]

theorem advanceInBounds_past (ns : NodeStore) {f : Frame} (ps : Cursor)
    (h : ¬ f.idx < lastKeyIdx f.nd) (hc : f.idx = (f.nd.count : Int)) :
    advanceInBounds ns (f :: ps) = ⟨f :: ps, [], .ok false⟩ := by
  have h2 := h
  rw [hc] at h2
  simp [advanceInBounds, h2, hc]

theorem advanceInBounds_root (ns : NodeStore) {f : Frame} (h : f.idx = lastKeyIdx f.nd) :
    advanceInBounds ns [f] = ⟨[f], [], .ok false⟩ := by
  have hlt : ¬ f.idx < lastKeyIdx f.nd := by omega
  simp [advanceInBounds, hlt, Frame.atNodeEnd, h]

theorem advanceInBounds_up_false (ns : NodeStore) {f p : Frame} (pps : Cursor)
    (h : f.idx = lastKeyIdx f.nd) (hc : ¬ f.idx = (f.nd.count : Int))
    (ho : (advanceInBounds ns (p :: pps)).out = .ok false) :
    advanceInBounds ns (f :: p :: pps) =
      ⟨f :: (advanceInBounds ns (p :: pps)).cur, (advanceInBounds ns (p :: pps)).reads, .ok false⟩ := by
  have hlt : ¬ f.idx < lastKeyIdx f.nd := by omega
  have hend : f.atNodeEnd = true := by simp [Frame.atNodeEnd, h]
  rw [advanceInBounds]
  simp [hlt, hc, hend, ho]

theorem advanceInBounds_up_true (ns : NodeStore) {f p : Frame} (pps : Cursor) {r : Hash}
    (h : f.idx = lastKeyIdx f.nd) (hc : ¬ f.idx = (f.nd.count : Int))
    (ho : (advanceInBounds ns (p :: pps)).out = .ok true)
    (hr : CurrentRef (advanceInBounds ns (p :: pps)).cur = some r) (hs : (ns r).2 = none) :
    advanceInBounds ns (f :: p :: pps) =
      ⟨⟨(ns r).1, 0, none⟩ :: (advanceInBounds ns (p :: pps)).cur,
        (advanceInBounds ns (p :: pps)).reads ++ [r], .ok true⟩ := by
  have hlt : ¬ f.idx < lastKeyIdx f.nd := by omega
  have hend : f.atNodeEnd = true := by simp [Frame.atNodeEnd, h]
  rw [advanceInBounds]
  simp [hlt, hc, hend, ho, hr, hs]

theorem retreatInBounds_step (ns : NodeStore) {f : Frame} (ps : Cursor) (h : f.idx > 0) :
    retreatInBounds ns (f :: ps) = ⟨{ f with idx := f.idx - 1 } :: ps, [], .ok true⟩ := by
  simp [retreatInBounds, h]

theorem retreatInBounds_past (ns : NodeStore) {f : Frame} (ps : Cursor) (hc : f.idx = -1) :
    retreatInBounds ns (f :: ps) = ⟨f :: ps, [], .ok false⟩ := by
  simp [retreatInBounds, hc]

theorem retreatInBounds_root (ns : NodeStore) {f : Frame} (h : f.idx = 0) :
    retreatInBounds ns [f] = ⟨[f], [], .ok false⟩ := by
  simp [retreatInBounds, h, Frame.atNodeStart]

theorem retreatInBounds_up_false (ns : NodeStore) {f p : Frame} (pps : Cursor) (h : f.idx = 0)
    (ho : (retreatInBounds ns (p :: pps)).out = .ok false) :
    retreatInBounds ns (f :: p :: pps) =
      ⟨f :: (retreatInBounds ns (p :: pps)).cur, (retreatInBounds ns (p :: pps)).reads, .ok false⟩ := by
  rw [retreatInBounds]
  simp [h, Frame.atNodeStart, ho]

theorem retreatInBounds_up_true (ns : NodeStore) {f p : Frame} (pps : Cursor) {r : Hash}
    (h : f.idx = 0) (ho : (retreatInBounds ns (p :: pps)).out = .ok true)
    (hr : CurrentRef (retreatInBounds ns (p :: pps)).cur = some r) (hs : (ns r).2 = none) :
    retreatInBounds ns (f :: p :: pps) =
      ⟨⟨(ns r).1, lastKeyIdx (ns r).1, none⟩ :: (retreatInBounds ns (p :: pps)).cur,
        (retreatInBounds ns (p :: pps)).reads ++ [r], .ok true⟩ := by
  rw [retreatInBounds]
  simp [h, Frame.atNodeStart, ho, hr, hs]

/-- Effect of `advanceInBounds` on a cursor whose frames are all in bounds. -/
theorem advanceInBounds_spec {ns : NodeStore} {root : Node}
    (hroot : WellFormed ns root.level root) :
    ∀ (ps : Cursor) (f : Frame), InBounds ns root (f :: ps) →
      ((advanceInBounds ns (f :: ps)).out = .ok false ∧
        (advanceInBounds ns (f :: ps)).cur = f :: ps ∧
        rankAfter ns (f :: ps) = treeSize ns root.level root) ∨
      ((advanceInBounds ns (f :: ps)).out = .ok true ∧
        InBounds ns root (advanceInBounds ns (f :: ps)).cur ∧
        levels (advanceInBounds ns (f :: ps)).cur = levels (f :: ps) ∧
        rankAbove ns (advanceInBounds ns (f :: ps)).cur = rankAfter ns (f :: ps))
  | ps, f, ⟨hatt, h0, h1⟩ => by
    have hwf := Attached.wf hroot hatt
    have hlast := lastKeyIdx_of_shape hwf.shape
    by_cases hlt : f.idx < lastKeyIdx f.nd
    · right
      rw [advanceInBounds_step ns ps hlt]
      refine ⟨rfl, ⟨hatt, ?_, ?_⟩, rfl, ?_⟩
      · show (0 : Int) ≤ f.idx + 1
        omega
      · show f.idx + 1 < (f.nd.count : Int)
        omega
      · simp only [rankAbove, rankAfter]
        have : (f.idx + 1).toNat = f.idx.toNat + 1 := by omega
        rw [this]; omega
    · have hidx : f.idx = lastKeyIdx f.nd := by omega
      have hne : ¬ f.idx = (f.nd.count : Int) := by omega
      have hcnt : f.idx.toNat + 1 = f.nd.count := by omega
      cases ps with
      | nil =>
        left
        rw [advanceInBounds_root ns hidx]
        refine ⟨rfl, rfl, ?_⟩
        have hr : f.nd = root := hatt
        simp only [rankAfter, rankAbove, hcnt]
        rw [before_count hwf, hr]
        omega
      | cons p pps =>
        have hp : InBounds ns root (p :: pps) := ⟨hatt.2.2.2.2, hatt.1, hatt.2.1⟩
        obtain ⟨r0, hr0, hnd0⟩ := hatt.link
        have hlev := hatt.2.2.1
        have hbs : before ns p.nd.level p.nd (p.idx.toNat + 1)
            = before ns p.nd.level p.nd p.idx.toNat + treeSize ns f.nd.level f.nd := by
          rw [hlev, before_succ_internal (getRef_some hr0).2, hnd0]
        have hra : rankAfter ns (f :: p :: pps) = rankAfter ns (p :: pps) := by
          simp only [rankAfter, rankAbove, hcnt, before_count hwf, hbs]
          omega
        rcases advanceInBounds_spec hroot pps p hp with ⟨ho, hc, hrk⟩ | ⟨ho, hib, hlv, hrk⟩
        · left
          rw [advanceInBounds_up_false ns pps hidx hne ho]
          refine ⟨rfl, by rw [hc], ?_⟩
          rw [hra, hrk]
        · right
          cases hcur : (advanceInBounds ns (p :: pps)).cur with
          | nil => rw [hcur] at hib; exact hib.elim
          | cons p1 pps1 =>
            rw [hcur] at hib hlv hrk
            obtain ⟨hatt1, h01, h11⟩ := hib
            have hwf1 := Attached.wf hroot hatt1
            have hl1 : p1.nd.level = f.nd.level + 1 := by
              simp [levels] at hlv
              rw [hlv.1, hlev]
            rw [hl1] at hwf1
            obtain ⟨r1, hr1, -, hok1, hwfc⟩ := hwf1.child h01 h11
            have hcr : CurrentRef (advanceInBounds ns (p :: pps)).cur = some r1 := by
              rw [hcur]; exact hr1
            rw [advanceInBounds_up_true ns pps hidx hne ho hcr hok1, hcur]
            have hcl := hwfc.level_eq
            refine ⟨rfl, ⟨⟨h01, h11, by rw [hl1, hcl], by simp [Frame.CurrentRef, hr1], hatt1⟩,
              Int.le_refl 0, ?_⟩, ?_, ?_⟩
            · have := hwfc.shape.1
              show (0 : Int) < ((ns r1).1.count : Int)
              omega
            · simp only [levels, List.map_cons] at hlv ⊢
              rw [hcl, hlv]
            · rw [hra, ← hrk]
              simp [rankAbove, before_zero]

/-- Effect of `retreatInBounds` on a cursor whose frames are all in bounds. -/
theorem retreatInBounds_spec {ns : NodeStore} {root : Node}
    (hroot : WellFormed ns root.level root) :
    ∀ (ps : Cursor) (f : Frame), InBounds ns root (f :: ps) →
      ((retreatInBounds ns (f :: ps)).out = .ok false ∧
        (retreatInBounds ns (f :: ps)).cur = f :: ps ∧
        rankAbove ns (f :: ps) = 0) ∨
      ((retreatInBounds ns (f :: ps)).out = .ok true ∧
        InBounds ns root (retreatInBounds ns (f :: ps)).cur ∧
        levels (retreatInBounds ns (f :: ps)).cur = levels (f :: ps) ∧
        rankAfter ns (retreatInBounds ns (f :: ps)).cur = rankAbove ns (f :: ps))
  | ps, f, ⟨hatt, h0, h1⟩ => by
    by_cases hgt : f.idx > 0
    · right
      rw [retreatInBounds_step ns ps hgt]
      refine ⟨rfl, ⟨hatt, ?_, ?_⟩, rfl, ?_⟩
      · show (0 : Int) ≤ f.idx - 1
        omega
      · show f.idx - 1 < (f.nd.count : Int)
        omega
      · simp only [rankAbove, rankAfter]
        have : (f.idx - 1).toNat + 1 = f.idx.toNat := by omega
        rw [this]; omega
    · have hidx : f.idx = 0 := by omega
      have hz : before ns f.nd.level f.nd f.idx.toNat = 0 := by
        rw [hidx]; exact before_zero ns _ _
      cases ps with
      | nil =>
        left
        rw [retreatInBounds_root ns hidx]
        exact ⟨rfl, rfl, by simp [rankAbove, hz]⟩
      | cons p pps =>
        have hp : InBounds ns root (p :: pps) := ⟨hatt.2.2.2.2, hatt.1, hatt.2.1⟩
        have hlev := hatt.2.2.1
        rcases retreatInBounds_spec hroot pps p hp with ⟨ho, hc, hrk⟩ | ⟨ho, hib, hlv, hrk⟩
        · left
          rw [retreatInBounds_up_false ns pps hidx ho]
          refine ⟨rfl, by rw [hc], ?_⟩
          simp only [rankAbove] at hrk ⊢
          omega
        · right
          cases hcur : (retreatInBounds ns (p :: pps)).cur with
          | nil => rw [hcur] at hib; exact hib.elim
          | cons p1 pps1 =>
            rw [hcur] at hib hlv hrk
            obtain ⟨hatt1, h01, h11⟩ := hib
            have hwf1 := Attached.wf hroot hatt1
            have hl1 : p1.nd.level = f.nd.level + 1 := by
              simp [levels] at hlv
              rw [hlv.1, hlev]
            have hwf1b := hwf1
            rw [hl1] at hwf1
            obtain ⟨r1, hr1, hr1b, hok1, hwfc⟩ := hwf1.child h01 h11
            have hcr : CurrentRef (retreatInBounds ns (p :: pps)).cur = some r1 := by
              rw [hcur]; exact hr1
            rw [retreatInBounds_up_true ns pps hidx ho hcr hok1, hcur]
            have hcl := hwfc.level_eq
            have hlastc := lastKeyIdx_of_shape hwfc.shape
            have hc1 := hwfc.shape.1
            refine ⟨rfl, ⟨⟨h01, h11, by rw [hl1, hcl], by simp [Frame.CurrentRef, hr1], hatt1⟩,
              ?_, ?_⟩, ?_, ?_⟩
            · show (0 : Int) ≤ lastKeyIdx (ns r1).1
              omega
            · show lastKeyIdx (ns r1).1 < ((ns r1).1.count : Int)
              omega
            · simp only [levels, List.map_cons] at hlv ⊢
              rw [hcl, hlv]
            · have e1 : (lastKeyIdx (ns r1).1).toNat + 1 = (ns r1).1.count := by omega
              have e2 : before ns (ns r1).1.level (ns r1).1 (ns r1).1.count
                  = treeSize ns f.nd.level (ns r1).1 := by
                rw [hcl, before_count hwfc]
              have e3 : before ns p1.nd.level p1.nd (p1.idx.toNat + 1)
                  = before ns p1.nd.level p1.nd p1.idx.toNat + treeSize ns f.nd.level (ns r1).1 := by
                rw [hl1, before_succ_internal hr1b]
              simp only [rankAfter, rankAbove] at hrk ⊢
              rw [e1, e2]
              omega

/-- The entries of a child sit inside the entries of its parent, after the
entries of the children before it. -/
theorem entries_split {ns : NodeStore} {l : Nat} {nd : Node} (h : WellFormed ns (l + 1) nd)
    {i : Nat} {r : Hash} (hr : nd.refs[i]? = some r) :
    ∃ A B, entries ns (l + 1) nd = A ++ entries ns l (ns r).1 ++ B ∧
      A.length = before ns (l + 1) nd i := by
  obtain ⟨-, -, -, hch⟩ := h
  have hi : i < nd.refs.length := by
    rcases Nat.lt_or_ge i nd.refs.length with h | h
    · exact h
    · rw [List.getElem?_eq_none h] at hr; cases hr
  have hsplit : nd.refs = nd.refs.take i ++ r :: nd.refs.drop (i + 1) := by
    have h1 := (List.take_append_drop i nd.refs).symm
    have h2 : nd.refs.drop i = r :: nd.refs.drop (i + 1) := by
      rw [List.drop_eq_getElem_cons hi]
      congr 1
      rw [List.getElem?_eq_getElem hi] at hr
      exact Option.some.inj hr
    rw [h2] at h1
    exact h1
  refine ⟨((nd.refs.take i).map (fun h => entries ns l (ns h).1)).flatten,
    ((nd.refs.drop (i + 1)).map (fun h => entries ns l (ns h).1)).flatten, ?_, ?_⟩
  · conv_lhs => rw [entries, hsplit]
    simp [List.append_assoc]
  · simp only [before, List.length_flatten, List.map_map]
    congr 1
    apply List.map_congr_left
    intro x hx
    exact entries_length (hch x (List.mem_of_mem_take hx)).2

/-- The entries below an attached node form a window of the entries of the
root, starting at the rank of the frames above it. -/
theorem Attached.window {ns : NodeStore} {root : Node} (hroot : WellFormed ns root.level root) :
    ∀ {ps : Cursor} {nd : Node}, Attached ns root nd ps →
      ∃ A B, entries ns root.level root = A ++ entries ns nd.level nd ++ B ∧
        A.length = rankAbove ns ps
  | [], nd, h => by
    have : nd = root := h
    subst this
    exact ⟨[], [], by simp, rfl⟩
  | p :: ps, nd, h => by
    obtain ⟨A, B, hAB, hA⟩ := Attached.window hroot h.2.2.2.2
    have hp : WellFormed ns p.nd.level p.nd := Attached.wf hroot h.2.2.2.2
    obtain ⟨r, hr, hnd⟩ := h.link
    have hlev := h.2.2.1
    rw [hlev] at hp
    obtain ⟨X, Y, hXY, hX⟩ := entries_split hp (getRef_some hr).2
    refine ⟨A ++ X, Y ++ B, ?_, ?_⟩
    · rw [hAB, hlev, hXY, hnd]
      simp [List.append_assoc]
    · simp only [List.length_append, rankAbove, hA, hX, hlev]
      omega

/-- The entry under a leaf cursor in bounds is the entry of the tree at the
rank of the cursor. -/
theorem current_entry {ns : NodeStore} {root : Node} (hroot : WellFormed ns root.level root)
    {f : Frame} {ps : Cursor} (hib : InBounds ns root (f :: ps)) (hleaf : f.nd.level = 0) :
    ∃ e, CurrentCursorTuples (f :: ps) = some e ∧
      (entries ns root.level root)[rankAbove ns (f :: ps)]? = some e := by
  obtain ⟨hatt, h0, h1⟩ := hib
  have hwf := Attached.wf hroot hatt
  obtain ⟨A, B, hAB, hA⟩ := hatt.window hroot
  rw [hleaf] at hwf hAB
  obtain ⟨hs, -, hv⟩ := hwf
  have hk : f.idx.toNat < f.nd.keys.length := by have := hs.2.2.1; omega
  have hvl : f.idx.toNat < f.nd.values.length := by omega
  refine ⟨(f.nd.keys[f.idx.toNat], f.nd.values[f.idx.toNat]), ?_, ?_⟩
  · simp [CurrentCursorTuples, CurrentKey, CurrentValue, Node.GetKey, Node.getValue, h0,
      List.getElem?_eq_getElem hk, List.getElem?_eq_getElem hvl]
  · have hrk : rankAbove ns (f :: ps) = A.length + f.idx.toNat := by
      simp [rankAbove, hleaf, before, hA]; omega
    rw [hAB, hrk, List.append_assoc, List.getElem?_append_right (by omega)]
    have hz : f.idx.toNat < (entries ns 0 f.nd).length := by
      simp [entries, List.length_zip]; omega
    simp only [Nat.add_sub_cancel_left]
    rw [List.getElem?_append_left hz]
    simp [entries, List.getElem?_eq_getElem, hk, hvl]

theorem Advance_of_true {ns : NodeStore} {c : Cursor}
    (h : (advanceInBounds ns c).out = .ok true) :
    (Advance ns c).out = .ok true ∧ (Advance ns c).cur = (advanceInBounds ns c).cur ∧
      (Advance ns c).reads = (advanceInBounds ns c).reads := by
  simp [Advance, h]

theorem Advance_of_false {ns : NodeStore} {c : Cursor}
    (h : (advanceInBounds ns c).out = .ok false) :
    (Advance ns c).out = .ok false ∧
      (Advance ns c).cur = setIdx (headCount (advanceInBounds ns c).cur) (advanceInBounds ns c).cur ∧
      (Advance ns c).reads = (advanceInBounds ns c).reads := by
  simp [Advance, h]

theorem Retreat_of_true {ns : NodeStore} {c : Cursor}
    (h : (retreatInBounds ns c).out = .ok true) :
    (Retreat ns c).out = .ok true ∧ (Retreat ns c).cur = (retreatInBounds ns c).cur ∧
      (Retreat ns c).reads = (retreatInBounds ns c).reads := by
  simp [Retreat, h]

theorem Retreat_of_false {ns : NodeStore} {c : Cursor}
    (h : (retreatInBounds ns c).out = .ok false) :
    (Retreat ns c).out = .ok false ∧
      (Retreat ns c).cur = setIdx (-1) (retreatInBounds ns c).cur ∧
      (Retreat ns c).reads = (retreatInBounds ns c).reads := by
  simp [Retreat, h]

/-- A leaf cursor: the designated frame holds a level-0 node. -/
theorem leaf_of_levels {c d : Cursor} (h : levels c = levels d) (hd : (levels d).head? = some 0) :
    (levels c).head? = some 0 := by rw [h]; exact hd

theorem rankAfter_leaf (ns : NodeStore) {f : Frame} (ps : Cursor) (hleaf : f.nd.level = 0) :
    rankAfter ns (f :: ps) = rankAbove ns (f :: ps) + 1 := by
  simp only [rankAfter, rankAbove, hleaf, before]
  omega

/-- Scanning forward from a leaf cursor in bounds yields the entries of the
tree from the rank of the cursor on. -/
theorem scanForward_spec {ns : NodeStore} {root : Node} (hroot : WellFormed ns root.level root) :
    ∀ (n : Nat) (c : Cursor), InBounds ns root c → (levels c).head? = some 0 →
      treeSize ns root.level root - rankAbove ns c ≤ n →
      scanForward ns n c = some ((entries ns root.level root).drop (rankAbove ns c))
  | n, [], h, _, _ => h.elim
  | n, f :: ps, hib, hleaf, hn => by
    have hl0 : f.nd.level = 0 := by simpa [levels] using hleaf
    obtain ⟨e, hcur, he⟩ := current_entry hroot hib hl0
    have hlen := entries_length hroot
    have hlt : rankAbove ns (f :: ps) < (entries ns root.level root).length := by
      rcases Nat.lt_or_ge (rankAbove ns (f :: ps)) (entries ns root.level root).length with h | h
      · exact h
      · rw [List.getElem?_eq_none h] at he; cases he
    have hdrop : (entries ns root.level root).drop (rankAbove ns (f :: ps))
        = e :: (entries ns root.level root).drop (rankAbove ns (f :: ps) + 1) := by
      rw [List.drop_eq_getElem_cons hlt]
      congr 1
      rw [List.getElem?_eq_getElem hlt] at he
      exact Option.some.inj he
    cases n with
    | zero => omega
    | succ n =>
      rw [scanForward, hcur]
      rcases advanceInBounds_spec hroot ps f hib with ⟨ho, -, hrk⟩ | ⟨ho, hib1, hlv, hrk⟩
      · obtain ⟨h1, -, -⟩ := Advance_of_false ho
        simp only [h1]
        rw [rankAfter_leaf ns ps hl0] at hrk
        rw [hdrop, List.drop_of_length_le (by omega)]
      · obtain ⟨h1, h2, -⟩ := Advance_of_true ho
        simp only [h1, h2]
        rw [rankAfter_leaf ns ps hl0] at hrk
        rw [scanForward_spec hroot n _ hib1 (leaf_of_levels hlv hleaf) (by omega), hrk, hdrop]
        rfl

/-- Scanning backward from a leaf cursor in bounds yields, in reverse, the
entries of the tree up to the rank of the cursor. -/
theorem scanBackward_spec {ns : NodeStore} {root : Node} (hroot : WellFormed ns root.level root) :
    ∀ (n : Nat) (c : Cursor), InBounds ns root c → (levels c).head? = some 0 →
      rankAbove ns c + 1 ≤ n →
      scanBackward ns n c = some ((entries ns root.level root).take (rankAbove ns c + 1)).reverse
  | n, [], h, _, _ => h.elim
  | n, f :: ps, hib, hleaf, hn => by
    have hl0 : f.nd.level = 0 := by simpa [levels] using hleaf
    obtain ⟨e, hcur, he⟩ := current_entry hroot hib hl0
    have htake : (entries ns root.level root).take (rankAbove ns (f :: ps) + 1)
        = (entries ns root.level root).take (rankAbove ns (f :: ps)) ++ [e] := by
      rw [List.take_succ, he]; rfl
    cases n with
    | zero => omega
    | succ n =>
      rw [scanBackward, hcur]
      rcases retreatInBounds_spec hroot ps f hib with ⟨ho, -, hrk⟩ | ⟨ho, hib1, hlv, hrk⟩
      · obtain ⟨h1, -, -⟩ := Retreat_of_false ho
        simp only [h1]
        rw [htake, hrk]
        simp
      · obtain ⟨h1, h2, -⟩ := Retreat_of_true ho
        simp only [h1, h2]
        cases hc1 : (retreatInBounds ns (f :: ps)).cur with
        | nil => rw [hc1] at hib1; exact hib1.elim
        | cons f1 ps1 =>
          rw [hc1] at hib1 hlv hrk
          have hleaf1 := leaf_of_levels hlv hleaf
          have hl1 : f1.nd.level = 0 := by simpa [levels] using hleaf1
          rw [rankAfter_leaf ns ps1 hl1] at hrk
          rw [scanBackward_spec hroot n _ hib1 hleaf1 (by omega), hrk, htake]
          simp

/-- Loop of `NewCursorAtStart` below a frame chain on a well-formed tree. -/
theorem atStartLoop_spec {ns : NodeStore} {root : Node} (hroot : WellFormed ns root.level root) :
    ∀ (l fuel : Nat) (nd : Node) (ps : Cursor) (rs : List Hash), nd.level = l →
      Attached ns root nd ps → l < fuel →
      (atStartLoop ns fuel (⟨nd, 0, none⟩ :: ps) rs).out = .ok () ∧
      InBounds ns root (atStartLoop ns fuel (⟨nd, 0, none⟩ :: ps) rs).cur ∧
      (levels (atStartLoop ns fuel (⟨nd, 0, none⟩ :: ps) rs).cur).head? = some 0 ∧
      rankAbove ns (atStartLoop ns fuel (⟨nd, 0, none⟩ :: ps) rs).cur = rankAbove ns ps
  | 0, 0, _, _, _, _, _, hf => by omega
  | 0, fuel + 1, nd, ps, rs, hl, hatt, _ => by
    have hwf := Attached.wf hroot hatt
    have e : atStartLoop ns (fuel + 1) (⟨nd, 0, none⟩ :: ps) rs = ⟨⟨nd, 0, none⟩ :: ps, rs, .ok ()⟩ := by
      simp [atStartLoop, Frame.isLeaf, hl]
    rw [e]
    refine ⟨rfl, ⟨hatt, Int.le_refl 0, ?_⟩, by simp [levels, hl], by simp [rankAbove, before_zero]⟩
    have := hwf.shape.1
    show (0 : Int) < (nd.count : Int)
    omega
  | l + 1, 0, _, _, _, _, _, hf => by omega
  | l + 1, fuel + 1, nd, ps, rs, hl, hatt, hf => by
    have hwf := Attached.wf hroot hatt
    rw [hl] at hwf
    have hc := hwf.shape.1
    obtain ⟨r, hr, -, hok, hwfc⟩ := hwf.child (Int.le_refl 0) (by omega : (0 : Int) < (nd.count : Int))
    have e : atStartLoop ns (fuel + 1) (⟨nd, 0, none⟩ :: ps) rs
        = atStartLoop ns fuel (⟨(ns r).1, 0, none⟩ :: ⟨nd, 0, none⟩ :: ps) (rs ++ [r]) := by
      simp [atStartLoop, Frame.isLeaf, hl, Frame.CurrentRef, hr, hok]
    rw [e]
    have hatt1 : Attached ns root (ns r).1 (⟨nd, 0, none⟩ :: ps) :=
      ⟨Int.le_refl 0, by show (0 : Int) < (nd.count : Int); omega,
        by show nd.level = (ns r).1.level + 1; rw [hl, hwfc.level_eq],
        by simp [Frame.CurrentRef, hr], hatt⟩
    obtain ⟨h1, h2, h3, h4⟩ :=
      atStartLoop_spec hroot l fuel (ns r).1 (⟨nd, 0, none⟩ :: ps) (rs ++ [r]) hwfc.level_eq hatt1
        (by omega)
    refine ⟨h1, h2, h3, ?_⟩
    rw [h4]
    simp [rankAbove, before_zero]

/-- Loop of `NewCursorAtEnd` below a frame chain on a well-formed tree. -/
theorem atEndLoop_spec {ns : NodeStore} {root : Node} (hroot : WellFormed ns root.level root) :
    ∀ (l fuel : Nat) (nd : Node) (ps : Cursor) (rs : List Hash), nd.level = l →
      Attached ns root nd ps → l < fuel →
      (atEndLoop ns fuel (⟨nd, lastKeyIdx nd, none⟩ :: ps) rs).out = .ok () ∧
      InBounds ns root (atEndLoop ns fuel (⟨nd, lastKeyIdx nd, none⟩ :: ps) rs).cur ∧
      (levels (atEndLoop ns fuel (⟨nd, lastKeyIdx nd, none⟩ :: ps) rs).cur).head? = some 0 ∧
      rankAfter ns (atEndLoop ns fuel (⟨nd, lastKeyIdx nd, none⟩ :: ps) rs).cur
        = rankAbove ns ps + treeSize ns nd.level nd
  | 0, 0, _, _, _, _, _, hf => by omega
  | 0, fuel + 1, nd, ps, rs, hl, hatt, _ => by
    have hwf := Attached.wf hroot hatt
    have hlast := lastKeyIdx_of_shape hwf.shape
    have hc := hwf.shape.1
    have e : atEndLoop ns (fuel + 1) (⟨nd, lastKeyIdx nd, none⟩ :: ps) rs
        = ⟨⟨nd, lastKeyIdx nd, none⟩ :: ps, rs, .ok ()⟩ := by
      simp [atEndLoop, Frame.isLeaf, hl]
    rw [e]
    refine ⟨rfl, ⟨hatt, ?_, ?_⟩, by simp [levels, hl], ?_⟩
    · show (0 : Int) ≤ lastKeyIdx nd
      omega
    · show lastKeyIdx nd < (nd.count : Int)
      omega
    · have e1 : (lastKeyIdx nd).toNat + 1 = nd.count := by omega
      simp only [rankAfter, e1]
      rw [before_count hwf]
  | l + 1, 0, _, _, _, _, _, hf => by omega
  | l + 1, fuel + 1, nd, ps, rs, hl, hatt, hf => by
    have hwf := Attached.wf hroot hatt
    have hwf0 := hwf
    rw [hl] at hwf
    have hc := hwf.shape.1
    have hlast := lastKeyIdx_of_shape hwf.shape
    obtain ⟨r, hr, hrb, hok, hwfc⟩ := hwf.child (by omega : (0 : Int) ≤ lastKeyIdx nd)
      (by omega : lastKeyIdx nd < (nd.count : Int))
    have e : atEndLoop ns (fuel + 1) (⟨nd, lastKeyIdx nd, none⟩ :: ps) rs
        = atEndLoop ns fuel (⟨(ns r).1, lastKeyIdx (ns r).1, none⟩ :: ⟨nd, lastKeyIdx nd, none⟩ :: ps)
            (rs ++ [r]) := by
      simp [atEndLoop, Frame.isLeaf, hl, Frame.CurrentRef, hr, hok, Frame.skipToNodeEnd]
    rw [e]
    have hatt1 : Attached ns root (ns r).1 (⟨nd, lastKeyIdx nd, none⟩ :: ps) :=
      ⟨by show (0 : Int) ≤ lastKeyIdx nd; omega,
        by show lastKeyIdx nd < (nd.count : Int); omega,
        by show nd.level = (ns r).1.level + 1; rw [hl, hwfc.level_eq],
        by simp [Frame.CurrentRef, hr], hatt⟩
    obtain ⟨h1, h2, h3, h4⟩ :=
      atEndLoop_spec hroot l fuel (ns r).1 (⟨nd, lastKeyIdx nd, none⟩ :: ps) (rs ++ [r])
        hwfc.level_eq hatt1 (by omega)
    refine ⟨h1, h2, h3, ?_⟩
    rw [h4]
    have e1 : (lastKeyIdx nd).toNat + 1 = nd.count := by omega
    have e2 := @before_succ_internal ns l _ _ _ hrb
    rw [e1] at e2
    have e3 := before_count hwf
    simp only [rankAbove, hl, hwfc.level_eq]
    omega

/-- C1 (forward traversal).  On a well-formed tree `NewCursorAtStart`
succeeds, and recording the entry under the cursor before each `Advance`
until `Advance` returns false yields exactly the in-order sequence of leaf
entries of the tree: every entry once, in tree order, hence in
non-decreasing key order when the keys of the tree are sorted; the number of
visits is `root.TreeCount()` when the tree count is the number of leaf
entries.  The descent needs more iterations than the level of the root and
the scan at most `TreeCount` calls. -/
theorem forward_traversal (ns : NodeStore) (root : Node) (cmp : CompareFn) (fuel n : Nat)
    (hwf : WellFormed ns root.level root)
    (hsorted : (treeKeys ns root.level root).Pairwise (fun a b => cmp a b ≤ 0))
    (hcount : root.TreeCount = treeSize ns root.level root)
    (hfuel : root.level < fuel) (hn : root.TreeCount ≤ n) :
    (NewCursorAtStart ns fuel root).out = .ok () ∧
    scanForward ns n (NewCursorAtStart ns fuel root).cur = some (entries ns root.level root) ∧
    (entries ns root.level root).length = root.TreeCount ∧
    ((entries ns root.level root).map Prod.fst).Pairwise (fun a b => cmp a b ≤ 0) := by
  obtain ⟨h1, h2, h3, h4⟩ :=
    atStartLoop_spec hwf root.level fuel root [] [] rfl (rfl : root = root) hfuel
  refine ⟨h1, ?_, ?_, hsorted⟩
  · have := scanForward_spec hwf n _ h2 h3 (by rw [h4, ← hcount]; simp [rankAbove]; omega)
    rw [h4] at this
    simpa [rankAbove, NewCursorAtStart] using this
  · rw [entries_length hwf, hcount]

/-- Witness of C1 on the tree `[(a,1),(b,2),(c,3)]`: the keys visited are
`a`, `b`, `c`, and the `Advance` after the third returns false. -/
theorem forward_traversal_witness :
    (WellFormed emptyStore abcTree.level abcTree ∧ abcTree.level < 1 ∧ abcTree.TreeCount ≤ 3) ∧
    ((NewCursorAtStart emptyStore 1 abcTree).out = .ok () ∧
      scanForward emptyStore 3 (NewCursorAtStart emptyStore 1 abcTree).cur
        = some (entries emptyStore abcTree.level abcTree) ∧
      (entries emptyStore abcTree.level abcTree).length = abcTree.TreeCount ∧
      ((entries emptyStore abcTree.level abcTree).map Prod.fst).Pairwise
        (fun a b => bytesCompare a b ≤ 0)) ∧
    (entries emptyStore abcTree.level abcTree).map Prod.fst = [[97], [98], [99]] ∧
    (advanceTimes emptyStore 2 (NewCursorAtStart emptyStore 1 abcTree).cur).map
        (fun c => (Advance emptyStore c).out) = some (.ok false) :=
  ⟨by decide,
    forward_traversal emptyStore abcTree bytesCompare 1 3 (by decide) (by decide) (by decide)
      (by decide) (by decide),
    by decide, by decide⟩

/-- C2 (reverse traversal).  On a well-formed tree `NewCursorAtEnd` succeeds
and repeated `Retreat` until it returns false visits exactly the entries
that `NewCursorAtStart` with repeated `Advance` visits, in the reverse
order. -/
theorem reverse_traversal (ns : NodeStore) (root : Node) (fuel n : Nat)
    (hwf : WellFormed ns root.level root)
    (hfuel : root.level < fuel) (hn : treeSize ns root.level root ≤ n) :
    (NewCursorAtEnd ns fuel root).out = .ok () ∧
    ∃ es, scanForward ns n (NewCursorAtStart ns fuel root).cur = some es ∧
      scanBackward ns n (NewCursorAtEnd ns fuel root).cur = some es.reverse := by
  obtain ⟨h1, h2, h3, h4⟩ :=
    atStartLoop_spec hwf root.level fuel root [] [] rfl (rfl : root = root) hfuel
  obtain ⟨g1, g2, g3, g4⟩ :=
    atEndLoop_spec hwf root.level fuel root [] [] rfl (rfl : root = root) hfuel
  refine ⟨g1, entries ns root.level root, ?_, ?_⟩
  · have := scanForward_spec hwf n _ h2 h3 (by rw [h4]; simp [rankAbove]; omega)
    rw [h4] at this
    simpa [rankAbove, NewCursorAtStart] using this
  · cases hc : (atEndLoop ns fuel [⟨root, lastKeyIdx root, none⟩] []).cur with
    | nil => rw [hc] at g2; exact g2.elim
    | cons f ps =>
      rw [hc] at g2 g3 g4
      have hl0 : f.nd.level = 0 := by simpa [levels] using g3
      rw [rankAfter_leaf ns ps hl0] at g4
      simp only [rankAbove, Nat.zero_add] at g4
      have := scanBackward_spec hwf n _ g2 g3 (by simp only [rankAbove]; omega)
      simp only [NewCursorAtEnd, Frame.skipToNodeEnd, hc, this]
      have e : rankAbove ns (f :: ps) + 1 = (entries ns root.level root).length := by
        rw [entries_length hwf]; simp only [rankAbove]; omega
      rw [e, List.take_length]

/-- Witness of C2 on the tree with the two leaf chunks `[k0,k1]`, `[k2,k3]`. -/
theorem reverse_traversal_witness :
    (WellFormed twoChunkStore twoChunkRoot.level twoChunkRoot ∧ twoChunkRoot.level < 2 ∧
      treeSize twoChunkStore twoChunkRoot.level twoChunkRoot ≤ 4) ∧
    ((NewCursorAtEnd twoChunkStore 2 twoChunkRoot).out = .ok () ∧
      ∃ es, scanForward twoChunkStore 4 (NewCursorAtStart twoChunkStore 2 twoChunkRoot).cur
          = some es ∧
        scanBackward twoChunkStore 4 (NewCursorAtEnd twoChunkStore 2 twoChunkRoot).cur
          = some es.reverse) ∧
    scanBackward twoChunkStore 4 (NewCursorAtEnd twoChunkStore 2 twoChunkRoot).cur
      = some [([21], [3]), ([20], [2]), ([11], [1]), ([10], [0])] :=
  ⟨by decide,
    reverse_traversal twoChunkStore twoChunkRoot 2 4 (by decide) (by decide) (by decide),
    by decide⟩

theorem CurrentRef_of_position {c d : Cursor} (h : position c = position d) :
    CurrentRef c = CurrentRef d := by
  cases c with
  | nil =>
    cases d with
    | nil => rfl
    | cons g qs => simp [position] at h
  | cons f ps =>
    cases d with
    | nil => simp [position] at h
    | cons g qs =>
      simp only [position, List.map_cons, List.cons.injEq, Prod.mk.injEq] at h
      simp [CurrentRef, Frame.CurrentRef, h.1.1, h.1.2]

theorem position_cons (f : Frame) (ps : Cursor) :
    position (f :: ps) = (f.nd, f.idx) :: position ps := rfl

theorem exists_cons_of_position {c : Cursor} {g : Frame} {qs : Cursor}
    (h : position c = position (g :: qs)) : ∃ f ps, c = f :: ps := by
  cases c with
  | nil => simp [position] at h
  | cons f ps => exact ⟨f, ps, rfl⟩

/-- Method `retreatInBounds` undoes a successful `advanceInBounds`. -/
theorem retreat_after_advance {ns : NodeStore} {root : Node}
    (hroot : WellFormed ns root.level root) :
    ∀ (ps : Cursor) (f : Frame), InBounds ns root (f :: ps) →
      (advanceInBounds ns (f :: ps)).out = .ok true →
      (retreatInBounds ns (advanceInBounds ns (f :: ps)).cur).out = .ok true ∧
      position (retreatInBounds ns (advanceInBounds ns (f :: ps)).cur).cur = position (f :: ps)
  | ps, f, ⟨hatt, h0, h1⟩, ho => by
    have hwf := Attached.wf hroot hatt
    have hlast := lastKeyIdx_of_shape hwf.shape
    by_cases hlt : f.idx < lastKeyIdx f.nd
    · rw [advanceInBounds_step ns ps hlt]
      have hgt : ({ f with idx := f.idx + 1 } : Frame).idx > 0 := by
        show f.idx + 1 > 0
        omega
      rw [retreatInBounds_step ns ps hgt]
      refine ⟨rfl, ?_⟩
      simp [position]
    · have hidx : f.idx = lastKeyIdx f.nd := by omega
      have hne : ¬ f.idx = (f.nd.count : Int) := by omega
      cases ps with
      | nil =>
        rw [advanceInBounds_root ns hidx] at ho
        cases ho
      | cons p pps =>
        have hp : InBounds ns root (p :: pps) := ⟨hatt.2.2.2.2, hatt.1, hatt.2.1⟩
        obtain ⟨r0, hr0, hnd0⟩ := hatt.link
        have hlev := hatt.2.2.1
        have hwfp := Attached.wf hroot hatt.2.2.2.2
        rw [hlev] at hwfp
        obtain ⟨r0b, hr0b, -, hok0, -⟩ := hwfp.child hatt.1 hatt.2.1
        rw [hr0] at hr0b
        cases hr0b
        rcases advanceInBounds_spec hroot pps p hp with ⟨hof, -, -⟩ | ⟨hot, hib, hlv, -⟩
        · rw [advanceInBounds_up_false ns pps hidx hne hof] at ho
          cases ho
        · obtain ⟨g1, g2⟩ := retreat_after_advance hroot pps p hp hot
          cases hcur : (advanceInBounds ns (p :: pps)).cur with
          | nil => rw [hcur] at hib; exact hib.elim
          | cons p1 pps1 =>
            have hib1 := hib
            rw [hcur] at hib1
            obtain ⟨hatt1, h01, h11⟩ := hib1
            have hwf1 := Attached.wf hroot hatt1
            have hl1 : p1.nd.level = f.nd.level + 1 := by
              rw [hcur] at hlv
              simp [levels] at hlv
              rw [hlv.1, hlev]
            rw [hl1] at hwf1
            obtain ⟨r1, hr1, -, hok1, -⟩ := hwf1.child h01 h11
            have hcr : CurrentRef (advanceInBounds ns (p :: pps)).cur = some r1 := by
              rw [hcur]; exact hr1
            rw [advanceInBounds_up_true ns pps hidx hne hot hcr hok1, hcur]
            rw [hcur] at g1 g2
            have hcr2 : CurrentRef (retreatInBounds ns (p1 :: pps1)).cur = some r0 := by
              rw [CurrentRef_of_position g2]; exact hr0
            have hz : (Frame.mk (ns r1).1 0 none).idx = 0 := rfl
            rw [retreatInBounds_up_true ns pps1 hz g1 hcr2 hok0]
            refine ⟨rfl, ?_⟩
            rw [position_cons, g2, position_cons]
            simp [position, hnd0, hidx]

/-- Method `advanceInBounds` undoes a successful `retreatInBounds`. -/
theorem advance_after_retreat {ns : NodeStore} {root : Node}
    (hroot : WellFormed ns root.level root) :
    ∀ (ps : Cursor) (f : Frame), InBounds ns root (f :: ps) →
      (retreatInBounds ns (f :: ps)).out = .ok true →
      (advanceInBounds ns (retreatInBounds ns (f :: ps)).cur).out = .ok true ∧
      position (advanceInBounds ns (retreatInBounds ns (f :: ps)).cur).cur = position (f :: ps)
  | ps, f, ⟨hatt, h0, h1⟩, ho => by
    have hwf := Attached.wf hroot hatt
    have hlast := lastKeyIdx_of_shape hwf.shape
    by_cases hgt : f.idx > 0
    · rw [retreatInBounds_step ns ps hgt]
      have hlt : ({ f with idx := f.idx - 1 } : Frame).idx
          < lastKeyIdx ({ f with idx := f.idx - 1 } : Frame).nd := by
        show f.idx - 1 < lastKeyIdx f.nd
        omega
      rw [advanceInBounds_step ns ps hlt]
      refine ⟨rfl, ?_⟩
      simp [position]
    · have hidx : f.idx = 0 := by omega
      cases ps with
      | nil =>
        rw [retreatInBounds_root ns hidx] at ho
        cases ho
      | cons p pps =>
        have hp : InBounds ns root (p :: pps) := ⟨hatt.2.2.2.2, hatt.1, hatt.2.1⟩
        obtain ⟨r0, hr0, hnd0⟩ := hatt.link
        have hlev := hatt.2.2.1
        have hwfp := Attached.wf hroot hatt.2.2.2.2
        rw [hlev] at hwfp
        obtain ⟨r0b, hr0b, -, hok0, -⟩ := hwfp.child hatt.1 hatt.2.1
        rw [hr0] at hr0b
        cases hr0b
        rcases retreatInBounds_spec hroot pps p hp with ⟨hof, -, -⟩ | ⟨hot, hib, hlv, -⟩
        · rw [retreatInBounds_up_false ns pps hidx hof] at ho
          cases ho
        · obtain ⟨g1, g2⟩ := advance_after_retreat hroot pps p hp hot
          cases hcur : (retreatInBounds ns (p :: pps)).cur with
          | nil => rw [hcur] at hib; exact hib.elim
          | cons p1 pps1 =>
            have hib1 := hib
            rw [hcur] at hib1
            obtain ⟨hatt1, h01, h11⟩ := hib1
            have hwf1 := Attached.wf hroot hatt1
            have hl1 : p1.nd.level = f.nd.level + 1 := by
              rw [hcur] at hlv
              simp [levels] at hlv
              rw [hlv.1, hlev]
            rw [hl1] at hwf1
            obtain ⟨r1, hr1, -, hok1, hwfc⟩ := hwf1.child h01 h11
            have hcr : CurrentRef (retreatInBounds ns (p :: pps)).cur = some r1 := by
              rw [hcur]; exact hr1
            rw [retreatInBounds_up_true ns pps hidx hot hcr hok1, hcur]
            rw [hcur] at g1 g2
            have hcr2 : CurrentRef (advanceInBounds ns (p1 :: pps1)).cur = some r0 := by
              rw [CurrentRef_of_position g2]; exact hr0
            have hlc := lastKeyIdx_of_shape hwfc.shape
            have hz : (Frame.mk (ns r1).1 (lastKeyIdx (ns r1).1) none).idx
                = lastKeyIdx (Frame.mk (ns r1).1 (lastKeyIdx (ns r1).1) none).nd := rfl
            have hnz : ¬ (Frame.mk (ns r1).1 (lastKeyIdx (ns r1).1) none).idx
                = ((Frame.mk (ns r1).1 (lastKeyIdx (ns r1).1) none).nd.count : Int) := by
              show ¬ lastKeyIdx (ns r1).1 = ((ns r1).1.count : Int)
              omega
            rw [advanceInBounds_up_true ns pps1 hz hnz g1 hcr2 hok0]
            refine ⟨rfl, ?_⟩
            rw [position_cons, g2, position_cons]
            simp [position, hnd0, hidx]

/-- C3 (Advance and Retreat are mutually inverse).  For a cursor whose
frames are all in bounds and linked on a well-formed tree of any height:
when `Advance` returns true, the following `Retreat` returns true and every
frame has the node and index it had before the two calls; likewise for
`Retreat` followed by `Advance`. -/
theorem advance_retreat_inverse (ns : NodeStore) (root : Node) (c : Cursor)
    (hwf : WellFormed ns root.level root) (hc : InBounds ns root c) :
    ((Advance ns c).out = .ok true →
      (Retreat ns (Advance ns c).cur).out = .ok true ∧
      position (Retreat ns (Advance ns c).cur).cur = position c) ∧
    ((Retreat ns c).out = .ok true →
      (Advance ns (Retreat ns c).cur).out = .ok true ∧
      position (Advance ns (Retreat ns c).cur).cur = position c) := by
  cases c with
  | nil => exact hc.elim
  | cons f ps =>
    constructor
    · intro h
      have ho : (advanceInBounds ns (f :: ps)).out = .ok true := by
        rcases advanceInBounds_spec hwf ps f hc with ⟨hf, -, -⟩ | ⟨ht, -, -, -⟩
        · rw [(Advance_of_false hf).1] at h; cases h
        · exact ht
      obtain ⟨g1, g2⟩ := retreat_after_advance hwf ps f hc ho
      rw [(Advance_of_true ho).2.1]
      rw [(Retreat_of_true g1).1, (Retreat_of_true g1).2.1]
      exact ⟨rfl, g2⟩
    · intro h
      have ho : (retreatInBounds ns (f :: ps)).out = .ok true := by
        rcases retreatInBounds_spec hwf ps f hc with ⟨hf, -, -⟩ | ⟨ht, -, -, -⟩
        · rw [(Retreat_of_false hf).1] at h; cases h
        · exact ht
      obtain ⟨g1, g2⟩ := advance_after_retreat hwf ps f hc ho
      rw [(Retreat_of_true ho).2.1]
      rw [(Advance_of_true g1).1, (Advance_of_true g1).2.1]
      exact ⟨rfl, g2⟩

/-- Witness of C3 at a chunk boundary: the cursor is at the last entry of the
first leaf chunk, and at the first entry of the second one. -/
theorem advance_retreat_inverse_witness :
    (WellFormed twoChunkStore twoChunkRoot.level twoChunkRoot ∧
      InBounds twoChunkStore twoChunkRoot [⟨chunkA, 1, none⟩, ⟨twoChunkRoot, 0, none⟩] ∧
      (Advance twoChunkStore [⟨chunkA, 1, none⟩, ⟨twoChunkRoot, 0, none⟩]).out = .ok true) ∧
    ((Retreat twoChunkStore
        (Advance twoChunkStore [⟨chunkA, 1, none⟩, ⟨twoChunkRoot, 0, none⟩]).cur).out = .ok true ∧
      position (Retreat twoChunkStore
        (Advance twoChunkStore [⟨chunkA, 1, none⟩, ⟨twoChunkRoot, 0, none⟩]).cur).cur
        = position [⟨chunkA, 1, none⟩, ⟨twoChunkRoot, 0, none⟩]) :=
  ⟨by decide,
    (advance_retreat_inverse twoChunkStore twoChunkRoot
      [⟨chunkA, 1, none⟩, ⟨twoChunkRoot, 0, none⟩] (by decide) (by decide)).1 (by decide)⟩

theorem Attached.level_add {ns : NodeStore} {root : Node} :
    ∀ {ps : Cursor} {nd : Node}, Attached ns root nd ps → root.level = nd.level + ps.length
  | [], nd, h => by
    have : nd = root := h
    subst this; rfl
  | p :: ps, nd, h => by
    have := Attached.level_add h.2.2.2.2
    have hl := h.2.2.1
    simp only [List.length_cons]
    omega

theorem rankAbove_of_position {ns : NodeStore} :
    ∀ {c d : Cursor}, position c = position d → rankAbove ns c = rankAbove ns d
  | [], [], _ => rfl
  | [], _ :: _, h => by simp [position] at h
  | _ :: _, [], h => by simp [position] at h
  | f :: ps, g :: qs, h => by
    simp only [position, List.map_cons, List.cons.injEq, Prod.mk.injEq] at h
    have := @rankAbove_of_position ns ps qs h.2
    simp only [rankAbove, h.1.1, h.1.2, this]

/-- The leaf entries below item `i` of a node lie inside those of the node. -/
theorem before_succ_le {ns : NodeStore} {l : Nat} {nd : Node} (h : WellFormed ns l nd)
    {i : Nat} (hi : i < nd.count) :
    before ns l nd (i + 1) ≤ treeSize ns l nd := by
  rw [← before_count h]
  exact before_mono ns l nd hi

/-- The subtree designated by a frame chain covers an interval of ranks
inside the interval of the chain above it. -/
theorem Attached.interval {ns : NodeStore} {root : Node} (hroot : WellFormed ns root.level root)
    {nd : Node} {p : Frame} {ps : Cursor} (h : Attached ns root nd (p :: ps)) :
    rankAbove ns (p :: ps) = rankAbove ns ps + before ns p.nd.level p.nd p.idx.toNat ∧
    before ns p.nd.level p.nd (p.idx.toNat + 1)
      = before ns p.nd.level p.nd p.idx.toNat + treeSize ns nd.level nd ∧
    before ns p.nd.level p.nd (p.idx.toNat + 1) ≤ treeSize ns p.nd.level p.nd := by
  have hp := Attached.wf hroot h.2.2.2.2
  obtain ⟨r, hr, hnd⟩ := h.link
  have hlev := h.2.2.1
  refine ⟨by simp only [rankAbove]; omega, ?_, ?_⟩
  · rw [hlev, before_succ_internal (getRef_some hr).2, hnd]
  · have := h.1
    have := h.2.1
    exact before_succ_le hp (by omega)

/-- Two frame chains on the same tree that designate subtrees of one level
containing a common rank are at the same position. -/
theorem Attached.unique {ns : NodeStore} {root : Node} (hroot : WellFormed ns root.level root) :
    ∀ {ps qs : Cursor} {nd nd2 : Node} (r : Nat), Attached ns root nd ps →
      Attached ns root nd2 qs → nd.level = nd2.level →
      rankAbove ns ps ≤ r → r < rankAbove ns ps + treeSize ns nd.level nd →
      rankAbove ns qs ≤ r → r < rankAbove ns qs + treeSize ns nd2.level nd2 →
      position ps = position qs ∧ nd = nd2
  | [], [], nd, nd2, _, h1, h2, _, _, _, _, _ => by
    have e1 : nd = root := h1
    have e2 : nd2 = root := h2
    exact ⟨rfl, by rw [e1, e2]⟩
  | [], q :: qs, nd, nd2, _, h1, h2, hl, _, _, _, _ => by
    have := h1.level_add
    have := h2.level_add
    simp only [List.length_cons, List.length_nil] at *
    omega
  | p :: ps, [], nd, nd2, _, h1, h2, hl, _, _, _, _ => by
    have := h1.level_add
    have := h2.level_add
    simp only [List.length_cons, List.length_nil] at *
    omega
  | p :: ps, q :: qs, nd, nd2, r, h1, h2, hl, a1, a2, b1, b2 => by
    obtain ⟨i1, i2, i3⟩ := h1.interval hroot
    obtain ⟨j1, j2, j3⟩ := h2.interval hroot
    have hlp : p.nd.level = q.nd.level := by rw [h1.2.2.1, h2.2.2.1, hl]
    obtain ⟨hpos, hnd⟩ := Attached.unique hroot r h1.2.2.2.2 h2.2.2.2.2 hlp
      (by omega) (by omega) (by omega) (by omega)
    have hrk := @rankAbove_of_position ns _ _ hpos
    have hidx : p.idx = q.idx := by
      have hp0 := h1.1
      have hq0 := h2.1
      rcases Int.lt_trichotomy p.idx q.idx with hlt | heq | hgt
      · have := before_mono ns p.nd.level p.nd (by omega : p.idx.toNat + 1 ≤ q.idx.toNat)
        rw [← hnd] at j1 j2
        omega
      · exact heq
      · have := before_mono ns p.nd.level p.nd (by omega : q.idx.toNat + 1 ≤ p.idx.toNat)
        rw [← hnd] at j1 j2
        omega
    obtain ⟨r1, hr1, hn1⟩ := h1.link
    obtain ⟨r2, hr2, hn2⟩ := h2.link
    rw [← hnd, ← hidx, hr1] at hr2
    cases hr2
    refine ⟨?_, by rw [← hn1, ← hn2]⟩
    simp only [position, List.map_cons, List.cons.injEq, Prod.mk.injEq]
    exact ⟨⟨hnd, hidx⟩, hpos⟩

/-- Two cursors in bounds on the same tree, of the same leaf level and the
same rank, are at the same position. -/
theorem position_of_rank {ns : NodeStore} {root : Node} (hroot : WellFormed ns root.level root)
    {c d : Cursor} (hc : InBounds ns root c) (hd : InBounds ns root d)
    (hlc : (levels c).head? = some 0) (hld : (levels d).head? = some 0)
    (hr : rankAbove ns c = rankAbove ns d) : position c = position d := by
  cases c with
  | nil => exact hc.elim
  | cons f ps =>
    cases d with
    | nil => exact hd.elim
    | cons g qs =>
      have hf0 : f.nd.level = 0 := by simpa [levels] using hlc
      have hg0 : g.nd.level = 0 := by simpa [levels] using hld
      obtain ⟨ha, f0, f1⟩ := hc
      obtain ⟨hb, g0, g1⟩ := hd
      simp only [rankAbove, hf0, hg0, before] at hr
      have hsz1 : treeSize ns f.nd.level f.nd = f.nd.count := by rw [hf0]; rfl
      have hsz2 : treeSize ns g.nd.level g.nd = g.nd.count := by rw [hg0]; rfl
      obtain ⟨hpos, hnd⟩ := Attached.unique hroot (f.idx.toNat + rankAbove ns ps) ha hb
        (by rw [hf0, hg0]) (by omega) (by omega) (by omega) (by omega)
      have hrk := @rankAbove_of_position ns _ _ hpos
      simp only [position, List.map_cons, List.cons.injEq, Prod.mk.injEq]
      exact ⟨⟨hnd, by omega⟩, hpos⟩

theorem wrapInt_id {x : Int} (h0 : -9223372036854775808 ≤ x) (h1 : x < 9223372036854775808) :
    wrapInt x = x := by
  unfold wrapInt
  omega

theorem toInt64_id {u : Nat} (h : u < 9223372036854775808) : toInt64 u = (u : Int) := by
  unfold toInt64
  rw [wrapInt_id (by omega) (by omega)]
  omega

/-- The range loop of the ordinal search stops at the first child whose
cumulative count exceeds the distance, and leaves the residual distance. -/
theorem ordinalLoop_spec : ∀ (cs : List Nat) (i idx : Int) (d : Nat), d < cs.sum →
    cs.sum < 9223372036854775808 →
    ∃ j, j < cs.length ∧ (cs.take j).sum ≤ d ∧ d < (cs.take (j + 1)).sum ∧
      ordinalLoop cs i idx (d : Int) = (i + (j : Int), ((d - (cs.take j).sum : Nat) : Int))
  | [], _, _, d, h1, _ => by simp at h1
  | c :: cs, i, idx, d, h1, hb => by
    rw [List.sum_cons] at h1 hb
    have hc : toInt64 c = (c : Int) := toInt64_id (by omega)
    have hw : wrapInt ((d : Int) - (c : Int)) = (d : Int) - (c : Int) :=
      wrapInt_id (by omega) (by omega)
    by_cases hlt : (d : Int) - (c : Int) < 0
    · refine ⟨0, by simp, by simp, ?_, ?_⟩
      · rw [List.take_succ_cons, List.take_zero, List.sum_cons, List.sum_nil]
        omega
      · simp [ordinalLoop, hc, hw, hlt]
    · have hcd : c ≤ d := by omega
      have hsub : (d : Int) - (c : Int) = ((d - c : Nat) : Int) := by omega
      obtain ⟨j, hj, g1, g2, he⟩ := ordinalLoop_spec cs (i + 1) i (d - c) (by omega) (by omega)
      refine ⟨j + 1, by simp only [List.length_cons]; omega, ?_, ?_, ?_⟩
      · rw [List.take_succ_cons, List.sum_cons]
        omega
      · rw [List.take_succ_cons, List.sum_cons]
        omega
      · have hstep : ordinalLoop (c :: cs) i idx (d : Int)
            = ordinalLoop cs (i + 1) i ((d - c : Nat) : Int) := by
          have hlt2 : ¬ wrapInt ((d : Int) - toInt64 c) < 0 := by rw [hc, hw]; exact hlt
          show (if wrapInt ((d : Int) - toInt64 c) < 0 then (i, (d : Int))
            else ordinalLoop cs (i + 1) i (wrapInt ((d : Int) - toInt64 c))) = _
          rw [if_neg hlt2, hc, hw, hsub]
        refine hstep.trans (he.trans ?_)
        have e1 : d - c - (List.take j cs).sum = d - (List.take (j + 1) (c :: cs)).sum := by
          rw [List.take_succ_cons, List.sum_cons]
          omega
        have e2 : i + 1 + (j : Int) = i + ((j + 1 : Nat) : Int) := by
          push_cast
          omega
        rw [e1, e2]

theorem keepInBounds_id {f : Frame} (h0 : 0 ≤ f.idx) (h1 : f.idx ≤ lastKeyIdx f.nd) :
    f.keepInBounds = f := by
  have h2 : ¬ f.idx < 0 := by omega
  have h3 : ¬ f.idx > lastKeyIdx f.nd := by omega
  simp [Frame.keepInBounds, h2, h3]

theorem Consistent.size_eq {ns : NodeStore} {l : Nat} {nd : Node} (h : Consistent ns l nd) :
    nd.treeCount = treeSize ns l nd := by
  cases l with
  | zero => exact h
  | succ l => exact h.1

/-- A child holds no more leaf entries than its parent. -/
theorem treeSize_child_le {ns : NodeStore} {l : Nat} {nd : Node} (hwf : WellFormed ns (l + 1) nd)
    {j : Nat} {r : Hash} (hr : nd.refs[j]? = some r) :
    treeSize ns l (ns r).1 ≤ treeSize ns (l + 1) nd := by
  have hb := @before_succ_internal ns l nd j r hr
  have hj : j < nd.refs.length := by
    rcases Nat.lt_or_ge j nd.refs.length with h | h
    · exact h
    · rw [List.getElem?_eq_none h] at hr; cases hr
  have hlen := hwf.2.2.1
  have hm := before_mono ns (l + 1) nd (show j + 1 ≤ nd.count by omega)
  rw [before_count hwf] at hm
  omega

theorem before_eq_subtrees {ns : NodeStore} {l : Nat} {nd : Node} (h : Consistent ns (l + 1) nd)
    (j : Nat) : before ns (l + 1) nd j = (nd.subtrees.take j).sum := by
  rw [h.2.1, ← List.map_take]
  rfl

theorem fromSearchLoop_leaf {σ : Type} (ns : NodeStore) (search : σ → Node → Int × σ) (n : Nat)
    (s : σ) {f : Frame} (ps : Cursor) (rs : List Hash) (h : f.isLeaf = true) :
    fromSearchLoop ns search (n + 1) s (f :: ps) rs = ⟨f :: ps, rs, .ok ()⟩ := by
  simp [fromSearchLoop, h]

theorem fromSearchLoop_descend {σ : Type} (ns : NodeStore) (search : σ → Node → Int × σ)
    (n : Nat) (s : σ) {f : Frame} (ps : Cursor) (rs : List Hash) {r : Hash}
    (h : f.isLeaf = false) (hr : f.keepInBounds.CurrentRef = some r) (hs : (ns r).2 = none) :
    fromSearchLoop ns search (n + 1) s (f :: ps) rs =
      fromSearchLoop ns search n (search s (ns r).1).2
        (⟨(ns r).1, (search s (ns r).1).1, none⟩ :: f.keepInBounds :: ps) (rs ++ [r]) := by
  simp [fromSearchLoop, h, hr, hs]

/-- Descent of `NewCursorAtOrdinal` below a frame chain: it ends at the leaf
entry whose rank inside the subtree is the distance. -/
theorem fromSearchLoop_ordinal {ns : NodeStore} {root : Node}
    (hroot : WellFormed ns root.level root) :
    ∀ (l fuel : Nat) (nd : Node) (ps : Cursor) (rs : List Hash) (d : Nat), nd.level = l →
      Attached ns root nd ps → Consistent ns l nd → l < fuel → d < treeSize ns l nd →
      treeSize ns l nd < 9223372036854775808 →
      (fromSearchLoop ns ordinalSearch fuel (ordinalSearch (d : Int) nd).2
          (⟨nd, (ordinalSearch (d : Int) nd).1, none⟩ :: ps) rs).out = .ok () ∧
      InBounds ns root (fromSearchLoop ns ordinalSearch fuel (ordinalSearch (d : Int) nd).2
          (⟨nd, (ordinalSearch (d : Int) nd).1, none⟩ :: ps) rs).cur ∧
      (levels (fromSearchLoop ns ordinalSearch fuel (ordinalSearch (d : Int) nd).2
          (⟨nd, (ordinalSearch (d : Int) nd).1, none⟩ :: ps) rs).cur).head? = some 0 ∧
      rankAbove ns (fromSearchLoop ns ordinalSearch fuel (ordinalSearch (d : Int) nd).2
          (⟨nd, (ordinalSearch (d : Int) nd).1, none⟩ :: ps) rs).cur = rankAbove ns ps + d
  | 0, 0, _, _, _, _, _, _, _, hf, _, _ => by omega
  | 0, fuel + 1, nd, ps, rs, d, hl, hatt, _, _, hd, _ => by
    have hos : ordinalSearch (d : Int) nd = ((d : Int), (d : Int)) := by
      simp [ordinalSearch, Node.IsLeaf, hl]
    rw [hos]
    rw [fromSearchLoop_leaf ns ordinalSearch fuel _ ps rs (by simp [Frame.isLeaf, hl])]
    simp only [treeSize] at hd
    refine ⟨rfl, ⟨hatt, ?_, ?_⟩, by simp [levels, hl], ?_⟩
    · show (0 : Int) ≤ (d : Int)
      omega
    · show (d : Int) < (nd.count : Int)
      omega
    · simp only [rankAbove, hl, before]
      show ((d : Int)).toNat + rankAbove ns ps = rankAbove ns ps + d
      omega
  | l + 1, 0, _, _, _, _, _, _, _, hf, _, _ => by omega
  | l + 1, fuel + 1, nd, ps, rs, d, hl, hatt, hcons, hf, hd, hbound => by
    have hwf := Attached.wf hroot hatt
    rw [hl] at hwf
    have hlast := lastKeyIdx_of_shape hwf.shape
    have hsum : nd.subtrees.sum = treeSize ns (l + 1) nd := by
      rw [hcons.2.1]; rfl
    have hlen : nd.subtrees.length = nd.count := by
      rw [hcons.2.1, List.length_map]; exact hwf.2.2.1
    obtain ⟨j, hj, g1, g2, he⟩ := ordinalLoop_spec nd.subtrees 0 0 d (by omega)
      (by rw [hsum]; exact hbound)
    have hos : ordinalSearch (d : Int) nd
        = ((j : Int), ((d - (nd.subtrees.take j).sum : Nat) : Int)) := by
      simp only [ordinalSearch, Node.IsLeaf, hl, Node.getSubtreeCounts]
      rw [he]
      simp
    rw [hos]
    have hj0 : (0 : Int) ≤ (j : Int) := by omega
    have hj1 : (j : Int) < (nd.count : Int) := by omega
    obtain ⟨r, hr, hrb, hok, hwfc⟩ := hwf.child hj0 hj1
    have hkb : (Frame.mk nd (j : Int) none).keepInBounds = Frame.mk nd (j : Int) none :=
      keepInBounds_id hj0 (by show (j : Int) ≤ lastKeyIdx nd; omega)
    rw [fromSearchLoop_descend ns ordinalSearch fuel _ ps rs (by simp [Frame.isLeaf, hl])
      (by rw [hkb]; exact hr) hok, hkb]
    have hatt1 : Attached ns root (ns r).1 (⟨nd, (j : Int), none⟩ :: ps) :=
      ⟨hj0, hj1, by show nd.level = (ns r).1.level + 1; rw [hl, hwfc.level_eq],
        by simp [Frame.CurrentRef, hr], hatt⟩
    have hrb2 : nd.refs[j]? = some r := by simpa using hrb
    have hb1 := before_eq_subtrees hcons j
    have hb2 := before_eq_subtrees hcons (j + 1)
    have hb3 := @before_succ_internal ns l _ _ _ hrb2
    have hconsc : Consistent ns l (ns r).1 :=
      hcons.2.2 r (List.getElem?_mem hrb2)
    have hcle := treeSize_child_le hwf hrb2
    obtain ⟨h1, h2, h3, h4⟩ := fromSearchLoop_ordinal hroot l fuel (ns r).1
      (⟨nd, (j : Int), none⟩ :: ps) (rs ++ [r]) (d - (nd.subtrees.take j).sum) hwfc.level_eq hatt1
      hconsc (by omega) (by omega) (by omega)
    refine ⟨h1, h2, h3, ?_⟩
    rw [h4]
    simp only [rankAbove, hl]
    show before ns (l + 1) nd ((j : Int)).toNat + rankAbove ns ps + _ = _
    have : ((j : Int)).toNat = j := by omega
    rw [this]
    omega

/-- Repeated successful `Advance` moves the rank forward one at a time. -/
theorem advanceTimes_spec {ns : NodeStore} {root : Node} (hroot : WellFormed ns root.level root) :
    ∀ (k : Nat) (c : Cursor), InBounds ns root c → (levels c).head? = some 0 →
      rankAbove ns c + k < treeSize ns root.level root →
      ∃ c2, advanceTimes ns k c = some c2 ∧ InBounds ns root c2 ∧ (levels c2).head? = some 0 ∧
        rankAbove ns c2 = rankAbove ns c + k
  | 0, c, hib, hl, _ => ⟨c, rfl, hib, hl, rfl⟩
  | k + 1, [], hib, _, _ => hib.elim
  | k + 1, f :: ps, hib, hl, hk => by
    have hl0 : f.nd.level = 0 := by simpa [levels] using hl
    rcases advanceInBounds_spec hroot ps f hib with ⟨-, -, hrk⟩ | ⟨ho, hib1, hlv, hrk⟩
    · rw [rankAfter_leaf ns ps hl0] at hrk
      omega
    · obtain ⟨a1, a2, -⟩ := Advance_of_true ho
      rw [rankAfter_leaf ns ps hl0] at hrk
      obtain ⟨c2, e1, e2, e3, e4⟩ := advanceTimes_spec hroot k _ hib1 (leaf_of_levels hlv hl)
        (by omega)
      refine ⟨c2, ?_, e2, e3, by omega⟩
      rw [advanceTimes, a1]
      simp only [a2]
      exact e1

theorem Valid_of_inBounds {ns : NodeStore} {root : Node} (hroot : WellFormed ns root.level root)
    {c : Cursor} (h : InBounds ns root c) : Valid c = true := by
  cases c with
  | nil => exact h.elim
  | cons f ps =>
    obtain ⟨hatt, h0, h1⟩ := h
    have hs := (Attached.wf hroot hatt).shape
    have hc : f.nd.count ≠ 0 := by have := hs.1; omega
    simp [Valid, Frame.Valid, hc, hs.2.2.2, h0, h1]

/-- C4, amended (ordinal correctness).  On a well-formed tree whose subtree
counts are consistent and whose tree count is below 2^63 (so that `int64(ord)`
and the subtractions of the search closure do not wrap), for every `k` below
`root.TreeCount()`, `NewCursorAtOrdinal(k)` returns a valid cursor, `k` calls
of `Advance` from `NewCursorAtStart` all return true, and the two cursors have
the same node and index in every frame.  The range loop of the search closure
never stops on a child of subtree count 0: such children are skipped. -/
theorem ordinal_correct (ns : NodeStore) (root : Node) (k fuel : Nat)
    (hwf : WellFormed ns root.level root) (hcons : Consistent ns root.level root)
    (hbound : root.TreeCount < 9223372036854775808)
    (hfuel : root.level < fuel) (hk : k < root.TreeCount) :
    (NewCursorAtOrdinal ns fuel root k).out = .ok () ∧
    Valid (NewCursorAtOrdinal ns fuel root k).cur = true ∧
    (∃ c, advanceTimes ns k (NewCursorAtStart ns fuel root).cur = some c ∧
      position (NewCursorAtOrdinal ns fuel root k).cur = position c) ∧
    (∀ (cs : List Nat) (d : Nat), d < cs.sum → cs.sum < 9223372036854775808 →
      ∃ (j : Nat) (c : Nat), (ordinalLoop cs 0 0 (d : Int)).1 = (j : Int) ∧ cs[j]? = some c ∧
        0 < c) := by
  have hsz : root.treeCount = treeSize ns root.level root := hcons.size_eq
  have hlt : treeSize ns root.level root < 9223372036854775808 := by
    rw [← hsz]; exact hbound
  have hk2 : k < treeSize ns root.level root := by rw [← hsz]; exact hk
  have hnot : ¬ k ≥ root.TreeCount % 18446744073709551616 := by
    simp only [Node.TreeCount]
    omega
  have hto : toInt64 k = (k : Int) := toInt64_id (by omega)
  have e : NewCursorAtOrdinal ns fuel root k
      = fromSearchLoop ns ordinalSearch fuel (ordinalSearch (k : Int) root).2
          [⟨root, (ordinalSearch (k : Int) root).1, none⟩] [] := by
    simp only [NewCursorAtOrdinal, if_neg hnot, NewCursorFromSearchFn, hto]
  obtain ⟨a1, a2, a3, a4⟩ := fromSearchLoop_ordinal hwf root.level fuel root [] [] k rfl
    (rfl : root = root) hcons hfuel hk2 hlt
  rw [← e] at a1 a2 a3 a4
  obtain ⟨b1, b2, b3, b4⟩ :=
    atStartLoop_spec hwf root.level fuel root [] [] rfl (rfl : root = root) hfuel
  obtain ⟨c, c1, c2, c3, c4⟩ := advanceTimes_spec hwf k _ b2 b3 (by rw [b4]; simpa [rankAbove] using hk2)
  refine ⟨a1, Valid_of_inBounds hwf a2, ⟨c, c1, ?_⟩, ?_⟩
  · apply position_of_rank hwf a2 c2 a3 c3
    rw [a4, c4, b4]
  · intro cs d hd hb
    obtain ⟨j, hj, g1, g2, he⟩ := ordinalLoop_spec cs 0 0 d hd hb
    refine ⟨j, cs[j], by rw [he]; simp, List.getElem?_eq_getElem hj, ?_⟩
    rw [List.take_succ, List.getElem?_eq_getElem hj] at g2
    simp only [Option.toList, List.sum_append, List.sum_cons, List.sum_nil] at g2
    omega

/-- Witness of C4: on `[(a,1),(b,2),(c,3)]` ordinal 1 is at key `b`; over the
subtree counts `[0, 2, 0, 2]` distance 2 selects child 3, past both empty
children. -/
theorem ordinal_correct_witness :
    (WellFormed emptyStore abcTree.level abcTree ∧ Consistent emptyStore abcTree.level abcTree ∧
      abcTree.TreeCount < 9223372036854775808 ∧ abcTree.level < 1 ∧ 1 < abcTree.TreeCount) ∧
    ((NewCursorAtOrdinal emptyStore 1 abcTree 1).out = .ok () ∧
      Valid (NewCursorAtOrdinal emptyStore 1 abcTree 1).cur = true ∧
      ∃ c, advanceTimes emptyStore 1 (NewCursorAtStart emptyStore 1 abcTree).cur = some c ∧
        position (NewCursorAtOrdinal emptyStore 1 abcTree 1).cur = position c) ∧
    CurrentKey (NewCursorAtOrdinal emptyStore 1 abcTree 1).cur = some [98] ∧
    position (NewCursorAtOrdinal twoChunkStore 2 twoChunkRoot 3).cur
      = [(chunkB, 1), (twoChunkRoot, 1)] ∧
    (ordinalLoop [0, 2, 0, 2] 0 0 2).1 = 3 :=
  ⟨by decide,
    ⟨(ordinal_correct emptyStore abcTree 1 1 (by decide) (by decide) (by decide) (by decide)
        (by decide)).1,
      (ordinal_correct emptyStore abcTree 1 1 (by decide) (by decide) (by decide) (by decide)
        (by decide)).2.1,
      (ordinal_correct emptyStore abcTree 1 1 (by decide) (by decide) (by decide) (by decide)
        (by decide)).2.2.1⟩,
    by decide, by decide, by decide⟩

theorem bytesCompare_flip : ∀ a b, bytesCompare a b < 0 ↔ 0 < bytesCompare b a
  | [], [] => by simp [bytesCompare]
  | [], _ :: _ => by simp [bytesCompare]
  | _ :: _, [] => by simp [bytesCompare]
  | a :: as, b :: bs => by
    have ih := bytesCompare_flip as bs
    simp only [bytesCompare]
    rcases Nat.lt_trichotomy a b with h | h | h
    · have h2 : ¬ b < a := by omega
      simp [h, h2]
    · subst h
      simpa using ih
    · have h2 : ¬ a < b := by omega
      simp [h, h2]

theorem bytesCompare_trans : ∀ a b c, bytesCompare a b ≤ 0 → bytesCompare b c ≤ 0 →
    bytesCompare a c ≤ 0
  | [], [], c, _, h => h
  | [], _ :: _, [], _, _ => by simp [bytesCompare]
  | [], _ :: _, _ :: _, _, _ => by simp [bytesCompare]
  | _ :: _, [], _, h, _ => by simp [bytesCompare] at h
  | _ :: _, _ :: _, [], _, h => by simp [bytesCompare] at h
  | a :: as, b :: bs, c :: cs, h1, h2 => by
    have ih := bytesCompare_trans as bs cs
    simp only [bytesCompare] at h1 h2 ⊢
    rcases Nat.lt_trichotomy a b with hab | hab | hab
    · rcases Nat.lt_trichotomy b c with hbc | hbc | hbc
      · have : a < c := by omega
        simp [this]
      · subst hbc; simp [hab]
      · have hn : ¬ b < c := by omega
        simp [hn, hbc] at h2
    · subst hab
      rcases Nat.lt_trichotomy a c with hbc | hbc | hbc
      · simp [hbc]
      · subst hbc
        simp only [Nat.lt_irrefl, if_false] at h1 h2 ⊢
        exact ih h1 h2
      · have hn : ¬ a < c := by omega
        simp [hn, hbc] at h2
    · have hn : ¬ a < b := by omega
      simp [hn, hab] at h1

theorem bytesCompare_total : TotalOrder bytesCompare :=
  ⟨bytesCompare_flip, bytesCompare_trans⟩

theorem TotalOrder.refl {cmp : CompareFn} (h : TotalOrder cmp) (a : NodeItem) : cmp a a = 0 := by
  have := h.flip a a
  omega

theorem TotalOrder.le_of_lt {cmp : CompareFn} {a b : NodeItem} (h : cmp a b < 0) :
    cmp a b ≤ 0 := by omega

theorem TotalOrder.not_le {cmp : CompareFn} (h : TotalOrder cmp) {a b : NodeItem} :
    ¬ cmp a b ≤ 0 ↔ cmp b a < 0 := by
  have := h.flip b a
  omega

theorem TotalOrder.lt_of_lt_of_le {cmp : CompareFn} (h : TotalOrder cmp) {a b c : NodeItem}
    (h1 : cmp a b < 0) (h2 : cmp b c ≤ 0) : cmp a c < 0 := by
  have h3 := h.trans a b c (by omega) h2
  by_contra hn
  have h4 : cmp a c = 0 := by omega
  have h5 : cmp c a ≤ 0 := by
    have := h.flip c a
    have := h.flip a c
    omega
  have h6 := h.trans b c a h2 h5
  have := h.flip a b
  omega

theorem TotalOrder.lt_of_le_of_lt {cmp : CompareFn} (h : TotalOrder cmp) {a b c : NodeItem}
    (h1 : cmp a b ≤ 0) (h2 : cmp b c < 0) : cmp a c < 0 := by
  have h3 := h.trans a b c h1 (by omega)
  by_contra hn
  have h4 : cmp a c = 0 := by omega
  have h5 : cmp c a ≤ 0 := by
    have := h.flip c a
    have := h.flip a c
    omega
  have h6 := h.trans c a b h5 h1
  have := h.flip b c
  omega

theorem treeKeys_leaf {ns : NodeStore} {nd : Node} (h : WellFormed ns 0 nd) :
    treeKeys ns 0 nd = nd.keys := by
  obtain ⟨hs, -, hv⟩ := h
  simp only [treeKeys, entries]
  exact List.map_fst_zip _ _ (by have := hs.2.2.1; omega)

theorem treeKeys_succ (ns : NodeStore) (l : Nat) (nd : Node) :
    treeKeys ns (l + 1) nd = (nd.refs.map (fun h => treeKeys ns l (ns h).1)).flatten := by
  simp only [treeKeys, entries, List.map_flatten, List.map_map]
  rfl

theorem treeKeys_length {ns : NodeStore} {l : Nat} {nd : Node} (h : WellFormed ns l nd) :
    (treeKeys ns l nd).length = treeSize ns l nd := by
  simp only [treeKeys, List.length_map]
  exact entries_length h

theorem refs_split {nd : Node} {i : Nat} {r : Hash} (hr : nd.refs[i]? = some r) :
    nd.refs = nd.refs.take i ++ r :: nd.refs.drop (i + 1) := by
  have hi : i < nd.refs.length := by
    rcases Nat.lt_or_ge i nd.refs.length with h | h
    · exact h
    · rw [List.getElem?_eq_none h] at hr; cases hr
  have h1 := (List.take_append_drop i nd.refs).symm
  have h2 : nd.refs.drop i = r :: nd.refs.drop (i + 1) := by
    rw [List.drop_eq_getElem_cons hi]
    congr 1
    rw [List.getElem?_eq_getElem hi] at hr
    exact Option.some.inj hr
  rw [h2] at h1
  exact h1

theorem treeKeys_split {ns : NodeStore} {l : Nat} {nd : Node} {i : Nat} {r : Hash}
    (hr : nd.refs[i]? = some r) :
    treeKeys ns (l + 1) nd = keysBefore ns l nd i ++ treeKeys ns l (ns r).1 ++ keysAfter ns l nd i := by
  rw [treeKeys_succ]
  conv_lhs => rw [refs_split hr]
  simp [keysBefore, keysAfter, List.append_assoc]

theorem keysBefore_succ {ns : NodeStore} {l : Nat} {nd : Node} {i : Nat} {r : Hash}
    (hr : nd.refs[i]? = some r) :
    keysBefore ns l nd (i + 1) = keysBefore ns l nd i ++ treeKeys ns l (ns r).1 := by
  simp [keysBefore, List.take_succ, hr]

theorem keysBefore_length {ns : NodeStore} {l : Nat} {nd : Node} (h : WellFormed ns (l + 1) nd)
    (i : Nat) : (keysBefore ns l nd i).length = before ns (l + 1) nd i := by
  obtain ⟨-, -, -, hch⟩ := h
  simp only [keysBefore, before, List.length_flatten, List.map_map]
  congr 1
  apply List.map_congr_left
  intro x hx
  exact treeKeys_length (hch x (List.mem_of_mem_take hx)).2

theorem keysAfter_last {ns : NodeStore} {l : Nat} {nd : Node} {i : Nat}
    (h : nd.refs.length ≤ i + 1) : keysAfter ns l nd i = [] := by
  simp [keysAfter, List.drop_of_length_le h]

/-- The separator key at an index in bounds, with its child. -/
theorem Separators.at {ns : NodeStore} {l : Nat} {nd : Node} (hs : Separators ns (l + 1) nd)
    (hwf : WellFormed ns (l + 1) nd) {i : Nat} (hi : i < nd.count) :
    ∃ k r, nd.keys[i]? = some k ∧ nd.refs[i]? = some r ∧
      (treeKeys ns l (ns r).1).getLast? = some k ∧ Separators ns l (ns r).1 := by
  obtain ⟨hsh, -, hlen, -⟩ := hwf
  have hk : i < nd.keys.length := by have := hsh.2.2.1; omega
  have hr : i < nd.refs.length := by omega
  have hz : (nd.keys.zip nd.refs)[i]? = some (nd.keys[i], nd.refs[i]) := by
    simp [List.getElem?_eq_getElem, hk, hr]
  have hm := hs _ (List.getElem?_mem hz)
  exact ⟨nd.keys[i], nd.refs[i], by simp [List.getElem?_eq_getElem hk],
    by simp [List.getElem?_eq_getElem hr], hm.1, hm.2⟩

/-- Order facts around child `i` of an internal node of an ordered tree. -/
theorem KeyOrder.around {cmp : CompareFn} {ns : NodeStore} {l : Nat} {nd : Node}
    (hcmp : TotalOrder cmp) (ho : KeyOrder cmp ns (l + 1) nd) (hwf : WellFormed ns (l + 1) nd)
    {i : Nat} (hi : i < nd.count) :
    ∃ k r, nd.keys[i]? = some k ∧ nd.refs[i]? = some r ∧ k ∈ treeKeys ns l (ns r).1 ∧
      KeyOrder cmp ns l (ns r).1 ∧
      (∀ t ∈ treeKeys ns l (ns r).1, cmp t k ≤ 0) ∧
      (∀ b ∈ keysAfter ns l nd i, cmp k b < 0) ∧
      (∀ a ∈ keysBefore ns l nd i, cmp a k < 0) := by
  obtain ⟨k, r, hk, hr, hlast, hsep⟩ := ho.2.at hwf hi
  have hp := ho.1
  rw [treeKeys_split hr, List.pairwise_append, List.pairwise_append] at hp
  obtain ⟨⟨-, hpc, hbc⟩, -, hca⟩ := hp
  have hmem := List.mem_of_getLast?_eq_some hlast
  obtain ⟨ys, hys⟩ := List.getLast?_eq_some_iff.mp hlast
  have hpy := hpc
  rw [hys, List.pairwise_append] at hpy
  refine ⟨k, r, hk, hr, hmem, ⟨hpc, hsep⟩, ?_, ?_, ?_⟩
  · intro t ht
    rw [hys, List.mem_append] at ht
    rcases ht with ht | ht
    · exact TotalOrder.le_of_lt (hpy.2.2 t ht k (by simp))
    · simp only [List.mem_singleton] at ht
      rw [ht, hcmp.refl]
  · intro b hb
    exact hca k (List.mem_append_right _ hmem) b hb
  · intro a ha
    exact hbc a ha k hmem

/-- Every leaf key below the first `i + 1` children is at most key `i`. -/
theorem KeyOrder.before_le {cmp : CompareFn} {ns : NodeStore} {l : Nat} {nd : Node}
    (hcmp : TotalOrder cmp) (ho : KeyOrder cmp ns (l + 1) nd) (hwf : WellFormed ns (l + 1) nd)
    {i : Nat} (hi : i < nd.count) {k : NodeItem} (hk : nd.keys[i]? = some k) :
    ∀ a ∈ keysBefore ns l nd (i + 1), cmp a k ≤ 0 := by
  obtain ⟨k2, r, hk2, hr, -, -, f1, -, f3⟩ := ho.around hcmp hwf hi
  rw [hk] at hk2
  cases hk2
  intro a ha
  rw [keysBefore_succ hr, List.mem_append] at ha
  rcases ha with ha | ha
  · exact TotalOrder.le_of_lt (f3 a ha)
  · exact f1 a ha

/-- The index chosen in an internal node by the lowest-index search, after
`keepInBounds`: the leaf keys before the chosen child are below the item,
and the lower bound of the item in the node is found inside the child. -/
theorem findIdx_descend {cmp : CompareFn} {ns : NodeStore} {l : Nat} {nd : Node}
    (hcmp : TotalOrder cmp) (ho : KeyOrder cmp ns (l + 1) nd) (hwf : WellFormed ns (l + 1) nd)
    (item : NodeItem) {i : Nat} (hi : i < nd.count)
    (hlow : ∀ j, j < i → ∀ k, nd.keys[j]? = some k → ¬ cmp item k ≤ 0)
    (hhigh : (∃ k, nd.keys[i]? = some k ∧ cmp item k ≤ 0) ∨ i + 1 = nd.count) :
    ∃ r, nd.refs[i]? = some r ∧ KeyOrder cmp ns l (ns r).1 ∧
      (treeKeys ns (l + 1) nd).findIdx (fun k => decide (cmp item k ≤ 0))
        = before ns (l + 1) nd i
          + (treeKeys ns l (ns r).1).findIdx (fun k => decide (cmp item k ≤ 0)) ∧
      ((∃ k, nd.keys[i]? = some k ∧ cmp item k ≤ 0) →
        (treeKeys ns l (ns r).1).findIdx (fun k => decide (cmp item k ≤ 0))
          < (treeKeys ns l (ns r).1).length) := by
  obtain ⟨k, r, hk, hr, hmem, hoc, f1, f2, f3⟩ := ho.around hcmp hwf hi
  have hbefore : ∀ a ∈ keysBefore ns l nd i, (fun k => decide (cmp item k ≤ 0)) a = false := by
    intro a ha
    cases i with
    | zero => simp [keysBefore] at ha
    | succ j =>
      have hj : j < nd.count := by omega
      have hkl : j < nd.keys.length := by have := hwf.1.2.2.1; omega
      have hkj : nd.keys[j]? = some nd.keys[j] := List.getElem?_eq_getElem hkl
      have h1 := ho.before_le hcmp hwf hj hkj a ha
      have h2 := hlow j (by omega) _ hkj
      have h3 := hcmp.not_le.mp h2
      have h4 := hcmp.lt_of_le_of_lt h1 h3
      have h5 := (hcmp.flip a item).mp h4
      simp only [decide_eq_false_iff_not]
      omega
  have hfound : (∃ k, nd.keys[i]? = some k ∧ cmp item k ≤ 0) →
      (treeKeys ns l (ns r).1).findIdx (fun k => decide (cmp item k ≤ 0))
        < (treeKeys ns l (ns r).1).length := by
    rintro ⟨k2, hk2, hle⟩
    rw [hk] at hk2
    cases hk2
    exact List.findIdx_lt_length_of_exists ⟨k, hmem, by simpa using hle⟩
  refine ⟨r, hr, hoc, ?_, hfound⟩
  rw [treeKeys_split hr, List.append_assoc, List.findIdx_append,
    List.findIdx_eq_length_of_false hbefore, if_neg (Nat.lt_irrefl _), keysBefore_length hwf,
    List.findIdx_append]
  rcases hhigh with hh | hh
  · rw [if_pos (hfound hh)]
    omega
  · have hlen := hwf.2.2.1
    rw [keysAfter_last (by omega)]
    have hle := @List.findIdx_le_length _ (fun k => decide (cmp item k ≤ 0))
      (treeKeys ns l (ns r).1)
    split
    · omega
    · rw [List.findIdx_nil]
      omega

theorem lowerBound_le (cmp : CompareFn) (item : NodeItem) (ks : List NodeItem) :
    lowerBound cmp item ks ≤ ks.length :=
  List.findIdx_le_length _

theorem lowestIndexSearch_eq {ns : NodeStore} {l : Nat} {nd : Node} (hwf : WellFormed ns l nd)
    (cmp : CompareFn) (item : NodeItem) :
    lowestIndexSearch cmp item nd = (lowerBound cmp item nd.keys : Int) := by
  have := hwf.shape.2.2.1
  simp only [lowestIndexSearch, lowerBound]
  rw [List.take_of_length_le (by omega)]

/-- Facts about the lower bound inside one node, after clamping to the last
index. -/
theorem lowerBound_clamp {ns : NodeStore} {l : Nat} {nd : Node} (hwf : WellFormed ns l nd)
    (cmp : CompareFn) (item : NodeItem) (st : Option (List Nat)) :
    ∃ i, i < nd.count ∧
      (Frame.mk nd (lowerBound cmp item nd.keys : Int) st).keepInBounds = ⟨nd, (i : Int), st⟩ ∧
      (∀ j, j < i → ∀ k, nd.keys[j]? = some k → ¬ cmp item k ≤ 0) ∧
      ((∃ k, nd.keys[i]? = some k ∧ cmp item k ≤ 0) ∨
        (i + 1 = nd.count ∧ lowerBound cmp item nd.keys = nd.count)) := by
  have hsh := hwf.shape
  have hlast := lastKeyIdx_of_shape hsh
  have hlen := hsh.2.2.1
  have hle := lowerBound_le cmp item nd.keys
  have hlow : ∀ j, j < lowerBound cmp item nd.keys → ∀ k, nd.keys[j]? = some k →
      ¬ cmp item k ≤ 0 := by
    intro j hj k hk
    have hjl : j < nd.keys.length := by omega
    have := @List.not_of_lt_findIdx _ (fun k => decide (cmp item k ≤ 0)) nd.keys _ hj
    rw [List.getElem?_eq_getElem hjl] at hk
    cases hk
    simpa using this
  by_cases hlt : lowerBound cmp item nd.keys < nd.count
  · refine ⟨lowerBound cmp item nd.keys, hlt, ?_, hlow, Or.inl ?_⟩
    · exact keepInBounds_id
        (by show (0 : Int) ≤ ((lowerBound cmp item nd.keys : Nat) : Int); omega)
        (by show ((lowerBound cmp item nd.keys : Nat) : Int) ≤ lastKeyIdx nd; omega)
    · have hl2 : lowerBound cmp item nd.keys < nd.keys.length := by omega
      refine ⟨nd.keys[lowerBound cmp item nd.keys], List.getElem?_eq_getElem hl2, ?_⟩
      have := @List.findIdx_getElem _ (fun k => decide (cmp item k ≤ 0)) nd.keys hl2
      simpa using this
  · have he : lowerBound cmp item nd.keys = nd.count := by omega
    refine ⟨nd.count - 1, by have := hsh.1; omega, ?_, ?_, Or.inr ⟨by have := hsh.1; omega, he⟩⟩
    · have h1 : ¬ ((lowerBound cmp item nd.keys : Nat) : Int) < 0 := by omega
      have h2 : ((lowerBound cmp item nd.keys : Nat) : Int) > lastKeyIdx nd := by omega
      have h3 : lastKeyIdx nd = ((nd.count - 1 : Nat) : Int) := by have := hsh.1; omega
      unfold Frame.keepInBounds
      simp only [if_neg h1]
      rw [if_pos h2]
      simp only [Frame.skipToNodeEnd, h3]
    · intro j hj
      exact hlow j (by omega)

/-- Every node of a cursor attached to an ordered tree is ordered. -/
theorem Attached.keyOrder {cmp : CompareFn} {ns : NodeStore} {root : Node}
    (hcmp : TotalOrder cmp) (hroot : WellFormed ns root.level root)
    (hord : KeyOrder cmp ns root.level root) :
    ∀ {ps : Cursor} {nd : Node}, Attached ns root nd ps → KeyOrder cmp ns nd.level nd
  | [], nd, h => by
    have : nd = root := h
    subst this; exact hord
  | p :: ps, nd, h => by
    have hp : KeyOrder cmp ns p.nd.level p.nd := Attached.keyOrder hcmp hroot hord h.2.2.2.2
    have hw := Attached.wf hroot h.2.2.2.2
    obtain ⟨r, hr, hnd⟩ := h.link
    obtain ⟨h0, h1, hlev, -, -⟩ := h
    rw [hlev] at hp hw
    obtain ⟨k, r2, -, hr2, -, hoc, -⟩ := hp.around hcmp hw (i := p.idx.toNat) (by omega)
    rw [(getRef_some hr).2] at hr2
    cases hr2
    rw [hnd] at hoc
    exact hoc

theorem Covers.root {cmp : CompareFn} {ns : NodeStore} {root : Node}
    (hroot : WellFormed ns root.level root) (item : NodeItem) :
    Covers cmp ns root item root [] := by
  refine ⟨by simp [rankAbove], ?_⟩
  have h1 := lowerBound_le cmp item (treeKeys ns root.level root)
  rw [treeKeys_length hroot] at h1
  omega

/-- Descending into the child chosen by the lowest-index search keeps the
lower bound covered. -/
theorem Covers.descend {cmp : CompareFn} {ns : NodeStore} {root : Node} {item : NodeItem}
    (hcmp : TotalOrder cmp) {l : Nat} {nd : Node} {ps : Cursor}
    (hwf : WellFormed ns (l + 1) nd) (ho : KeyOrder cmp ns (l + 1) nd)
    (hc : Covers cmp ns root item nd ps) (st : Option (List Nat)) :
    ∃ i r, i < nd.count ∧
      (Frame.mk nd (lowerBound cmp item nd.keys : Int) st).keepInBounds = ⟨nd, (i : Int), st⟩ ∧
      nd.getRef (i : Int) = some r ∧ (ns r).2 = none ∧ WellFormed ns l (ns r).1 ∧
      Covers cmp ns root item (ns r).1 (⟨nd, (i : Int), st⟩ :: ps) := by
  obtain ⟨i, hi, hkb, hlow, hhigh⟩ := lowerBound_clamp hwf cmp item st
  have hlev := hwf.level_eq
  obtain ⟨r, hr, hoc, hfind, hfound⟩ := findIdx_descend hcmp ho hwf item hi hlow
    (hhigh.imp id (fun h => h.1))
  obtain ⟨r2, hr2, hr2b, hok, hwfc⟩ := hwf.child (by omega : (0 : Int) ≤ (i : Int))
    (by omega : (i : Int) < (nd.count : Int))
  have hrr : r2 = r := by
    have : nd.refs[i]? = some r2 := by simpa using hr2b
    rw [hr] at this
    exact (Option.some.inj this).symm
  subst hrr
  refine ⟨i, r2, hi, hkb, hr2, hok, hwfc, ?_⟩
  obtain ⟨c1, c2⟩ := hc
  rw [hlev] at c1 c2
  have hcl := hwfc.level_eq
  simp only [lowerBound] at c1 c2 hfind hfound ⊢
  constructor
  · simp only [Covers, lowerBound, rankAbove, hlev, hcl]
    show _ = before ns (l + 1) nd ((i : Int)).toNat + rankAbove ns ps + _
    have : ((i : Int)).toNat = i := by omega
    rw [this, c1, hfind]
    omega
  · simp only [lowerBound, hcl]
    rcases hhigh with hh | ⟨hh, hall⟩
    · left
      rw [← treeKeys_length hwfc]
      exact hfound hh
    · rcases c2 with c2 | c2
      · have hle := @List.findIdx_le_length _ (fun k => decide (cmp item k ≤ 0))
          (treeKeys ns l (ns r2).1)
        rw [treeKeys_length hwfc] at hle
        have hb := @before_succ_internal ns l _ _ _ hr
        have hbc := before_count hwf
        rw [← hh] at hbc
        rcases Nat.lt_or_ge (List.findIdx (fun k => decide (cmp item k ≤ 0))
          (treeKeys ns l (ns r2).1)) (treeSize ns l (ns r2).1) with hlt | hge
        · left; exact hlt
        · right
          exfalso
          -- every key of the node is below the item, so is every leaf key below it
          have hkl : i < nd.keys.length := by have := hwf.1.2.2.1; omega
          have hki : nd.keys[i]? = some nd.keys[i] := List.getElem?_eq_getElem hkl
          have hnot : ¬ cmp item nd.keys[i] ≤ 0 := by
            simp only [lowerBound] at hall
            have hj : i < List.findIdx (fun k => decide (cmp item k ≤ 0)) nd.keys := by omega
            have := List.not_of_lt_findIdx (p := fun k => decide (cmp item k ≤ 0)) hj
            simpa using this
          have hall2 : ∀ a ∈ treeKeys ns l (ns r2).1,
              (fun k => decide (cmp item k ≤ 0)) a = false := by
            intro a ha
            obtain ⟨k, r3, hk3, hr3, -, -, f1, -, -⟩ := ho.around hcmp hwf hi
            rw [hr] at hr3
            cases hr3
            rw [hki] at hk3
            cases hk3
            have h3 := hcmp.not_le.mp hnot
            have h4 := hcmp.lt_of_le_of_lt (f1 a ha) h3
            have h5 := (hcmp.flip a item).mp h4
            simp only [decide_eq_false_iff_not]
            omega
          have := List.findIdx_eq_length_of_false hall2
          rw [treeKeys_length hwfc] at this
          omega
      · right; exact c2

theorem Attached.rank_le {ns : NodeStore} {root : Node} (hroot : WellFormed ns root.level root)
    {ps : Cursor} {nd : Node} (h : Attached ns root nd ps) :
    rankAbove ns ps + treeSize ns nd.level nd ≤ treeSize ns root.level root := by
  obtain ⟨A, B, hAB, hA⟩ := h.window hroot
  have h1 := congrArg List.length hAB
  rw [entries_length hroot] at h1
  simp only [List.length_append] at h1
  rw [entries_length (Attached.wf hroot h)] at h1
  omega

/-- Descent of `NewCursorAtItem` with the lowest-index search below a frame
chain that covers the lower bound of the item. -/
theorem fromSearchLoop_item {cmp : CompareFn} {ns : NodeStore} {root : Node} {item : NodeItem}
    (hcmp : TotalOrder cmp) (hroot : WellFormed ns root.level root)
    (hord : KeyOrder cmp ns root.level root) :
    ∀ (l fuel : Nat) (nd : Node) (ps : Cursor) (rs : List Hash), nd.level = l →
      Attached ns root nd ps → Covers cmp ns root item nd ps → l < fuel →
      (fromSearchLoop ns (fun (_ : Unit) n => (lowestIndexSearch cmp item n, ())) fuel ()
          (⟨nd, lowestIndexSearch cmp item nd, none⟩ :: ps) rs).out = .ok () ∧
      ∃ f qs, (fromSearchLoop ns (fun (_ : Unit) n => (lowestIndexSearch cmp item n, ())) fuel ()
          (⟨nd, lowestIndexSearch cmp item nd, none⟩ :: ps) rs).cur = f :: qs ∧
        Attached ns root f.nd qs ∧ f.nd.level = 0 ∧ Covers cmp ns root item f.nd qs ∧
        f.idx = (lowerBound cmp item f.nd.keys : Int)
  | 0, 0, _, _, _, _, _, _, hf => by omega
  | 0, fuel + 1, nd, ps, rs, hl, hatt, hcov, _ => by
    have hwf := Attached.wf hroot hatt
    rw [fromSearchLoop_leaf _ _ fuel _ ps rs (by simp [Frame.isLeaf, hl])]
    exact ⟨rfl, _, _, rfl, hatt, hl, hcov, lowestIndexSearch_eq hwf cmp item⟩
  | l + 1, 0, _, _, _, _, _, _, hf => by omega
  | l + 1, fuel + 1, nd, ps, rs, hl, hatt, hcov, hf => by
    have hwf := Attached.wf hroot hatt
    have hko := Attached.keyOrder hcmp hroot hord hatt
    rw [hl] at hwf hko
    rw [lowestIndexSearch_eq hwf cmp item]
    obtain ⟨i, r, hi, hkb, hr, hok, hwfc, hcc⟩ := Covers.descend hcmp hwf hko hcov none
    rw [fromSearchLoop_descend _ _ fuel _ ps rs (by simp [Frame.isLeaf, hl])
      (by rw [hkb]; exact hr) hok, hkb]
    have hatt1 : Attached ns root (ns r).1 (⟨nd, (i : Int), none⟩ :: ps) :=
      ⟨by show (0 : Int) ≤ (i : Int); omega, by show (i : Int) < (nd.count : Int); omega,
        by show nd.level = (ns r).1.level + 1; rw [hl, hwfc.level_eq],
        by simp [Frame.CurrentRef, hr], hatt⟩
    exact fromSearchLoop_item hcmp hroot hord l fuel (ns r).1 (⟨nd, (i : Int), none⟩ :: ps)
      (rs ++ [r]) hwfc.level_eq hatt1 hcc (by omega)

/-- Factory `NewCursorAtItem` with the lowest-index search ends on a leaf frame that
covers the lower bound, at the lower bound inside the leaf. -/
theorem cursorAtItem_spec {cmp : CompareFn} {ns : NodeStore} {root : Node}
    (hcmp : TotalOrder cmp) (hroot : WellFormed ns root.level root)
    (hord : KeyOrder cmp ns root.level root) (item : NodeItem) {fuel : Nat}
    (hfuel : root.level < fuel) :
    (NewCursorAtItem ns fuel root item (lowestIndexSearch cmp)).out = .ok () ∧
    ∃ f qs, cursorAtItem ns fuel root cmp item = f :: qs ∧
      Attached ns root f.nd qs ∧ f.nd.level = 0 ∧ Covers cmp ns root item f.nd qs ∧
      f.idx = (lowerBound cmp item f.nd.keys : Int) :=
  fromSearchLoop_item hcmp hroot hord root.level fuel root [] [] rfl (rfl : root = root)
    (Covers.root hroot item) hfuel

/-- What a leaf frame covering the lower bound says about the rank. -/
theorem Covers.leaf {cmp : CompareFn} {ns : NodeStore} {root : Node} {item : NodeItem}
    (hroot : WellFormed ns root.level root) {f : Frame} {qs : Cursor}
    (hatt : Attached ns root f.nd qs) (hl : f.nd.level = 0)
    (hcov : Covers cmp ns root item f.nd qs)
    (hidx : f.idx = (lowerBound cmp item f.nd.keys : Int)) :
    0 ≤ f.idx ∧ f.idx ≤ (f.nd.count : Int) ∧
    (lowerBound cmp item (treeKeys ns root.level root) : Int) = f.idx + rankAbove ns qs ∧
    (f.idx < (f.nd.count : Int) ∨
      lowerBound cmp item (treeKeys ns root.level root) = treeSize ns root.level root) ∧
    (f.idx = (f.nd.count : Int) ↔
      lowerBound cmp item (treeKeys ns root.level root) = treeSize ns root.level root) := by
  have hwf := Attached.wf hroot hatt
  rw [hl] at hwf
  obtain ⟨c1, c2⟩ := hcov
  rw [hl, treeKeys_leaf hwf] at c1 c2
  simp only [treeSize] at c2
  have hle := lowerBound_le cmp item f.nd.keys
  have hlen := hwf.shape.2.2.1
  have hrk := hatt.rank_le hroot
  rw [hl] at hrk
  simp only [treeSize] at hrk
  refine ⟨by omega, by omega, by omega, by omega, ?_⟩
  constructor
  · intro h
    rcases c2 with c2 | c2
    · omega
    · exact c2
  · intro h
    omega

/-- In a strictly increasing key sequence the key at the lower bound of an
item is the smallest key the item does not exceed. -/
theorem lowerBound_spec {cmp : CompareFn} (hcmp : TotalOrder cmp) {T : List NodeItem}
    (hT : T.Pairwise (fun a b => cmp a b < 0)) (item : NodeItem) {k : NodeItem}
    (hk : T[lowerBound cmp item T]? = some k) :
    cmp item k ≤ 0 ∧ ∀ k2 ∈ T, cmp item k2 ≤ 0 → cmp k k2 ≤ 0 := by
  have hm : lowerBound cmp item T < T.length := by
    rcases Nat.lt_or_ge (lowerBound cmp item T) T.length with h | h
    · exact h
    · rw [List.getElem?_eq_none h] at hk; cases hk
  rw [List.getElem?_eq_getElem hm] at hk
  cases hk
  have hp := @List.findIdx_getElem _ (fun k => decide (cmp item k ≤ 0)) T hm
  refine ⟨by simpa using hp, ?_⟩
  intro k2 hk2 hle
  obtain ⟨j, hj, rfl⟩ := List.mem_iff_getElem.mp hk2
  rcases Nat.lt_trichotomy j (lowerBound cmp item T) with h | h | h
  · have := @List.not_of_lt_findIdx _ (fun k => decide (cmp item k ≤ 0)) T _ h
    simp at this
    omega
  · subst h
    rw [hcmp.refl]
  · exact TotalOrder.le_of_lt (List.pairwise_iff_getElem.mp hT _ _ hm hj h)

theorem lowerBound_eq_length {cmp : CompareFn} (item : NodeItem) (T : List NodeItem) :
    lowerBound cmp item T = T.length ↔ ∀ k ∈ T, 0 < cmp item k := by
  simp only [lowerBound, List.findIdx_eq_length, decide_eq_false_iff_not]
  constructor
  · intro h k hk
    have := h k hk
    omega
  · intro h k hk
    have := h k hk
    omega

theorem CurrentKey_of_tuples {c : Cursor} {e : NodeItem × NodeItem}
    (h : CurrentCursorTuples c = some e) : CurrentKey c = some e.1 := by
  unfold CurrentCursorTuples at h
  cases hk : CurrentKey c with
  | none => simp [hk] at h
  | some k =>
    cases hv : CurrentValue c with
    | none => simp [hk, hv] at h
    | some v =>
      simp [hk, hv] at h
      rw [← h]

theorem Valid_false_of_pastEnd {c : Cursor} (h : PastEnd c) : Valid c = false := by
  cases c with
  | nil => rfl
  | cons f ps =>
    have : f.idx = (f.nd.count : Int) := h
    simp [Valid, Frame.Valid, this]

/-- Verdict on a leaf frame that covers the lower bound of the item and is
at the lower bound inside its node: valid on a key equal to the item, or
valid on the smallest greater key, or past the end. -/
theorem leaf_verdict {cmp : CompareFn} {ns : NodeStore} {root : Node} {item : NodeItem}
    (hcmp : TotalOrder cmp) (hwf : WellFormed ns root.level root)
    (hord : KeyOrder cmp ns root.level root) {f : Frame} {qs : Cursor}
    (hatt : Attached ns root f.nd qs) (hl : f.nd.level = 0)
    (hcov : Covers cmp ns root item f.nd qs)
    (hidx : f.idx = (lowerBound cmp item f.nd.keys : Int)) :
    ((Valid (f :: qs) = true ∧
        ∃ k, CurrentKey (f :: qs) = some k ∧ k ∈ treeKeys ns root.level root ∧ cmp item k = 0) ∨
      (Valid (f :: qs) = true ∧
        ∃ k, CurrentKey (f :: qs) = some k ∧ k ∈ treeKeys ns root.level root ∧ cmp item k < 0 ∧
          ∀ k2 ∈ treeKeys ns root.level root, cmp item k2 < 0 → cmp k k2 ≤ 0) ∨
      (PastEnd (f :: qs) ∧ Valid (f :: qs) = false)) ∧
    (PastEnd (f :: qs) ↔ ∀ k ∈ treeKeys ns root.level root, 0 < cmp item k) := by
  obtain ⟨g0, g1, grk, gdis, gpe⟩ := hcov.leaf hwf hatt hl hidx
  have hpe : PastEnd (f :: qs) ↔ ∀ k ∈ treeKeys ns root.level root, 0 < cmp item k := by
    rw [← lowerBound_eq_length, treeKeys_length hwf]
    exact gpe
  refine ⟨?_, hpe⟩
  by_cases hlt : f.idx < (f.nd.count : Int)
  · have hib : InBounds ns root (f :: qs) := ⟨hatt, g0, hlt⟩
    have hv := Valid_of_inBounds hwf hib
    obtain ⟨e, he1, he2⟩ := current_entry hwf hib hl
    have hck := CurrentKey_of_tuples he1
    have hrk : rankAbove ns (f :: qs) = lowerBound cmp item (treeKeys ns root.level root) := by
      simp only [rankAbove, hl, before]
      omega
    have hT : (treeKeys ns root.level root)[lowerBound cmp item (treeKeys ns root.level root)]?
        = some e.1 := by
      rw [← hrk]
      simp only [treeKeys, List.getElem?_map, he2, Option.map_some']
    have hmem : e.1 ∈ treeKeys ns root.level root := List.getElem?_mem hT
    obtain ⟨s1, s2⟩ := lowerBound_spec hcmp hord.1 item hT
    by_cases h0 : cmp item e.1 = 0
    · exact Or.inl ⟨hv, e.1, hck, hmem, h0⟩
    · exact Or.inr (Or.inl ⟨hv, e.1, hck, hmem, by omega,
        fun k2 hk2 hlt2 => s2 k2 hk2 (by omega)⟩)
  · have hp : PastEnd (f :: qs) := by
      show f.idx = (f.nd.count : Int)
      omega
    exact Or.inr (Or.inr ⟨hp, Valid_false_of_pastEnd hp⟩)

/-- C5 (search semantics of the seek-to-key factory).  On a well-formed,
ordered tree (leaf keys strictly increasing in traversal order, each
internal key the largest key below its child) and for a compare function
that is a total order, `NewCursorAtItem` with the lowest-index search
callback succeeds, and the cursor it returns is either valid on a key equal
to the item, or valid on the smallest key of the tree strictly greater than
the item, or `PastEnd` with `Valid()` false; it is `PastEnd` exactly when
the item is greater than every key of the tree. -/
theorem search_semantics (ns : NodeStore) (root : Node) (cmp : CompareFn) (item : NodeItem)
    (fuel : Nat) (hcmp : TotalOrder cmp) (hwf : WellFormed ns root.level root)
    (hord : KeyOrder cmp ns root.level root) (hfuel : root.level < fuel) :
    (NewCursorAtItem ns fuel root item (lowestIndexSearch cmp)).out = .ok () ∧
    ((Valid (cursorAtItem ns fuel root cmp item) = true ∧
        ∃ k, CurrentKey (cursorAtItem ns fuel root cmp item) = some k ∧
          k ∈ treeKeys ns root.level root ∧ cmp item k = 0) ∨
      (Valid (cursorAtItem ns fuel root cmp item) = true ∧
        ∃ k, CurrentKey (cursorAtItem ns fuel root cmp item) = some k ∧
          k ∈ treeKeys ns root.level root ∧ cmp item k < 0 ∧
          ∀ k2 ∈ treeKeys ns root.level root, cmp item k2 < 0 → cmp k k2 ≤ 0) ∨
      (PastEnd (cursorAtItem ns fuel root cmp item) ∧
        Valid (cursorAtItem ns fuel root cmp item) = false)) ∧
    (PastEnd (cursorAtItem ns fuel root cmp item) ↔
      ∀ k ∈ treeKeys ns root.level root, 0 < cmp item k) := by
  obtain ⟨hout, f, qs, hcur, hatt, hl, hcov, hidx⟩ := cursorAtItem_spec hcmp hwf hord item hfuel
  rw [hcur]
  exact ⟨hout, leaf_verdict hcmp hwf hord hatt hl hcov hidx⟩

/-- Witness of C5 on the tree with keys `a`, `b`, `c`: item `b0` lands on key
`c`, item `z` lands `PastEnd` with `Valid()` false. -/
theorem search_semantics_witness :
    (WellFormed emptyStore abcTree.level abcTree ∧
      KeyOrder bytesCompare emptyStore abcTree.level abcTree ∧ abcTree.level < 1) ∧
    (PastEnd (cursorAtItem emptyStore 1 abcTree bytesCompare [122]) ↔
      ∀ k ∈ treeKeys emptyStore abcTree.level abcTree, 0 < bytesCompare [122] k) ∧
    CurrentKey (cursorAtItem emptyStore 1 abcTree bytesCompare [98, 48]) = some [99] ∧
    Valid (cursorAtItem emptyStore 1 abcTree bytesCompare [98, 48]) = true ∧
    PastEnd (cursorAtItem emptyStore 1 abcTree bytesCompare [122]) ∧
    Valid (cursorAtItem emptyStore 1 abcTree bytesCompare [122]) = false :=
  ⟨by decide,
    (search_semantics emptyStore abcTree bytesCompare [122] 1 bytesCompare_total (by decide)
      (by decide) (by decide)).2.2,
    by decide, by decide, by decide, by decide⟩

theorem wrapInt_small {x : Int} (h0 : -65537 ≤ x) (h1 : x ≤ 65537) : wrapInt x = x :=
  wrapInt_id (by omega) (by omega)

/-- Index bounds of the frames above the leaf frame. -/
theorem Attached.idx_bounds {ns : NodeStore} {root : Node}
    (hroot : WellFormed ns root.level root) :
    ∀ {ps : Cursor} {nd : Node}, Attached ns root nd ps → ∀ p ∈ ps, 0 ≤ p.idx ∧ p.idx < 65536
  | [], _, _ => by simp
  | p :: ps, nd, h => by
    intro q hq
    rcases List.mem_cons.mp hq with hq | hq
    · subst hq
      have := (Attached.wf hroot h.2.2.2.2).shape.2.1
      have := h.1
      have := h.2.1
      omega
    · exact Attached.idx_bounds hroot h.2.2.2.2 q hq

/-- The loop of `compareCursors` returns the difference nearest the root on
cursors of equal depth whose indices are small. -/
theorem compareLoop_eq : ∀ (c d : Cursor) (diff : Int), c.length = d.length → c ≠ [] →
    (∀ p ∈ c, -1 ≤ p.idx ∧ p.idx ≤ 65536) → (∀ p ∈ d, -1 ≤ p.idx ∧ p.idx ≤ 65536) →
    compareLoop diff c d = some (if lexDiff c d ≠ 0 then lexDiff c d else diff)
  | [], _, _, _, hne, _, _ => (hne rfl).elim
  | _ :: _, [], _, hlen, _, _, _ => by simp at hlen
  | l :: lp, r :: rp, diff, hlen, _, hc, hd => by
    have hl := hc l (by simp)
    have hr := hd r (by simp)
    have hw : wrapInt (l.idx - r.idx) = l.idx - r.idx := wrapInt_small (by omega) (by omega)
    have hlen2 : lp.length = rp.length := by simpa using hlen
    cases lp with
    | nil =>
      cases rp with
      | nil => simp [compareLoop, lexDiff, hw]
      | cons _ _ => simp at hlen2
    | cons l2 lp2 =>
      cases rp with
      | nil => simp at hlen2
      | cons r2 rp2 =>
        have ih := compareLoop_eq (l2 :: lp2) (r2 :: rp2)
          (if l.idx - r.idx ≠ 0 then l.idx - r.idx else diff) hlen2 (by simp)
          (fun p hp => hc p (List.mem_cons_of_mem _ hp))
          (fun p hp => hd p (List.mem_cons_of_mem _ hp))
        rw [compareLoop]
        simp only [hw, List.isEmpty_cons, Bool.or_self, Bool.false_eq_true, if_false]
        rw [ih]
        congr 1
        rw [lexDiff.eq_3 l (l2 :: lp2) r (r2 :: rp2)]
        by_cases h1 : lexDiff (l2 :: lp2) (r2 :: rp2) = 0
        · simp only [h1, ne_eq, not_true_eq_false, if_false]
        · simp [h1]

theorem lexDiff_eq_zero_of_position : ∀ {c d : Cursor}, position c = position d →
    lexDiff c d = 0
  | [], _, _ => rfl
  | _ :: _, [], h => by simp [position] at h
  | f :: ps, g :: qs, h => by
    simp only [position, List.map_cons, List.cons.injEq, Prod.mk.injEq] at h
    have := lexDiff_eq_zero_of_position (c := ps) (d := qs) h.2
    simp [lexDiff, this, h.1.2]

/-- Frame chains on the same tree are ordered by rank as `lexDiff` orders
them: a negative difference puts the whole subtree of the left chain before
the subtree of the right chain. -/
theorem Attached.lex {ns : NodeStore} {root : Node} (hroot : WellFormed ns root.level root) :
    ∀ {ps qs : Cursor} {nd nd2 : Node}, Attached ns root nd ps → Attached ns root nd2 qs →
      nd.level = nd2.level →
      (lexDiff ps qs < 0 → rankAbove ns ps + treeSize ns nd.level nd ≤ rankAbove ns qs ∧
        ¬ AllLast ps ∧ ¬ AllFirst qs) ∧
      (lexDiff ps qs = 0 → position ps = position qs ∧ nd = nd2)
  | [], [], nd, nd2, h1, h2, _ => by
    have e1 : nd = root := h1
    have e2 : nd2 = root := h2
    refine ⟨fun h => by simp [lexDiff] at h, fun _ => ⟨rfl, by rw [e1, e2]⟩⟩
  | [], q :: qs, nd, nd2, h1, h2, hl => by
    have := h1.level_add
    have := h2.level_add
    simp only [List.length_cons, List.length_nil] at *
    omega
  | p :: ps, [], nd, nd2, h1, h2, hl => by
    have := h1.level_add
    have := h2.level_add
    simp only [List.length_cons, List.length_nil] at *
    omega
  | p :: ps, q :: qs, nd, nd2, h1, h2, hl => by
    obtain ⟨i1, i2, i3⟩ := h1.interval hroot
    obtain ⟨j1, j2, j3⟩ := h2.interval hroot
    have hlp : p.nd.level = q.nd.level := by rw [h1.2.2.1, h2.2.2.1, hl]
    obtain ⟨ihlt, iheq⟩ := Attached.lex hroot h1.2.2.2.2 h2.2.2.2.2 hlp
    have hp0 := h1.1
    have hp1 := h1.2.1
    have hq0 := h2.1
    have hq1 := h2.2.1
    have hlastq := lastKeyIdx_of_shape (Attached.wf hroot h2.2.2.2.2).shape
    rw [lexDiff]
    by_cases hz : lexDiff ps qs = 0
    · obtain ⟨hpos, hnd⟩ := iheq hz
      have hrk := @rankAbove_of_position ns _ _ hpos
      simp only [hz, ne_eq, not_true_eq_false, if_false]
      constructor
      · intro hlt
        have hm := before_mono ns p.nd.level p.nd (by omega : p.idx.toNat + 1 ≤ q.idx.toNat)
        rw [← hnd] at j1 j2
        refine ⟨by omega, ?_, ?_⟩
        · intro hal
          have := hal p (by simp)
          rw [hnd] at this
          omega
        · intro haf
          have := haf q (by simp)
          omega
      · intro heq
        have hidx : p.idx = q.idx := by omega
        obtain ⟨r1, hr1, hn1⟩ := h1.link
        obtain ⟨r2, hr2, hn2⟩ := h2.link
        rw [← hnd, ← hidx, hr1] at hr2
        cases hr2
        refine ⟨?_, by rw [← hn1, ← hn2]⟩
        simp only [position, List.map_cons, List.cons.injEq, Prod.mk.injEq]
        exact ⟨⟨hnd, hidx⟩, hpos⟩
    · simp only [ne_eq, hz, not_false_eq_true, if_true]
      constructor
      · intro hlt
        obtain ⟨g1, g2, g3⟩ := ihlt hlt
        refine ⟨by omega, ?_, ?_⟩
        · intro hal
          exact g2 (fun x hx => hal x (List.mem_cons_of_mem _ hx))
        · intro haf
          exact g3 (fun x hx => haf x (List.mem_cons_of_mem _ hx))
      · intro h
        exact h.elim

theorem lexDiff_swap : ∀ (c d : Cursor), c.length = d.length → lexDiff d c = - lexDiff c d
  | [], [], _ => by simp [lexDiff]
  | [], _ :: _, h => by simp at h
  | _ :: _, [], h => by simp at h
  | f :: ps, g :: qs, h => by
    have ih := lexDiff_swap ps qs (by simpa using h)
    rw [lexDiff, lexDiff, ih]
    by_cases hz : lexDiff ps qs = 0
    · simp [hz]
    · have : ¬ -lexDiff ps qs = 0 := by omega
      simp [hz, this]

/-- At the last index of every frame the subtree ends where the tree ends;
at the first index of every frame it starts where the tree starts. -/
theorem Attached.extremes {ns : NodeStore} {root : Node} (hroot : WellFormed ns root.level root) :
    ∀ {ps : Cursor} {nd : Node}, Attached ns root nd ps →
      (AllLast ps → rankAbove ns ps + treeSize ns nd.level nd = treeSize ns root.level root) ∧
      (AllFirst ps → rankAbove ns ps = 0)
  | [], nd, h => by
    have : nd = root := h
    subst this
    exact ⟨fun _ => by simp [rankAbove], fun _ => rfl⟩
  | p :: ps, nd, h => by
    obtain ⟨i1, i2, i3⟩ := h.interval hroot
    obtain ⟨e1, e2⟩ := Attached.extremes hroot h.2.2.2.2
    have hwfp := Attached.wf hroot h.2.2.2.2
    have hlast := lastKeyIdx_of_shape hwfp.shape
    have hp0 := h.1
    constructor
    · intro hal
      have h1 := e1 (fun x hx => hal x (List.mem_cons_of_mem _ hx))
      have h2 := hal p (by simp)
      have h3 : p.idx.toNat + 1 = p.nd.count := by omega
      rw [h3, before_count hwfp] at i2
      omega
    · intro haf
      have h1 := e2 (fun x hx => haf x (List.mem_cons_of_mem _ hx))
      have h2 := haf p (by simp)
      rw [i1, h1, h2]
      simp [before_zero]

/-- C6, as stated, fails for a cursor whose leaf index equals the count in a
leaf chunk that is not the last one.  Both cursors satisfy the stated
precondition (leaf index in `[-1, count]`, the frame above in bounds and
linked); `Compare` is negative, while the traversal indices are equal when
counted by rank, and ordered the other way when the leaf state `PastEnd` is
given the tree count. -/
theorem compare_sign_counterexample :
    WellFormed twoChunkStore twoChunkRoot.level twoChunkRoot ∧
    OnTree twoChunkStore twoChunkRoot endOfChunkA ∧
    OnTree twoChunkStore twoChunkRoot startOfChunkB ∧
    (-1 ≤ headIdx endOfChunkA ∧ headIdx endOfChunkA ≤ headCount endOfChunkA) ∧
    (-1 ≤ headIdx startOfChunkB ∧ headIdx startOfChunkB ≤ headCount startOfChunkB) ∧
    Compare endOfChunkA startOfChunkB = some (-1) ∧
    Int.sign (-1) ≠ Int.sign (rank twoChunkStore endOfChunkA - rank twoChunkStore startOfChunkB) ∧
    Int.sign (-1) ≠ Int.sign (traversalIndex twoChunkStore twoChunkRoot endOfChunkA
      - traversalIndex twoChunkStore twoChunkRoot startOfChunkB) := by
  decide

theorem sign_eq_of_same {x y : Int} (h1 : x < 0 ↔ y < 0) (h2 : 0 < x ↔ 0 < y) :
    Int.sign x = Int.sign y := by
  rcases Int.lt_trichotomy x 0 with hx | hx | hx
  · rw [Int.sign_eq_neg_one_of_neg hx, Int.sign_eq_neg_one_of_neg (h1.mp hx)]
  · have hy : y = 0 := by omega
    rw [hx, hy]
  · rw [Int.sign_eq_one_of_pos hx, Int.sign_eq_one_of_pos (h2.mp hx)]

/-- Rank order of two positioned cursors whose ancestor chains differ. -/
theorem rank_lt_of_lex {ns : NodeStore} {root : Node} (hroot : WellFormed ns root.level root)
    {f g : Frame} {ps qs : Cursor} (ha : Positioned ns root (f :: ps))
    (hb : Positioned ns root (g :: qs)) (hlt : lexDiff ps qs < 0) :
    rank ns (f :: ps) < rank ns (g :: qs) := by
  obtain ⟨a1, a2, a3⟩ := ha
  obtain ⟨b1, b2, b3⟩ := hb
  obtain ⟨h1, h2, h3⟩ := (Attached.lex hroot a1 b1 (by rw [a2, b2])).1 hlt
  rw [a2] at h1
  simp only [treeSize] at h1
  have hf : f.idx ≤ (f.nd.count : Int) - 1 := by
    rcases a3 with h | h | h
    · omega
    · exact (h2 h.2).elim
    · omega
  have hg : 0 ≤ g.idx := by
    rcases b3 with h | h | h
    · omega
    · omega
    · exact (h3 h.2).elim
  simp only [rank]
  omega

/-- C6, amended (Compare correctness).  For two leaf cursors on the same
well-formed tree, each on an entry, or past the end of the last leaf chunk
(leaf index = count, every frame above at its last index), or before the
start of the first leaf chunk (leaf index = -1, every frame above at index
0), `Compare` returns a number whose sign is the sign of the difference of
the traversal indices, also when the cursors are in different chunks whose
leaf indices are ordered the opposite way to the indices above.  The
traversal index is the rank; it is the number of leaf entries of the tree
for the cursor past the end and -1 for the cursor before the start. -/
theorem compare_sign (ns : NodeStore) (root : Node) (a b : Cursor)
    (hwf : WellFormed ns root.level root) (ha : Positioned ns root a)
    (hb : Positioned ns root b) :
    (∃ d, Compare a b = some d ∧ Int.sign d = Int.sign (rank ns a - rank ns b)) ∧
    (PastEnd a → rank ns a = (treeSize ns root.level root : Int)) ∧
    (headIdx a = -1 → rank ns a = -1) := by
  cases a with
  | nil => exact ha.elim
  | cons f ps =>
    cases b with
    | nil => exact hb.elim
    | cons g qs =>
      have ha' := ha
      have hb' := hb
      obtain ⟨a1, a2, a3⟩ := ha
      obtain ⟨b1, b2, b3⟩ := hb
      have hlen : ps.length = qs.length := by
        have := a1.level_add
        have := b1.level_add
        omega
      have hcf := (Attached.wf hwf a1).shape.2.1
      have hcg := (Attached.wf hwf b1).shape.2.1
      have hbf : ∀ p ∈ f :: ps, -1 ≤ p.idx ∧ p.idx ≤ 65536 := by
        intro p hp
        rcases List.mem_cons.mp hp with hp | hp
        · subst hp
          rcases a3 with h | h | h <;> omega
        · have := a1.idx_bounds hwf p hp
          omega
      have hbg : ∀ p ∈ g :: qs, -1 ≤ p.idx ∧ p.idx ≤ 65536 := by
        intro p hp
        rcases List.mem_cons.mp hp with hp | hp
        · subst hp
          rcases b3 with h | h | h <;> omega
        · have := b1.idx_bounds hwf p hp
          omega
      have hcmp := compareLoop_eq (f :: ps) (g :: qs) 0 (by simp [hlen]) (by simp) hbf hbg
      have hd : Compare (f :: ps) (g :: qs) = some (lexDiff (f :: ps) (g :: qs)) := by
        simp only [Compare, compareCursors, hcmp]
        split <;> simp_all
      refine ⟨⟨_, hd, ?_⟩, ?_, ?_⟩
      · rw [lexDiff]
        rcases Int.lt_trichotomy (lexDiff ps qs) 0 with hl | hl | hl
        · have h1 := rank_lt_of_lex hwf ha' hb' hl
          have hne : lexDiff ps qs ≠ 0 := by omega
          rw [if_pos hne]
          exact sign_eq_of_same (by omega) (by omega)
        · obtain ⟨hpos, -⟩ := (Attached.lex hwf a1 b1 (by rw [a2, b2])).2 hl
          have hrk := @rankAbove_of_position ns _ _ hpos
          simp only [hl, ne_eq, not_true_eq_false, if_false, rank, hrk]
          congr 1
          omega
        · have hsw := lexDiff_swap ps qs hlen
          have h1 := rank_lt_of_lex hwf hb' ha' (by omega)
          have hne : lexDiff ps qs ≠ 0 := by omega
          rw [if_pos hne]
          exact sign_eq_of_same (by omega) (by omega)
      · intro hpe
        have hpe' : f.idx = (f.nd.count : Int) := hpe
        have hal : AllLast ps := by
          rcases a3 with h | h | h
          · omega
          · exact h.2
          · omega
        have := (a1.extremes hwf).1 hal
        rw [a2] at this
        simp only [treeSize] at this
        simp only [rank]
        omega
      · intro hm
        have hm' : f.idx = -1 := hm
        have haf : AllFirst ps := by
          rcases a3 with h | h | h
          · omega
          · omega
          · exact h.2
        have := (a1.extremes hwf).2 haf
        simp only [rank]
        omega

/-- Witness of the amended C6: two cursors in different leaf chunks, the
left one at leaf index 1, the right one at leaf index 0. -/
theorem compare_sign_witness :
    (WellFormed twoChunkStore twoChunkRoot.level twoChunkRoot ∧
      Positioned twoChunkStore twoChunkRoot lastOfChunkA ∧
      Positioned twoChunkStore twoChunkRoot startOfChunkB) ∧
    ((∃ d, Compare lastOfChunkA startOfChunkB = some d ∧
        Int.sign d = Int.sign (rank twoChunkStore lastOfChunkA - rank twoChunkStore startOfChunkB)) ∧
      (PastEnd lastOfChunkA →
        rank twoChunkStore lastOfChunkA = (treeSize twoChunkStore twoChunkRoot.level twoChunkRoot : Int)) ∧
      (headIdx lastOfChunkA = -1 → rank twoChunkStore lastOfChunkA = -1)) ∧
    Compare lastOfChunkA startOfChunkB = some (-1) :=
  ⟨by decide,
    compare_sign twoChunkStore twoChunkRoot lastOfChunkA startOfChunkB (by decide) (by decide)
      (by decide),
    by decide⟩

/-- Binary search of `sort.Search` on a monotone predicate: the result
separates the indices where the predicate fails from those where it holds. -/
theorem sortSearchLoop_spec {n : Nat} {f : Nat → Option Bool} {g : Nat → Bool}
    (hf : ∀ h, h < n → f h = some (g h))
    (hmono : ∀ a b, a ≤ b → b < n → g a = true → g b = true) :
    ∀ (fuel i j : Nat), i ≤ j → j ≤ n → j - i ≤ fuel → (∀ k, k < i → g k = false) →
      (∀ k, j ≤ k → k < n → g k = true) →
      ∃ r, sortSearchLoop f fuel i j = some r ∧ r ≤ n ∧ (∀ k, k < r → g k = false) ∧
        (∀ k, r ≤ k → k < n → g k = true)
  | 0, i, j, hij, hjn, hfu, hlo, hhi => by
    have : i = j := by omega
    subst this
    exact ⟨i, rfl, hjn, hlo, hhi⟩
  | fuel + 1, i, j, hij, hjn, hfu, hlo, hhi => by
    by_cases hlt : i < j
    · have hh1 : i ≤ (i + j) / 2 := by omega
      have hh2 : (i + j) / 2 < j := by omega
      have hfh := hf ((i + j) / 2) (by omega)
      cases hg : g ((i + j) / 2) with
      | false =>
        have e : sortSearchLoop f (fuel + 1) i j = sortSearchLoop f fuel ((i + j) / 2 + 1) j := by
          simp [sortSearchLoop, hlt, hfh, hg]
        rw [e]
        apply sortSearchLoop_spec hf hmono fuel _ j (by omega) hjn (by omega) _ hhi
        intro k hk
        cases hgk : g k with
        | false => rfl
        | true =>
          have := hmono k ((i + j) / 2) (by omega) (by omega) hgk
          rw [hg] at this
          cases this
      | true =>
        have e : sortSearchLoop f (fuel + 1) i j = sortSearchLoop f fuel i ((i + j) / 2) := by
          simp [sortSearchLoop, hlt, hfh, hg]
        rw [e]
        apply sortSearchLoop_spec hf hmono fuel i _ hh1 (by omega) (by omega) hlo
        intro k hk hkn
        exact hmono _ k hk hkn hg
    · have : i = j := by omega
      subst this
      refine ⟨i, by simp [sortSearchLoop], hjn, hlo, hhi⟩

/-- On a node with sorted keys the binary search of `Cursor.search` returns
the lower bound of the item among the keys. -/
theorem search_eq_lowerBound {cmp : CompareFn} (hcmp : TotalOrder cmp) {nd : Node}
    (hlen : nd.keys.length = nd.count)
    (hsorted : nd.keys.Pairwise (fun a b => cmp a b ≤ 0)) (item : NodeItem) :
    search nd item cmp = some (lowerBound cmp item nd.keys : Int) := by
  have hf : ∀ h, h < nd.count →
      searchPred nd item cmp h = some (decide (cmp item (nd.keys.getD h []) ≤ 0)) := by
    intro h hh
    have hh2 : h < nd.keys.length := by omega
    simp [searchPred, Node.GetKey, List.getElem?_eq_getElem hh2, List.getD_eq_getElem _ _ hh2]
  have hmono : ∀ a b, a ≤ b → b < nd.count →
      decide (cmp item (nd.keys.getD a []) ≤ 0) = true →
      decide (cmp item (nd.keys.getD b []) ≤ 0) = true := by
    intro a b hab hb ha
    rcases Nat.eq_or_lt_of_le hab with h | h
    · subst h; exact ha
    · have ha2 : a < nd.keys.length := by omega
      have hb2 : b < nd.keys.length := by omega
      have := List.pairwise_iff_getElem.mp hsorted a b ha2 hb2 h
      rw [List.getD_eq_getElem _ _ ha2] at ha
      rw [List.getD_eq_getElem _ _ hb2]
      simp only [decide_eq_true_eq] at ha ⊢
      exact hcmp.trans _ _ _ ha this
  obtain ⟨r, hr, hrn, hlo, hhi⟩ := sortSearchLoop_spec hf hmono nd.count 0 nd.count
    (Nat.zero_le _) (Nat.le_refl _) (by omega) (fun k hk => by omega) (fun k hk hkn => by omega)
  have hfind : lowerBound cmp item nd.keys = r := by
    rcases Nat.lt_or_ge r nd.count with hlt | hge
    · have hr2 : r < nd.keys.length := by omega
      apply (List.findIdx_eq hr2).mpr
      constructor
      · have := hhi r (Nat.le_refl _) hlt
        rw [List.getD_eq_getElem _ _ hr2] at this
        exact this
      · intro j hj
        have := hlo j hj
        rw [List.getD_eq_getElem _ _ (by omega)] at this
        exact this
    · have : r = nd.keys.length := by omega
      rw [this]
      apply List.findIdx_eq_length_of_false
      intro x hx
      obtain ⟨j, hj, rfl⟩ := List.mem_iff_getElem.mp hx
      have := hlo j (by omega)
      rw [List.getD_eq_getElem _ _ hj] at this
      exact this
  simp only [search, sortSearch, hr, hfind]

/-- Every key of a node of an ordered tree is a leaf key below the node. -/
theorem keys_mem_treeKeys {cmp : CompareFn} {ns : NodeStore} (hcmp : TotalOrder cmp) :
    ∀ {l : Nat} {nd : Node}, WellFormed ns l nd → KeyOrder cmp ns l nd → ∀ {i : Nat} {k : NodeItem},
      nd.keys[i]? = some k → k ∈ treeKeys ns l nd
  | 0, nd, hwf, _, i, k, hk => by
    rw [treeKeys_leaf hwf]
    exact List.getElem?_mem hk
  | l + 1, nd, hwf, ho, i, k, hk => by
    have hi : i < nd.count := by
      have := hwf.1.2.2.1
      rcases Nat.lt_or_ge i nd.keys.length with h | h
      · omega
      · rw [List.getElem?_eq_none h] at hk; cases hk
    obtain ⟨k2, r, hk2, hr, hmem, -⟩ := ho.around hcmp hwf hi
    rw [hk] at hk2
    cases hk2
    rw [treeKeys_split hr]
    exact List.mem_append_left _ (List.mem_append_right _ hmem)

/-- The keys of every node of an ordered tree are strictly increasing. -/
theorem KeyOrder.node_sorted {cmp : CompareFn} {ns : NodeStore} (hcmp : TotalOrder cmp) :
    ∀ {l : Nat} {nd : Node}, WellFormed ns l nd → KeyOrder cmp ns l nd →
      nd.keys.Pairwise (fun a b => cmp a b < 0)
  | 0, nd, hwf, ho => by
    have := ho.1
    rw [treeKeys_leaf hwf] at this
    exact this
  | l + 1, nd, hwf, ho => by
    rw [List.pairwise_iff_getElem]
    intro i j hi hj hij
    have hlen := hwf.1.2.2.1
    have hrl := hwf.2.2.1
    obtain ⟨k, r, hk, hr, -, -, -, f2, -⟩ := ho.around hcmp hwf (i := i) (by omega)
    obtain ⟨k2, r2, hk2, hr2, hmem2, -⟩ := ho.around hcmp hwf (i := j) (by omega)
    rw [List.getElem?_eq_getElem hi] at hk
    rw [List.getElem?_eq_getElem hj] at hk2
    cases hk
    cases hk2
    apply f2
    simp only [keysAfter, List.mem_flatten, List.mem_map]
    refine ⟨_, ⟨r2, ?_, rfl⟩, hmem2⟩
    have hd : (nd.refs.drop (i + 1))[j - (i + 1)]? = some r2 := by
      rw [List.getElem?_drop]
      have : i + 1 + (j - (i + 1)) = j := by omega
      rw [this]
      exact hr2
    exact List.getElem?_mem hd

/-- The leaf keys below an attached node form a window of the leaf keys of
the tree. -/
theorem Attached.key_window {ns : NodeStore} {root : Node}
    (hroot : WellFormed ns root.level root) {ps : Cursor} {nd : Node}
    (h : Attached ns root nd ps) :
    ∃ A B, treeKeys ns root.level root = A ++ treeKeys ns nd.level nd ++ B ∧
      A.length = rankAbove ns ps := by
  obtain ⟨A, B, hAB, hA⟩ := h.window hroot
  refine ⟨A.map Prod.fst, B.map Prod.fst, ?_, by simpa using hA⟩
  simp only [treeKeys, hAB, List.map_append]

/-- A node whose first and last key bracket the item covers the lower bound
of the item. -/
theorem Covers.of_bracket {cmp : CompareFn} {ns : NodeStore} {root : Node} {item : NodeItem}
    (hcmp : TotalOrder cmp) (hroot : WellFormed ns root.level root)
    (hord : KeyOrder cmp ns root.level root) {ps : Cursor} {nd : Node}
    (hatt : Attached ns root nd ps) {fk lk : NodeItem} (hfk : nd.keys[0]? = some fk)
    (hlk : nd.keys[nd.count - 1]? = some lk) (h1 : cmp item fk ≥ 0) (h2 : cmp item lk ≤ 0) :
    Covers cmp ns root item nd ps := by
  have hwf := Attached.wf hroot hatt
  have hko := Attached.keyOrder hcmp hroot hord hatt
  have hfm := keys_mem_treeKeys hcmp hwf hko hfk
  have hlm := keys_mem_treeKeys hcmp hwf hko hlk
  obtain ⟨A, B, hAB, hA⟩ := hatt.key_window hroot
  have hp := hord.1
  rw [hAB, List.pairwise_append, List.pairwise_append] at hp
  obtain ⟨⟨-, -, hbc⟩, -, -⟩ := hp
  have hbefore : ∀ a ∈ A, (fun k => decide (cmp item k ≤ 0)) a = false := by
    intro a ha
    have h3 := hbc a ha fk hfm
    have h4 : cmp fk item ≤ 0 := by
      have := hcmp.flip fk item
      have := hcmp.flip item fk
      omega
    have h5 := hcmp.lt_of_lt_of_le h3 h4
    have h6 := (hcmp.flip a item).mp h5
    simp only [decide_eq_false_iff_not]
    omega
  have hfound : (treeKeys ns nd.level nd).findIdx (fun k => decide (cmp item k ≤ 0))
      < (treeKeys ns nd.level nd).length :=
    List.findIdx_lt_length_of_exists ⟨lk, hlm, by simpa using h2⟩
  constructor
  · simp only [lowerBound]
    rw [hAB, List.append_assoc, List.findIdx_append, List.findIdx_eq_length_of_false hbefore,
      if_neg (Nat.lt_irrefl _), List.findIdx_append, if_pos hfound, hA]
    omega
  · left
    simp only [lowerBound]
    rw [← treeKeys_length hwf]
    exact hfound

/-- Two frame chains of one level that cover the lower bound of the same
item are at the same position. -/
theorem Covers.same_position {cmp : CompareFn} {ns : NodeStore} {root : Node} {item : NodeItem}
    (hroot : WellFormed ns root.level root) {ps qs : Cursor} {nd nd2 : Node}
    (h1 : Attached ns root nd ps) (h2 : Attached ns root nd2 qs) (hl : nd.level = nd2.level)
    (c1 : Covers cmp ns root item nd ps) (c2 : Covers cmp ns root item nd2 qs) :
    position ps = position qs ∧ nd = nd2 := by
  have r1 := h1.rank_le hroot
  have r2 := h2.rank_le hroot
  have p1 := treeSize_pos (Attached.wf hroot h1)
  have p2 := treeSize_pos (Attached.wf hroot h2)
  have t1 := lowerBound_le cmp item (treeKeys ns nd.level nd)
  have t2 := lowerBound_le cmp item (treeKeys ns nd2.level nd2)
  rw [treeKeys_length (Attached.wf hroot h1)] at t1
  rw [treeKeys_length (Attached.wf hroot h2)] at t2
  obtain ⟨a1, a2⟩ := c1
  obtain ⟨b1, b2⟩ := c2
  by_cases hm : lowerBound cmp item (treeKeys ns root.level root) = treeSize ns root.level root
  · exact Attached.unique hroot (treeSize ns root.level root - 1) h1 h2 hl
      (by omega) (by omega) (by omega) (by omega)
  · exact Attached.unique hroot (lowerBound cmp item (treeKeys ns root.level root)) h1 h2 hl
      (by omega) (by omega) (by omega) (by omega)

/-! ## Equations of `seek` -/

theorem seek_inBounds (ns : NodeStore) {item : NodeItem} {cb : CompareFn} {f : Frame}
    (ps : Cursor) {i : Int} (hb : seekInBounds f (!ps.isEmpty) item cb = some true)
    (hs : search f.nd item cb = some i) :
    seek ns item cb (f :: ps) = ⟨{ f with idx := i } :: ps, [], .ok ()⟩ := by
  rw [seek]
  simp [hb, seekFinish, hs]

theorem seek_climb (ns : NodeStore) {item : NodeItem} {cb : CompareFn} {f : Frame}
    (ps : Cursor) {h : Hash} {i : Int}
    (hb : seekInBounds f (!ps.isEmpty) item cb = some false)
    (ho : (seek ns item cb ps).out = .ok ())
    (hr : CurrentRef (keepInBoundsHead (seek ns item cb ps).cur) = some h)
    (hok : (ns h).2 = none) (hs : search (ns h).1 item cb = some i) :
    seek ns item cb (f :: ps) =
      ⟨⟨(ns h).1, i, f.subtrees⟩ :: keepInBoundsHead (seek ns item cb ps).cur,
        (seek ns item cb ps).reads ++ [h], .ok ()⟩ := by
  rw [seek]
  simp [hb, ho, hr, hok, seekFinish, hs]

theorem seekInBounds_root (f : Frame) (item : NodeItem) (cb : CompareFn) :
    seekInBounds f (!([] : Cursor).isEmpty) item cb = some true := by
  simp [seekInBounds]

/-- The bounds test of `seek` on a frame with a parent, on a node with as
many keys as its count. -/
theorem seekInBounds_parent {f p : Frame} (ps : Cursor) (item : NodeItem) (cb : CompareFn)
    (hsh : NodeShape f.nd) :
    ∃ fk lk, f.nd.keys[0]? = some fk ∧ f.nd.keys[f.nd.count - 1]? = some lk ∧
      seekInBounds f (!(p :: ps).isEmpty) item cb
        = some (decide (cb item fk ≥ 0) && decide (cb item lk ≤ 0)) := by
  have hl := lastKeyIdx_of_shape hsh
  obtain ⟨h1, h2, hlen, -⟩ := hsh
  have h0 : 0 < f.nd.keys.length := by omega
  have hL : f.nd.count - 1 < f.nd.keys.length := by omega
  have hlt : (lastKeyIdx f.nd).toNat = f.nd.count - 1 := by omega
  have hl0 : 0 ≤ lastKeyIdx f.nd := by omega
  refine ⟨f.nd.keys[0], f.nd.keys[f.nd.count - 1], List.getElem?_eq_getElem h0,
    List.getElem?_eq_getElem hL, ?_⟩
  have g0 : f.firstKey = some f.nd.keys[0] := by
    simp [Frame.firstKey, Node.GetKey, List.getElem?_eq_getElem h0]
  have gL : f.lastKey = some f.nd.keys[f.nd.count - 1] := by
    simp only [Frame.lastKey, Node.GetKey, hl0, if_true, hlt, List.getElem?_eq_getElem hL]
  simp only [seekInBounds, List.isEmpty_cons, Bool.not_false, if_true, g0, gL]
  by_cases hc : cb item f.nd.keys[0] ≥ 0
  · simp [hc]
  · simp [hc]

theorem search_of_keyOrder {cmp : CompareFn} {ns : NodeStore} (hcmp : TotalOrder cmp) {l : Nat}
    {nd : Node} (hwf : WellFormed ns l nd) (ho : KeyOrder cmp ns l nd) (item : NodeItem) :
    search nd item cmp = some (lowerBound cmp item nd.keys : Int) :=
  search_eq_lowerBound hcmp hwf.shape.2.2.1
    ((ho.node_sorted hcmp hwf).imp (fun h => TotalOrder.le_of_lt h)) item

/-- Effect of `seek` on a cursor positioned on an ordered tree: it succeeds,
keeps the levels, and leaves the designated frame on a node that covers the
lower bound of the item, at the lower bound inside that node.  It reads the
store exactly when the bounds test on the designated frame fails. -/
theorem seek_spec {cmp : CompareFn} {ns : NodeStore} {root : Node} {item : NodeItem}
    (hcmp : TotalOrder cmp) (hroot : WellFormed ns root.level root)
    (hord : KeyOrder cmp ns root.level root) :
    ∀ (ps : Cursor) (f : Frame), Attached ns root f.nd ps →
      (seek ns item cmp (f :: ps)).out = .ok () ∧
      ((seek ns item cmp (f :: ps)).reads = [] ↔
        seekInBounds f (!ps.isEmpty) item cmp = some true) ∧
      ∃ f2 ps2, (seek ns item cmp (f :: ps)).cur = f2 :: ps2 ∧ Attached ns root f2.nd ps2 ∧
        f2.nd.level = f.nd.level ∧ Covers cmp ns root item f2.nd ps2 ∧
        f2.idx = (lowerBound cmp item f2.nd.keys : Int)
  | [], f, hatt => by
    have hwf := Attached.wf hroot hatt
    have hko := Attached.keyOrder hcmp hroot hord hatt
    rw [seek_inBounds ns [] (seekInBounds_root f item cmp) (search_of_keyOrder hcmp hwf hko item)]
    have hr : f.nd = root := hatt
    refine ⟨rfl, ⟨fun _ => seekInBounds_root f item cmp, fun _ => rfl⟩, _, _, rfl, hatt, rfl, ?_,
      rfl⟩
    show Covers cmp ns root item f.nd []
    rw [hr]
    exact Covers.root hroot item
  | p :: pps, f, hatt => by
    have hwf := Attached.wf hroot hatt
    have hko := Attached.keyOrder hcmp hroot hord hatt
    obtain ⟨fk, lk, hfk, hlk, hsb⟩ := seekInBounds_parent (p := p) pps item cmp hwf.shape
    by_cases hin : cmp item fk ≥ 0 ∧ cmp item lk ≤ 0
    · have hb : seekInBounds f (!(p :: pps).isEmpty) item cmp = some true := by
        rw [hsb]; simp [hin.1, hin.2]
      rw [seek_inBounds ns (p :: pps) hb (search_of_keyOrder hcmp hwf hko item)]
      exact ⟨rfl, ⟨fun _ => hb, fun _ => rfl⟩, _, _, rfl, hatt, rfl,
        Covers.of_bracket hcmp hroot hord hatt hfk hlk hin.1 hin.2, rfl⟩
    · have hb : seekInBounds f (!(p :: pps).isEmpty) item cmp = some false := by
        rw [hsb]
        by_cases h1 : cmp item fk ≥ 0
        · have h2 : ¬ cmp item lk ≤ 0 := fun h => hin ⟨h1, h⟩
          simp [h1, h2]
        · simp [h1]
      obtain ⟨ho, -, p2, pps2, hcur, hatt2, hlev2, hcov2, hidx2⟩ :=
        seek_spec hcmp hroot hord pps p hatt.2.2.2.2
      have hwf2 := Attached.wf hroot hatt2
      have hko2 := Attached.keyOrder hcmp hroot hord hatt2
      have hl2 : p2.nd.level = f.nd.level + 1 := by rw [hlev2]; exact hatt.2.2.1
      rw [hl2] at hwf2 hko2
      obtain ⟨i, r, hi, hkb, hr, hok, hwfc, hcc⟩ := Covers.descend hcmp hwf2 hko2 hcov2 p2.subtrees
      have hp2 : p2 = Frame.mk p2.nd (lowerBound cmp item p2.nd.keys : Int) p2.subtrees := by
        cases p2
        simp only at hidx2 ⊢
        rw [hidx2]
      have hkh : keepInBoundsHead (seek ns item cmp (p :: pps)).cur
          = ⟨p2.nd, (i : Int), p2.subtrees⟩ :: pps2 := by
        rw [hcur]
        show p2.keepInBounds :: pps2 = _
        rw [hp2, hkb]
      have hko3 : KeyOrder cmp ns (f.nd.level) (ns r).1 := by
        have hatt3 : Attached ns root (ns r).1 (⟨p2.nd, (i : Int), p2.subtrees⟩ :: pps2) :=
          ⟨by show (0 : Int) ≤ (i : Int); omega, by show (i : Int) < (p2.nd.count : Int); omega,
            by show p2.nd.level = (ns r).1.level + 1; rw [hl2, hwfc.level_eq],
            by simp [Frame.CurrentRef, hr], hatt2⟩
        have := Attached.keyOrder hcmp hroot hord hatt3
        rw [hwfc.level_eq] at this
        exact this
      have hcr : CurrentRef (keepInBoundsHead (seek ns item cmp (p :: pps)).cur) = some r := by
        rw [hkh]; exact hr
      rw [seek_climb ns (p :: pps) hb ho hcr hok (search_of_keyOrder hcmp hwfc hko3 item), hkh]
      refine ⟨rfl, ⟨fun h => absurd h (by simp), fun h => by rw [hb] at h; cases h⟩, _, _, rfl, ?_,
        hwfc.level_eq, hcc, rfl⟩
      exact ⟨by show (0 : Int) ≤ (i : Int); omega, by show (i : Int) < (p2.nd.count : Int); omega,
        by show p2.nd.level = (ns r).1.level + 1; rw [hl2, hwfc.level_eq],
        by simp [Frame.CurrentRef, hr], hatt2⟩

/-- Two cursors that both end on a frame covering the lower bound of the
item, at the lower bound inside the node, are at the same position. -/
theorem position_of_covers {cmp : CompareFn} {ns : NodeStore} {root : Node} {item : NodeItem}
    (hroot : WellFormed ns root.level root) {f g : Frame} {ps qs : Cursor}
    (h1 : Attached ns root f.nd ps) (h2 : Attached ns root g.nd qs)
    (hl : f.nd.level = g.nd.level) (c1 : Covers cmp ns root item f.nd ps)
    (c2 : Covers cmp ns root item g.nd qs)
    (i1 : f.idx = (lowerBound cmp item f.nd.keys : Int))
    (i2 : g.idx = (lowerBound cmp item g.nd.keys : Int)) :
    position (f :: ps) = position (g :: qs) := by
  obtain ⟨hpos, hnd⟩ := Covers.same_position hroot h1 h2 hl c1 c2
  simp only [position, List.map_cons, List.cons.injEq, Prod.mk.injEq]
  refine ⟨⟨hnd, ?_⟩, hpos⟩
  rw [i1, i2, hnd]

/-- A leaf frame that covers the lower bound of the item and is at the lower
bound inside its node is on the smallest key the item does not exceed, or
past the end when the item exceeds every key. -/
theorem leaf_lower {cmp : CompareFn} {ns : NodeStore} {root : Node} {item : NodeItem}
    (hcmp : TotalOrder cmp) (hwf : WellFormed ns root.level root)
    (hord : KeyOrder cmp ns root.level root) {f : Frame} {qs : Cursor}
    (hatt : Attached ns root f.nd qs) (hl : f.nd.level = 0)
    (hcov : Covers cmp ns root item f.nd qs)
    (hidx : f.idx = (lowerBound cmp item f.nd.keys : Int)) :
    (Valid (f :: qs) = true ∧
        ∃ k, CurrentKey (f :: qs) = some k ∧ k ∈ treeKeys ns root.level root ∧ cmp item k ≤ 0 ∧
          ∀ k2 ∈ treeKeys ns root.level root, cmp item k2 ≤ 0 → cmp k k2 ≤ 0) ∨
      (PastEnd (f :: qs) ∧ Valid (f :: qs) = false ∧
        ∀ k ∈ treeKeys ns root.level root, 0 < cmp item k) := by
  obtain ⟨g0, g1, grk, gdis, gpe⟩ := hcov.leaf hwf hatt hl hidx
  by_cases hlt : f.idx < (f.nd.count : Int)
  · have hib : InBounds ns root (f :: qs) := ⟨hatt, g0, hlt⟩
    have hv := Valid_of_inBounds hwf hib
    obtain ⟨e, he1, he2⟩ := current_entry hwf hib hl
    have hck := CurrentKey_of_tuples he1
    have hrk : rankAbove ns (f :: qs) = lowerBound cmp item (treeKeys ns root.level root) := by
      simp only [rankAbove, hl, before]
      omega
    have hT : (treeKeys ns root.level root)[lowerBound cmp item (treeKeys ns root.level root)]?
        = some e.1 := by
      rw [← hrk]
      simp only [treeKeys, List.getElem?_map, he2, Option.map_some']
    obtain ⟨s1, s2⟩ := lowerBound_spec hcmp hord.1 item hT
    exact Or.inl ⟨hv, e.1, hck, List.getElem?_mem hT, s1, s2⟩
  · have hp : PastEnd (f :: qs) := by
      show f.idx = (f.nd.count : Int)
      omega
    refine Or.inr ⟨hp, Valid_false_of_pastEnd hp, ?_⟩
    rw [← lowerBound_eq_length, treeKeys_length hwf]
    exact gpe.mp hp

theorem keepInBounds_attached {ns : NodeStore} {root : Node}
    (hroot : WellFormed ns root.level root) :
    ∀ {ps : Cursor} {nd : Node}, Attached ns root nd ps → ps.map Frame.keepInBounds = ps
  | [], _, _ => rfl
  | p :: ps, nd, h => by
    have hl := lastKeyIdx_of_shape (Attached.wf hroot h.2.2.2.2).shape
    have h0 := h.1
    have h1 := h.2.1
    rw [List.map_cons, keepInBounds_id h0 (by omega), keepInBounds_attached hroot h.2.2.2.2]

/-- The bounds test of `seek` succeeds exactly on a frame without parent or
on a node whose first and last key bracket the item. -/
theorem seekInBounds_true_iff (f : Frame) (ps : Cursor) (item : NodeItem) (cb : CompareFn) :
    seekInBounds f (!ps.isEmpty) item cb = some true ↔ ps = [] ∨ Bracketed cb item f := by
  cases ps with
  | nil => simp [seekInBounds]
  | cons p pps =>
    simp only [seekInBounds, List.isEmpty_cons, Bool.not_false, if_true, Bracketed, false_or,
      reduceCtorEq]
    cases hf : f.firstKey with
    | none => simp
    | some fk =>
      by_cases h1 : cb item fk ≥ 0
      · cases hk : f.lastKey with
        | none => simp [h1]
        | some lk => simp [h1]
      · simp [h1]

/-- C7 (seek refines a fresh descent).  On a well-formed, ordered tree, for
a compare function that is a total order and every leaf cursor positioned on
the tree (frames above the leaf in bounds and linked, leaf index
arbitrary), `seek` returns without error and every frame has the node and
index of the corresponding frame of `NewCursorAtItem` with the lowest-index
search, whose non-leaf indices are clamped by `keepInBounds` (they are in
bounds already).  The leaf ends valid on the smallest key the item does not
exceed, or `PastEnd` when the item exceeds every key. -/
theorem seek_refines_descent (ns : NodeStore) (root : Node) (cmp : CompareFn) (item : NodeItem)
    (c : Cursor) (fuel : Nat) (hcmp : TotalOrder cmp) (hwf : WellFormed ns root.level root)
    (hord : KeyOrder cmp ns root.level root) (hc : OnTree ns root c)
    (hleaf : (levels c).head? = some 0) (hfuel : root.level < fuel) :
    (seek ns item cmp c).out = .ok () ∧
    position (seek ns item cmp c).cur
      = position (clampAbove (cursorAtItem ns fuel root cmp item)) ∧
    clampAbove (cursorAtItem ns fuel root cmp item) = cursorAtItem ns fuel root cmp item ∧
    ((Valid (seek ns item cmp c).cur = true ∧
        ∃ k, CurrentKey (seek ns item cmp c).cur = some k ∧ k ∈ treeKeys ns root.level root ∧
          cmp item k ≤ 0 ∧ ∀ k2 ∈ treeKeys ns root.level root, cmp item k2 ≤ 0 → cmp k k2 ≤ 0) ∨
      (PastEnd (seek ns item cmp c).cur ∧ Valid (seek ns item cmp c).cur = false ∧
        ∀ k ∈ treeKeys ns root.level root, 0 < cmp item k)) := by
  cases c with
  | nil => exact hc.elim
  | cons f ps =>
    have hl0 : f.nd.level = 0 := by simpa [levels] using hleaf
    obtain ⟨ho, -, f2, ps2, hcur, hatt2, hlev2, hcov2, hidx2⟩ := seek_spec hcmp hwf hord ps f hc
    obtain ⟨-, g, qs, hcur3, hatt3, hl3, hcov3, hidx3⟩ :=
      cursorAtItem_spec hcmp hwf hord item hfuel
    have hclamp : clampAbove (cursorAtItem ns fuel root cmp item)
        = cursorAtItem ns fuel root cmp item := by
      rw [hcur3]
      show g :: qs.map Frame.keepInBounds = g :: qs
      rw [keepInBounds_attached hwf hatt3]
    refine ⟨ho, ?_, hclamp, ?_⟩
    · rw [hclamp, hcur, hcur3]
      exact position_of_covers hwf hatt2 hatt3 (by rw [hlev2, hl0, hl3]) hcov2 hcov3 hidx2 hidx3
    · rw [hcur]
      exact leaf_lower hcmp hwf hord hatt2 (by rw [hlev2, hl0]) hcov2 hidx2

/-- Witness of C7: from the start of the two-chunk tree, seeking the first
key of the second chunk gives the cursor of a fresh descent. -/
theorem seek_refines_descent_witness :
    (WellFormed twoChunkStore twoChunkRoot.level twoChunkRoot ∧
      KeyOrder bytesCompare twoChunkStore twoChunkRoot.level twoChunkRoot ∧
      OnTree twoChunkStore twoChunkRoot lastOfChunkA ∧
      (levels lastOfChunkA).head? = some 0 ∧ twoChunkRoot.level < 2) ∧
    ((seek twoChunkStore [20] bytesCompare lastOfChunkA).out = .ok () ∧
      position (seek twoChunkStore [20] bytesCompare lastOfChunkA).cur
        = position (clampAbove (cursorAtItem twoChunkStore 2 twoChunkRoot bytesCompare [20]))) ∧
    position (seek twoChunkStore [20] bytesCompare lastOfChunkA).cur = position startOfChunkB :=
  ⟨by decide,
    ⟨(seek_refines_descent twoChunkStore twoChunkRoot bytesCompare [20] lastOfChunkA 2
        bytesCompare_total (by decide) (by decide) (by decide) (by decide) (by decide)).1,
      (seek_refines_descent twoChunkStore twoChunkRoot bytesCompare [20] lastOfChunkA 2
        bytesCompare_total (by decide) (by decide) (by decide) (by decide) (by decide)).2.1⟩,
    by decide⟩

/-- C9, as stated, fails: for an item in the gap between the last key of the
first leaf chunk and the first key of the second, and for an item greater
than every key, the second of two successive `seek` calls reads the child
chunk again. -/
theorem seek_reads_counterexample :
    WellFormed twoChunkStore twoChunkRoot.level twoChunkRoot ∧
    KeyOrder bytesCompare twoChunkStore twoChunkRoot.level twoChunkRoot ∧
    OnTree twoChunkStore twoChunkRoot lastOfChunkA ∧
    (seek twoChunkStore [15] bytesCompare
      (seek twoChunkStore [15] bytesCompare lastOfChunkA).cur).reads = [2] ∧
    (seek twoChunkStore [30] bytesCompare
      (seek twoChunkStore [30] bytesCompare lastOfChunkA).cur).reads = [2] := by
  decide

/-- C9, amended (seek idempotence, store reads).  On a well-formed, ordered
tree, after a first `seek` the second `seek` with the same item performs no
store read exactly when the cursor has a single frame or the item lies
between the first and the last key of the leaf node the first call ended on
(`cmp(item, firstKey) ≥ 0` and `cmp(item, lastKey) ≤ 0`). -/
theorem seek_idempotent_reads (ns : NodeStore) (root : Node) (cmp : CompareFn)
    (item : NodeItem) (c : Cursor) (hcmp : TotalOrder cmp)
    (hwf : WellFormed ns root.level root) (hord : KeyOrder cmp ns root.level root)
    (hc : OnTree ns root c) :
    ∃ f ps, (seek ns item cmp c).cur = f :: ps ∧
      ((seek ns item cmp (seek ns item cmp c).cur).reads = [] ↔
        ps = [] ∨ Bracketed cmp item f) := by
  cases c with
  | nil => exact hc.elim
  | cons f ps =>
    obtain ⟨-, -, f2, ps2, hcur, hatt2, -, -, -⟩ := @seek_spec cmp ns root item hcmp hwf hord ps f hc
    refine ⟨f2, ps2, hcur, ?_⟩
    rw [hcur]
    obtain ⟨-, hreads, -⟩ := @seek_spec cmp ns root item hcmp hwf hord ps2 f2 hatt2
    rw [hreads]
    exact seekInBounds_true_iff f2 ps2 item cmp

/-- Witness of the amended C9: after seeking `k3` the cursor is in the leaf
chunk `[k2,k3]`, which brackets `k3`, and the second seek reads nothing. -/
theorem seek_idempotent_reads_witness :
    (WellFormed twoChunkStore twoChunkRoot.level twoChunkRoot ∧
      KeyOrder bytesCompare twoChunkStore twoChunkRoot.level twoChunkRoot ∧
      OnTree twoChunkStore twoChunkRoot lastOfChunkA) ∧
    (∃ f ps, (seek twoChunkStore [21] bytesCompare lastOfChunkA).cur = f :: ps ∧
      ((seek twoChunkStore [21] bytesCompare
          (seek twoChunkStore [21] bytesCompare lastOfChunkA).cur).reads = [] ↔
        ps = [] ∨ Bracketed bytesCompare [21] f)) ∧
    (seek twoChunkStore [21] bytesCompare
      (seek twoChunkStore [21] bytesCompare lastOfChunkA).cur).reads = [] :=
  ⟨by decide,
    seek_idempotent_reads twoChunkStore twoChunkRoot bytesCompare [21] lastOfChunkA
      bytesCompare_total (by decide) (by decide) (by decide),
    by decide⟩

theorem getKey_mem {nd : Node} {i : Int} {k : NodeItem} (h : nd.GetKey i = some k) :
    k ∈ nd.keys := by
  unfold Node.GetKey at h
  split at h
  · exact List.getElem?_mem h
  · cases h

/-- C10 (seek locality).  On a frame that has no parent, or whose node
brackets the item (`cmp(item, firstKey) ≥ 0` and `cmp(item, lastKey) ≤ 0`),
`seek` performs no store read, leaves the node of the frame and every frame
above it unchanged, and only sets the index of the frame to the lowest `i`
with `cmp(item, key(i)) ≤ 0` (the count when no key qualifies, which can
happen only without parent).  The node holds as many keys as its count, in
sorted order, and the compare function is a total order. -/
theorem seek_local (ns : NodeStore) (item : NodeItem) (cmp : CompareFn) (f : Frame)
    (ps : Cursor) (hcmp : TotalOrder cmp) (hlen : f.nd.keys.length = f.nd.count)
    (hsorted : f.nd.keys.Pairwise (fun a b => cmp a b ≤ 0))
    (hin : ps = [] ∨ Bracketed cmp item f) :
    (seek ns item cmp (f :: ps)).out = .ok () ∧
    (seek ns item cmp (f :: ps)).reads = [] ∧
    (seek ns item cmp (f :: ps)).cur
      = { f with idx := (lowerBound cmp item f.nd.keys : Int) } :: ps ∧
    lowerBound cmp item f.nd.keys ≤ f.nd.count ∧
    (∀ j k, j < lowerBound cmp item f.nd.keys → f.nd.keys[j]? = some k → 0 < cmp item k) ∧
    (∀ k, f.nd.keys[lowerBound cmp item f.nd.keys]? = some k → cmp item k ≤ 0) ∧
    (Bracketed cmp item f → lowerBound cmp item f.nd.keys < f.nd.count) := by
  have hb := (seekInBounds_true_iff f ps item cmp).mpr hin
  rw [seek_inBounds ns ps hb (search_eq_lowerBound hcmp hlen hsorted item)]
  refine ⟨rfl, rfl, rfl, ?_, ?_, ?_, ?_⟩
  · rw [← hlen]
    exact lowerBound_le cmp item f.nd.keys
  · intro j k hj hk
    have hle := lowerBound_le cmp item f.nd.keys
    have hjl : j < f.nd.keys.length := by omega
    have := @List.not_of_lt_findIdx _ (fun k => decide (cmp item k ≤ 0)) f.nd.keys _ hj
    rw [List.getElem?_eq_getElem hjl] at hk
    cases hk
    simp only [decide_eq_false_iff_not] at this
    omega
  · intro k hk
    exact List.findIdx_of_getElem?_eq_some (p := fun k => decide (cmp item k ≤ 0)) hk
      |> fun h => by simpa using h
  · rintro ⟨fk, lk, -, hlk, -, h2⟩
    rw [← hlen]
    exact List.findIdx_lt_length_of_exists ⟨lk, getKey_mem hlk, by simpa using h2⟩

/-- Witness of C10: positioned at `k2` in the leaf chunk `[k2,k3]`,
`seek(k3)` reads nothing from the store. -/
theorem seek_local_witness :
    (chunkB.keys.length = chunkB.count ∧
      chunkB.keys.Pairwise (fun a b => bytesCompare a b ≤ 0) ∧
      cursorAtItem twoChunkStore 2 twoChunkRoot bytesCompare [20] = startOfChunkB) ∧
    (seek twoChunkStore [21] bytesCompare startOfChunkB).out = .ok () ∧
    (seek twoChunkStore [21] bytesCompare startOfChunkB).reads = [] ∧
    position (seek twoChunkStore [21] bytesCompare startOfChunkB).cur
      = [(chunkB, 1), (twoChunkRoot, 1)] :=
  ⟨by decide,
    (seek_local twoChunkStore [21] bytesCompare ⟨chunkB, 0, none⟩ [⟨twoChunkRoot, 1, none⟩]
      bytesCompare_total (by decide) (by decide)
      (Or.inr ⟨[20], [21], by decide, by decide, by decide, by decide⟩)).1,
    (seek_local twoChunkStore [21] bytesCompare ⟨chunkB, 0, none⟩ [⟨twoChunkRoot, 1, none⟩]
      bytesCompare_total (by decide) (by decide)
      (Or.inr ⟨[20], [21], by decide, by decide, by decide, by decide⟩)).2.1,
    by decide⟩

/-- A leaf cursor in bounds has a rank below the size of the tree. -/
theorem rankAbove_lt_size {ns : NodeStore} {root : Node} (hroot : WellFormed ns root.level root)
    {c : Cursor} (hib : InBounds ns root c) (hleaf : (levels c).head? = some 0) :
    rankAbove ns c < treeSize ns root.level root := by
  cases c with
  | nil => exact hib.elim
  | cons f ps =>
    have hl0 : f.nd.level = 0 := by simpa [levels] using hleaf
    obtain ⟨e, -, he⟩ := current_entry hroot hib hl0
    rw [← entries_length hroot]
    rcases Nat.lt_or_ge (rankAbove ns (f :: ps)) (entries ns root.level root).length with h | h
    · exact h
    · rw [List.getElem?_eq_none h] at he; cases he

/-- The cursor of `NewCursorAtEnd` is on the last entry: `advanceInBounds`
returns false on it and leaves it as it is. -/
theorem advance_at_end {ns : NodeStore} {root : Node} (hroot : WellFormed ns root.level root)
    {fuel : Nat} (hfuel : root.level < fuel) :
    (NewCursorAtEnd ns fuel root).out = .ok () ∧
    InBounds ns root (NewCursorAtEnd ns fuel root).cur ∧
    (advanceInBounds ns (NewCursorAtEnd ns fuel root).cur).out = .ok false ∧
    (advanceInBounds ns (NewCursorAtEnd ns fuel root).cur).cur
      = (NewCursorAtEnd ns fuel root).cur := by
  obtain ⟨g1, g2, g3, g4⟩ :=
    atEndLoop_spec hroot root.level fuel root [] [] rfl (rfl : root = root) hfuel
  have e : NewCursorAtEnd ns fuel root = atEndLoop ns fuel [⟨root, lastKeyIdx root, none⟩] [] := rfl
  rw [e]
  cases hc : (atEndLoop ns fuel [⟨root, lastKeyIdx root, none⟩] []).cur with
  | nil => rw [hc] at g2; exact g2.elim
  | cons f ps =>
    rw [hc] at g2 g3 g4
    simp only [rankAbove, Nat.zero_add] at g4
    rcases advanceInBounds_spec hroot ps f g2 with ⟨ho, hcur, -⟩ | ⟨-, hib, hlv, hrk⟩
    · exact ⟨g1, g2, ho, hcur⟩
    · have := rankAbove_lt_size hroot hib (leaf_of_levels hlv g3)
      omega

/-- C11 (past-end construction).  On a well-formed tree `NewCursorPastEnd`
never reaches its panic: the `Advance` it performs on the cursor of
`NewCursorAtEnd` returns false.  The cursor it returns is the cursor of
`NewCursorAtEnd` with the leaf index set to the count of the leaf, so the
frames above the leaf are those of `NewCursorAtEnd`, and `Valid()` is false
on it.  For every `ord` at or above `root.TreeCount()`,
`NewCursorAtOrdinal(ord)` is that same call. -/
theorem past_end_construction (ns : NodeStore) (root : Node) (fuel ord : Nat)
    (hwf : WellFormed ns root.level root) (hfuel : root.level < fuel)
    (hord : root.TreeCount ≤ ord) :
    (NewCursorPastEnd ns fuel root).out = .ok () ∧
    (Advance ns (NewCursorAtEnd ns fuel root).cur).out = .ok false ∧
    (NewCursorPastEnd ns fuel root).cur
      = setIdx (headCount (NewCursorAtEnd ns fuel root).cur) (NewCursorAtEnd ns fuel root).cur ∧
    PastEnd (NewCursorPastEnd ns fuel root).cur ∧
    Valid (NewCursorPastEnd ns fuel root).cur = false ∧
    (NewCursorPastEnd ns fuel root).cur.tail = (NewCursorAtEnd ns fuel root).cur.tail ∧
    NewCursorAtOrdinal ns fuel root ord = NewCursorPastEnd ns fuel root := by
  obtain ⟨h1, h2, h3, h4⟩ := advance_at_end hwf hfuel
  obtain ⟨a1, a2, -⟩ := Advance_of_false h3
  rw [h4] at a2
  have hcur : (NewCursorPastEnd ns fuel root).cur
      = setIdx (headCount (NewCursorAtEnd ns fuel root).cur) (NewCursorAtEnd ns fuel root).cur := by
    simp only [NewCursorPastEnd, h1, a1, a2]
  have hout : (NewCursorPastEnd ns fuel root).out = .ok () := by
    simp only [NewCursorPastEnd, h1, a1]
  have hpe : PastEnd (NewCursorPastEnd ns fuel root).cur := by
    rw [hcur]
    cases hc : (NewCursorAtEnd ns fuel root).cur with
    | nil => rw [hc] at h2; exact h2.elim
    | cons f ps => rfl
  refine ⟨hout, a1, hcur, hpe, Valid_false_of_pastEnd hpe, ?_, ?_⟩
  · rw [hcur]
    cases (NewCursorAtEnd ns fuel root).cur with
    | nil => rfl
    | cons f ps => rfl
  · have hge : ord ≥ root.TreeCount % 18446744073709551616 :=
      Nat.le_trans (Nat.mod_le _ _) hord
    simp only [NewCursorAtOrdinal, if_pos hge]

/-- Witness of C11 on the tree with two leaf chunks. -/
theorem past_end_construction_witness :
    (WellFormed twoChunkStore twoChunkRoot.level twoChunkRoot ∧ twoChunkRoot.level < 2 ∧
      twoChunkRoot.TreeCount ≤ 9) ∧
    ((NewCursorPastEnd twoChunkStore 2 twoChunkRoot).out = .ok () ∧
      (Advance twoChunkStore (NewCursorAtEnd twoChunkStore 2 twoChunkRoot).cur).out = .ok false) ∧
    NewCursorAtOrdinal twoChunkStore 2 twoChunkRoot 9 = NewCursorPastEnd twoChunkStore 2 twoChunkRoot ∧
    position (NewCursorPastEnd twoChunkStore 2 twoChunkRoot).cur
      = [(chunkB, 2), (twoChunkRoot, 1)] :=
  ⟨by decide,
    ⟨(past_end_construction twoChunkStore twoChunkRoot 2 9 (by decide) (by decide) (by decide)).1,
      (past_end_construction twoChunkStore twoChunkRoot 2 9 (by decide) (by decide)
        (by decide)).2.1⟩,
    (past_end_construction twoChunkStore twoChunkRoot 2 9 (by decide) (by decide)
      (by decide)).2.2.2.2.2.2,
    by decide⟩

/-! ## Failing branches of `advanceInBounds`, `retreatInBounds` and `seek` -/

theorem advanceInBounds_assert (ns : NodeStore) {f : Frame} (ps : Cursor)
    (h : ¬ f.idx < lastKeyIdx f.nd) (hc : ¬ f.idx = (f.nd.count : Int))
    (he : ¬ f.idx = lastKeyIdx f.nd) :
    advanceInBounds ns (f :: ps) = ⟨f :: ps, [], .error .panic⟩ := by
  cases ps <;> simp [advanceInBounds, h, hc, Frame.atNodeEnd, he]

theorem advanceInBounds_up_err (ns : NodeStore) {f p : Frame} (pps : Cursor) {e : Fault}
    (h : f.idx = lastKeyIdx f.nd) (hc : ¬ f.idx = (f.nd.count : Int))
    (ho : (advanceInBounds ns (p :: pps)).out = .error e) :
    advanceInBounds ns (f :: p :: pps) =
      ⟨f :: (advanceInBounds ns (p :: pps)).cur, (advanceInBounds ns (p :: pps)).reads, .error e⟩ := by
  have hlt : ¬ f.idx < lastKeyIdx f.nd := by omega
  have hend : f.atNodeEnd = true := by simp [Frame.atNodeEnd, h]
  rw [advanceInBounds]
  simp [hlt, hc, hend, ho]

theorem advanceInBounds_up_noref (ns : NodeStore) {f p : Frame} (pps : Cursor)
    (h : f.idx = lastKeyIdx f.nd) (hc : ¬ f.idx = (f.nd.count : Int))
    (ho : (advanceInBounds ns (p :: pps)).out = .ok true)
    (hr : CurrentRef (advanceInBounds ns (p :: pps)).cur = none) :
    advanceInBounds ns (f :: p :: pps) =
      ⟨f :: (advanceInBounds ns (p :: pps)).cur, (advanceInBounds ns (p :: pps)).reads,
        .error .panic⟩ := by
  have hlt : ¬ f.idx < lastKeyIdx f.nd := by omega
  have hend : f.atNodeEnd = true := by simp [Frame.atNodeEnd, h]
  rw [advanceInBounds]
  simp [hlt, hc, hend, ho, hr]

theorem advanceInBounds_up_fetch_err (ns : NodeStore) {f p : Frame} (pps : Cursor) {r : Hash}
    {e : StoreError} (h : f.idx = lastKeyIdx f.nd) (hc : ¬ f.idx = (f.nd.count : Int))
    (ho : (advanceInBounds ns (p :: pps)).out = .ok true)
    (hr : CurrentRef (advanceInBounds ns (p :: pps)).cur = some r) (hs : (ns r).2 = some e) :
    advanceInBounds ns (f :: p :: pps) =
      ⟨⟨(ns r).1, -1, f.subtrees⟩ :: (advanceInBounds ns (p :: pps)).cur,
        (advanceInBounds ns (p :: pps)).reads ++ [r], .error (.store e)⟩ := by
  have hlt : ¬ f.idx < lastKeyIdx f.nd := by omega
  have hend : f.atNodeEnd = true := by simp [Frame.atNodeEnd, h]
  rw [advanceInBounds]
  simp [hlt, hc, hend, ho, hr, hs]

theorem retreatInBounds_assert (ns : NodeStore) {f : Frame} (ps : Cursor)
    (h : ¬ f.idx > 0) (hc : ¬ f.idx = -1) (he : ¬ f.idx = 0) :
    retreatInBounds ns (f :: ps) = ⟨f :: ps, [], .error .panic⟩ := by
  cases ps <;> simp [retreatInBounds, h, hc, Frame.atNodeStart, he]

theorem retreatInBounds_up_err (ns : NodeStore) {f p : Frame} (pps : Cursor) {e : Fault}
    (h : f.idx = 0) (ho : (retreatInBounds ns (p :: pps)).out = .error e) :
    retreatInBounds ns (f :: p :: pps) =
      ⟨f :: (retreatInBounds ns (p :: pps)).cur, (retreatInBounds ns (p :: pps)).reads, .error e⟩ := by
  rw [retreatInBounds]
  simp [h, Frame.atNodeStart, ho]

theorem retreatInBounds_up_noref (ns : NodeStore) {f p : Frame} (pps : Cursor)
    (h : f.idx = 0) (ho : (retreatInBounds ns (p :: pps)).out = .ok true)
    (hr : CurrentRef (retreatInBounds ns (p :: pps)).cur = none) :
    retreatInBounds ns (f :: p :: pps) =
      ⟨f :: (retreatInBounds ns (p :: pps)).cur, (retreatInBounds ns (p :: pps)).reads,
        .error .panic⟩ := by
  rw [retreatInBounds]
  simp [h, Frame.atNodeStart, ho, hr]

theorem retreatInBounds_up_fetch_err (ns : NodeStore) {f p : Frame} (pps : Cursor) {r : Hash}
    {e : StoreError} (h : f.idx = 0) (ho : (retreatInBounds ns (p :: pps)).out = .ok true)
    (hr : CurrentRef (retreatInBounds ns (p :: pps)).cur = some r) (hs : (ns r).2 = some e) :
    retreatInBounds ns (f :: p :: pps) =
      ⟨⟨(ns r).1, -1, f.subtrees⟩ :: (retreatInBounds ns (p :: pps)).cur,
        (retreatInBounds ns (p :: pps)).reads ++ [r], .error (.store e)⟩ := by
  rw [retreatInBounds]
  simp [h, Frame.atNodeStart, ho, hr, hs]

theorem seek_test_panic (ns : NodeStore) {item : NodeItem} {cb : CompareFn} {f : Frame}
    (ps : Cursor) (hb : seekInBounds f (!ps.isEmpty) item cb = none) :
    seek ns item cb (f :: ps) = ⟨f :: ps, [], .error .panic⟩ := by
  rw [seek]
  simp [hb]

theorem seek_inBounds_panic (ns : NodeStore) {item : NodeItem} {cb : CompareFn} {f : Frame}
    (ps : Cursor) (hb : seekInBounds f (!ps.isEmpty) item cb = some true)
    (hs : search f.nd item cb = none) :
    seek ns item cb (f :: ps) = ⟨f :: ps, [], .error .panic⟩ := by
  rw [seek]
  simp [hb, seekFinish, hs]

theorem seek_up_err (ns : NodeStore) {item : NodeItem} {cb : CompareFn} {f : Frame}
    (ps : Cursor) {e : Fault} (hb : seekInBounds f (!ps.isEmpty) item cb = some false)
    (ho : (seek ns item cb ps).out = .error e) :
    seek ns item cb (f :: ps) =
      ⟨f :: (seek ns item cb ps).cur, (seek ns item cb ps).reads, .error e⟩ := by
  rw [seek]
  simp [hb, ho]

theorem seek_noref (ns : NodeStore) {item : NodeItem} {cb : CompareFn} {f : Frame}
    (ps : Cursor) (hb : seekInBounds f (!ps.isEmpty) item cb = some false)
    (ho : (seek ns item cb ps).out = .ok ())
    (hr : CurrentRef (keepInBoundsHead (seek ns item cb ps).cur) = none) :
    seek ns item cb (f :: ps) =
      ⟨f :: keepInBoundsHead (seek ns item cb ps).cur, (seek ns item cb ps).reads,
        .error .panic⟩ := by
  rw [seek]
  simp [hb, ho, hr]

theorem seek_fetch_err (ns : NodeStore) {item : NodeItem} {cb : CompareFn} {f : Frame}
    (ps : Cursor) {h : Hash} {e : StoreError}
    (hb : seekInBounds f (!ps.isEmpty) item cb = some false)
    (ho : (seek ns item cb ps).out = .ok ())
    (hr : CurrentRef (keepInBoundsHead (seek ns item cb ps).cur) = some h)
    (hs : (ns h).2 = some e) :
    seek ns item cb (f :: ps) =
      ⟨⟨(ns h).1, f.idx, f.subtrees⟩ :: keepInBoundsHead (seek ns item cb ps).cur,
        (seek ns item cb ps).reads ++ [h], .error (.store e)⟩ := by
  rw [seek]
  simp [hb, ho, hr, hs]

theorem seek_climb_panic (ns : NodeStore) {item : NodeItem} {cb : CompareFn} {f : Frame}
    (ps : Cursor) {h : Hash}
    (hb : seekInBounds f (!ps.isEmpty) item cb = some false)
    (ho : (seek ns item cb ps).out = .ok ())
    (hr : CurrentRef (keepInBoundsHead (seek ns item cb ps).cur) = some h)
    (hok : (ns h).2 = none) (hs : search (ns h).1 item cb = none) :
    seek ns item cb (f :: ps) =
      ⟨⟨(ns h).1, f.idx, f.subtrees⟩ :: keepInBoundsHead (seek ns item cb ps).cur,
        (seek ns item cb ps).reads ++ [h], .error .panic⟩ := by
  rw [seek]
  simp [hb, ho, hr, hok, seekFinish, hs]

/-- C12, as stated, fails.  A read that fails while `Advance` crosses from
the first leaf chunk to the second returns the store error, but the leaf
frame, whose fetch failed, no longer has its node or its index: it holds the
node value the failed read returned and index -1, and the frame above has
already advanced.  `Retreat` does the same, and `seek` replaces the node of
the failing frame. -/
theorem error_atomicity_counterexample :
    (Advance brokenStore lastOfChunkA).out = .error (.store ⟨7⟩) ∧
    position lastOfChunkA = [(chunkA, 1), (twoChunkRoot, 0)] ∧
    position (Advance brokenStore lastOfChunkA).cur = [(Node.zero, -1), (twoChunkRoot, 1)] ∧
    (Retreat brokenStoreA startOfChunkB).out = .error (.store ⟨7⟩) ∧
    position startOfChunkB = [(chunkB, 0), (twoChunkRoot, 1)] ∧
    position (Retreat brokenStoreA startOfChunkB).cur = [(Node.zero, -1), (twoChunkRoot, 0)] ∧
    (seek brokenStore [20] bytesCompare lastOfChunkA).out = .error (.store ⟨7⟩) ∧
    position (seek brokenStore [20] bytesCompare lastOfChunkA).cur
      = [(Node.zero, 1), (twoChunkRoot, 1)] := by
  decide

theorem advanceInBounds_length (ns : NodeStore) :
    ∀ c : Cursor, (advanceInBounds ns c).cur.length = c.length := by
  intro c
  induction c with
  | nil => simp [advanceInBounds]
  | cons f ps ih =>
    by_cases h1 : f.idx < lastKeyIdx f.nd
    · rw [advanceInBounds_step ns ps h1]; simp
    by_cases h2 : f.idx = (f.nd.count : Int)
    · rw [advanceInBounds_past ns ps h1 h2]
    by_cases h3 : f.idx = lastKeyIdx f.nd
    swap
    · rw [advanceInBounds_assert ns ps h1 h2 h3]
    cases ps with
    | nil => rw [advanceInBounds_root ns h3]
    | cons p pps =>
      cases ho : (advanceInBounds ns (p :: pps)).out with
      | error e2 => rw [advanceInBounds_up_err ns pps h3 h2 ho]; simp [ih]
      | ok b =>
        cases b with
        | false => rw [advanceInBounds_up_false ns pps h3 h2 ho]; simp [ih]
        | true =>
          cases hr : CurrentRef (advanceInBounds ns (p :: pps)).cur with
          | none => rw [advanceInBounds_up_noref ns pps h3 h2 ho hr]; simp [ih]
          | some r =>
            cases hs : (ns r).2 with
            | none => rw [advanceInBounds_up_true ns pps h3 h2 ho hr hs]; simp [ih]
            | some e2 => rw [advanceInBounds_up_fetch_err ns pps h3 h2 ho hr hs]; simp [ih]

theorem retreatInBounds_length (ns : NodeStore) :
    ∀ c : Cursor, (retreatInBounds ns c).cur.length = c.length := by
  intro c
  induction c with
  | nil => simp [retreatInBounds]
  | cons f ps ih =>
    by_cases h1 : f.idx > 0
    · rw [retreatInBounds_step ns ps h1]; simp
    by_cases h2 : f.idx = -1
    · rw [retreatInBounds_past ns ps h2]
    by_cases h3 : f.idx = 0
    swap
    · rw [retreatInBounds_assert ns ps h1 h2 h3]
    cases ps with
    | nil => rw [retreatInBounds_root ns h3]
    | cons p pps =>
      cases ho : (retreatInBounds ns (p :: pps)).out with
      | error e2 => rw [retreatInBounds_up_err ns pps h3 ho]; simp [ih]
      | ok b =>
        cases b with
        | false => rw [retreatInBounds_up_false ns pps h3 ho]; simp [ih]
        | true =>
          cases hr : CurrentRef (retreatInBounds ns (p :: pps)).cur with
          | none => rw [retreatInBounds_up_noref ns pps h3 ho hr]; simp [ih]
          | some r =>
            cases hs : (ns r).2 with
            | none => rw [retreatInBounds_up_true ns pps h3 ho hr hs]; simp [ih]
            | some e2 => rw [retreatInBounds_up_fetch_err ns pps h3 ho hr hs]; simp [ih]

theorem keepInBoundsHead_length (c : Cursor) : (keepInBoundsHead c).length = c.length := by
  cases c <;> simp [keepInBoundsHead]

theorem seek_length (ns : NodeStore) (item : NodeItem) (cb : CompareFn) :
    ∀ c : Cursor, (seek ns item cb c).cur.length = c.length := by
  intro c
  induction c with
  | nil => simp [seek]
  | cons f ps ih =>
    cases hb : seekInBounds f (!ps.isEmpty) item cb with
    | none => rw [seek_test_panic ns ps hb]
    | some b =>
      cases b with
      | true =>
        cases hs : search f.nd item cb with
        | none => rw [seek_inBounds_panic ns ps hb hs]
        | some i => rw [seek_inBounds ns ps hb hs]; simp
      | false =>
        cases ho : (seek ns item cb ps).out with
        | error e2 => rw [seek_up_err ns ps hb ho]; simp [ih]
        | ok u =>
          cases hr : CurrentRef (keepInBoundsHead (seek ns item cb ps).cur) with
          | none => rw [seek_noref ns ps hb ho hr]; simp [ih, keepInBoundsHead_length]
          | some r =>
            cases hs : (ns r).2 with
            | some e2 =>
              rw [seek_fetch_err ns ps hb ho hr hs]; simp [ih, keepInBoundsHead_length]
            | none =>
              cases hq : search (ns r).1 item cb with
              | none =>
                rw [seek_climb_panic ns ps hb ho hr hs hq]; simp [ih, keepInBoundsHead_length]
              | some i =>
                rw [seek_climb ns ps hb ho hr hs hq]; simp [ih, keepInBoundsHead_length]

theorem Advance_error (ns : NodeStore) {c : Cursor} {e : Fault}
    (h : (Advance ns c).out = .error e) :
    (advanceInBounds ns c).out = .error e ∧ (Advance ns c).cur = (advanceInBounds ns c).cur ∧
      (Advance ns c).reads = (advanceInBounds ns c).reads := by
  unfold Advance at h ⊢
  cases ho : (advanceInBounds ns c).out with
  | error e2 => simp [ho] at h ⊢; exact h
  | ok b => cases b <;> simp [ho] at h

theorem Retreat_error (ns : NodeStore) {c : Cursor} {e : Fault}
    (h : (Retreat ns c).out = .error e) :
    (retreatInBounds ns c).out = .error e ∧ (Retreat ns c).cur = (retreatInBounds ns c).cur ∧
      (Retreat ns c).reads = (retreatInBounds ns c).reads := by
  unfold Retreat at h ⊢
  cases ho : (retreatInBounds ns c).out with
  | error e2 => simp [ho] at h ⊢; exact h
  | ok b => cases b <;> simp [ho] at h

/-- C13, as stated, fails.  On the single-leaf tree `abc`, a cursor on entry 1
is invalidated: the index is the sentinel -2147483648 and `Valid` is false.
The next `Advance` returns true and moves the index to -2147483647, so the
sentinel is lost without any seek; the next `Retreat` instead fails its
`atNodeStart` assertion. -/
theorem invalidate_sink_counterexample :
    headIdx (Invalidate [⟨abcTree, 1, none⟩]) = -2147483648 ∧
    Valid (Invalidate [⟨abcTree, 1, none⟩]) = false ∧
    (Advance emptyStore (Invalidate [⟨abcTree, 1, none⟩])).out = .ok true ∧
    headIdx (Advance emptyStore (Invalidate [⟨abcTree, 1, none⟩])).cur = -2147483647 ∧
    (Retreat emptyStore (Invalidate [⟨abcTree, 1, none⟩])).out = .error .panic := by
  decide

theorem lastKeyIdx_nonneg (nd : Node) : 0 ≤ lastKeyIdx nd := by
  unfold lastKeyIdx
  exact Int.ofNat_nonneg _

theorem lastKeyIdx_lt (nd : Node) : lastKeyIdx nd < 65536 := by
  unfold lastKeyIdx
  have : (nd.count + 65535) % 65536 < 65536 := Nat.mod_lt _ (by decide)
  exact_mod_cast this

/-- Below index 0 every `Advance` is a plain increment. -/
theorem advanceTimes_negative (ns : NodeStore) (nd : Node) (s : Option (List Nat)) (ps : Cursor) :
    ∀ (k : Nat) (i : Int), i + k ≤ 0 →
      advanceTimes ns k (⟨nd, i, s⟩ :: ps) = some (⟨nd, i + k, s⟩ :: ps)
  | 0, i, _ => by simp [advanceTimes]
  | k + 1, i, h => by
    have hlt : (Frame.mk nd i s).idx < lastKeyIdx (Frame.mk nd i s).nd := by
      have := lastKeyIdx_nonneg nd
      show i < lastKeyIdx nd
      omega
    have e := advanceInBounds_step ns ps hlt
    have hA : Advance ns (⟨nd, i, s⟩ :: ps) = ⟨⟨nd, i + 1, s⟩ :: ps, [], .ok true⟩ := by
      unfold Advance
      rw [e]
    rw [advanceTimes, hA]
    simp only
    rw [advanceTimes_negative ns nd s ps k (i + 1) (by push_cast at h; omega)]
    congr 3
    push_cast
    omega

/-- C13, amended.  After `Invalidate` the leaf index is -2147483648 and
`Valid` is false.  The state is not absorbing: each of the next `k` calls of
`Advance` (for k up to 2147483647) returns true without a store read and adds
one to the index, so after `k` calls the index is -2147483648 + k, still
negative, and `Valid` is still false; `Retreat` called in any of these states
with index below -1 fails the `atNodeStart` assertion and leaves the cursor
as it was. -/
theorem invalidate_then_advance (ns : NodeStore) (f : Frame) (ps : Cursor) (k : Nat)
    (hk : k < 2147483647) :
    Invalidate (f :: ps) = ⟨f.nd, -2147483648, f.subtrees⟩ :: ps ∧
    Valid (Invalidate (f :: ps)) = false ∧
    advanceTimes ns k (Invalidate (f :: ps)) = some (setIdx (-2147483648 + k) (f :: ps)) ∧
    Valid (setIdx (-2147483648 + k) (f :: ps)) = false ∧
    Retreat ns (setIdx (-2147483648 + k) (f :: ps))
      = ⟨setIdx (-2147483648 + k) (f :: ps), [], .error .panic⟩ := by
  have hi : (-2147483648 : Int) + k < -1 := by omega
  refine ⟨rfl, ?_, ?_, ?_, ?_⟩
  · simp [Invalidate, Valid, Frame.Valid]
  · exact advanceTimes_negative ns f.nd f.subtrees ps k (-2147483648) (by omega)
  · simp only [setIdx, Valid, Frame.Valid]
    have : ¬ (0 : Int) ≤ -2147483648 + k := by omega
    simp [this]
  · have e := @retreatInBounds_assert ns ⟨f.nd, -2147483648 + k, f.subtrees⟩ ps
      (by show ¬ (-2147483648 : Int) + k > 0; omega)
      (by show ¬ (-2147483648 : Int) + k = -1; omega)
      (by show ¬ (-2147483648 : Int) + k = 0; omega)
    unfold Retreat
    simp only [setIdx]
    rw [e]

/-- C13, amended: two calls of `Advance` after `Invalidate` on the tree `abc`. -/
theorem invalidate_then_advance_witness :
    (2 : Nat) < 2147483647 ∧
    advanceTimes emptyStore 2 (Invalidate [⟨abcTree, 1, none⟩])
      = some [⟨abcTree, -2147483646, none⟩] ∧
    Retreat emptyStore [⟨abcTree, -2147483646, none⟩]
      = ⟨[⟨abcTree, -2147483646, none⟩], [], .error .panic⟩ :=
  ⟨by decide,
    (invalidate_then_advance emptyStore ⟨abcTree, 1, none⟩ [] 2 (by decide)).2.2.1,
    (invalidate_then_advance emptyStore ⟨abcTree, 1, none⟩ [] 2 (by decide)).2.2.2.2⟩

/-! ## The leaf-only factory -/

theorem keepInBounds_nd (f : Frame) : f.keepInBounds.nd = f.nd := by
  unfold Frame.keepInBounds Frame.skipToNodeStart Frame.skipToNodeEnd
  by_cases h1 : f.idx < 0
  · by_cases h2 : (0 : Int) > lastKeyIdx f.nd <;> simp [h1, h2]
  · by_cases h2 : f.idx > lastKeyIdx f.nd <;> simp [h1, h2]

theorem keepInBounds_subtrees (f : Frame) : f.keepInBounds.subtrees = f.subtrees := by
  unfold Frame.keepInBounds Frame.skipToNodeStart Frame.skipToNodeEnd
  by_cases h1 : f.idx < 0
  · by_cases h2 : (0 : Int) > lastKeyIdx f.nd <;> simp [h1, h2]
  · by_cases h2 : f.idx > lastKeyIdx f.nd <;> simp [h1, h2]

theorem keepInBounds_idx (f : Frame) :
    f.keepInBounds.idx = if f.idx < 0 then 0 else if f.idx > lastKeyIdx f.nd then lastKeyIdx f.nd
      else f.idx := by
  have hn := lastKeyIdx_nonneg f.nd
  unfold Frame.keepInBounds Frame.skipToNodeStart Frame.skipToNodeEnd
  by_cases h1 : f.idx < 0
  · have h2 : ¬ (0 : Int) > lastKeyIdx f.nd := by omega
    simp [h1, h2]
  · by_cases h2 : f.idx > lastKeyIdx f.nd <;> simp [h1, h2]

theorem keepInBounds_bounds (f : Frame) :
    0 ≤ f.keepInBounds.idx ∧ f.keepInBounds.idx ≤ lastKeyIdx f.nd := by
  have hn := lastKeyIdx_nonneg f.nd
  rw [keepInBounds_idx]
  split_ifs <;> omega

theorem keepInBounds_congr {f g : Frame} (hn : f.nd = g.nd) (hi : f.idx = g.idx) :
    f.keepInBounds.nd = g.keepInBounds.nd ∧ f.keepInBounds.idx = g.keepInBounds.idx := by
  refine ⟨by rw [keepInBounds_nd, keepInBounds_nd, hn], ?_⟩
  rw [keepInBounds_idx, keepInBounds_idx, hn, hi]

/-- The single reused frame of `leafCursorLoop` follows the head frame of
`fromSearchLoop` step by step. -/
theorem leafCursorLoop_agrees (ns : NodeStore) (item : NodeItem) (search : ItemSearchFn) :
    ∀ (n : Nat) (f g : Frame) (ps : Cursor) (rs : List Hash), f.nd = g.nd → f.idx = g.idx →
      (leafCursorLoop ns item search n f rs).out
        = (fromSearchLoop ns (fun (_ : Unit) nd => (search item nd, ())) n () (g :: ps) rs).out ∧
      (leafCursorLoop ns item search n f rs).reads
        = (fromSearchLoop ns (fun (_ : Unit) nd => (search item nd, ())) n () (g :: ps) rs).reads ∧
      ∃ f2, (leafCursorLoop ns item search n f rs).cur = [f2] ∧
        ((fromSearchLoop ns (fun (_ : Unit) nd => (search item nd, ())) n () (g :: ps) rs).out
            = .ok () →
          ∃ g2 qs,
            (fromSearchLoop ns (fun (_ : Unit) nd => (search item nd, ())) n () (g :: ps) rs).cur
              = g2 :: qs ∧ f2.nd = g2.nd ∧ f2.idx = g2.idx)
  | 0, f, g, ps, rs, _, _ => by
    simp [leafCursorLoop, fromSearchLoop]
  | n + 1, f, g, ps, rs, hn, hi => by
    have hleaf : f.isLeaf = g.isLeaf := by simp [Frame.isLeaf, hn]
    cases hg : g.isLeaf with
    | true =>
      rw [hg] at hleaf
      simp [leafCursorLoop, fromSearchLoop, hleaf, hg, hn, hi]
    | false =>
      rw [hg] at hleaf
      obtain ⟨kn, ki⟩ := keepInBounds_congr hn hi
      have href : f.keepInBounds.CurrentRef = g.keepInBounds.CurrentRef := by
        simp [Frame.CurrentRef, kn, ki]
      cases hr : g.keepInBounds.CurrentRef with
      | none =>
        rw [hr] at href
        simp [leafCursorLoop, fromSearchLoop, hleaf, hg, href, hr]
      | some h =>
        rw [hr] at href
        cases hs : (ns h).2 with
        | some e =>
          simp [leafCursorLoop, fromSearchLoop, hleaf, hg, href, hr, hs]
        | none =>
          have ih := leafCursorLoop_agrees ns item search n
            { f.keepInBounds with nd := (ns h).1, idx := search item (ns h).1 }
            ⟨(ns h).1, search item (ns h).1, none⟩ (g.keepInBounds :: ps) (rs ++ [h]) rfl rfl
          simpa [leafCursorLoop, fromSearchLoop, hleaf, hg, href, hr, hs] using ih

/-- Descent of `fromSearchLoop` on a well-formed tree, whatever the callback
returns: it ends, at a leaf, with every frame above the leaf in bounds and
linked. -/
theorem fromSearchLoop_onTree {σ : Type} {ns : NodeStore} {root : Node}
    (search : σ → Node → Int × σ) (hroot : WellFormed ns root.level root) :
    ∀ (l fuel : Nat) (nd : Node) (i : Int) (s : σ) (ps : Cursor) (rs : List Hash), nd.level = l →
      Attached ns root nd ps → l < fuel →
      (fromSearchLoop ns search fuel s (⟨nd, i, none⟩ :: ps) rs).out = .ok () ∧
      OnTree ns root (fromSearchLoop ns search fuel s (⟨nd, i, none⟩ :: ps) rs).cur ∧
      (levels (fromSearchLoop ns search fuel s (⟨nd, i, none⟩ :: ps) rs).cur).head? = some 0 ∧
      (fromSearchLoop ns search fuel s (⟨nd, i, none⟩ :: ps) rs).cur.length = ps.length + 1 + l
  | 0, 0, _, _, _, _, _, _, _, hf => by omega
  | 0, fuel + 1, nd, i, s, ps, rs, hl, hatt, _ => by
    rw [fromSearchLoop_leaf ns search fuel s ps rs (by simp [Frame.isLeaf, hl])]
    exact ⟨rfl, hatt, by simp [levels, hl], by simp⟩
  | l + 1, 0, _, _, _, _, _, _, _, hf => by omega
  | l + 1, fuel + 1, nd, i, s, ps, rs, hl, hatt, hf => by
    have hwf := Attached.wf hroot hatt
    rw [hl] at hwf
    have hlk := lastKeyIdx_of_shape hwf.shape
    obtain ⟨hb0, hb1⟩ := keepInBounds_bounds ⟨nd, i, none⟩
    have hknd := keepInBounds_nd ⟨nd, i, none⟩
    have hb2 : (Frame.mk nd i none).keepInBounds.idx < (nd.count : Int) := by
      have : lastKeyIdx (Frame.mk nd i none).nd = lastKeyIdx nd := rfl
      rw [this, hlk] at hb1
      omega
    obtain ⟨r, hr, -, hok, hwfc⟩ := hwf.child hb0 hb2
    have hr2 : (Frame.mk nd i none).keepInBounds.CurrentRef = some r := by
      unfold Frame.CurrentRef
      rw [hknd]
      exact hr
    rw [fromSearchLoop_descend ns search fuel s ps rs (by simp [Frame.isLeaf, hl]) hr2 hok]
    have hatt1 : Attached ns root (ns r).1 ((Frame.mk nd i none).keepInBounds :: ps) :=
      ⟨hb0, by rw [hknd]; exact hb2, by rw [hknd]; show nd.level = _; rw [hl, hwfc.level_eq],
        by rw [hr2]; rfl, by rw [hknd]; exact hatt⟩
    obtain ⟨h1, h2, h3, h4⟩ := fromSearchLoop_onTree search hroot l fuel (ns r).1
      (search s (ns r).1).1 (search s (ns r).1).2 ((Frame.mk nd i none).keepInBounds :: ps)
      (rs ++ [r]) hwfc.level_eq hatt1 (by omega)
    refine ⟨h1, h2, h3, ?_⟩
    rw [h4]
    simp
    omega

/-- C14.  For every store, fuel, root, item and item-search callback, the
leaf-only factory `NewLeafCursorAtItem` has the same outcome (success, store
error, failed assertion) and makes the same store reads as `NewCursorAtItem`;
its cursor is a single frame, and when the factories succeed that frame has
the node and the index of the leaf frame of the cursor of `NewCursorAtItem`.
On a well-formed tree both succeed once the fuel exceeds the root level. -/
theorem leaf_variant_agrees (ns : NodeStore) (fuel : Nat) (root : Node) (item : NodeItem)
    (search : ItemSearchFn) :
    (NewLeafCursorAtItem ns fuel root item search).out
      = (NewCursorAtItem ns fuel root item search).out ∧
    (NewLeafCursorAtItem ns fuel root item search).reads
      = (NewCursorAtItem ns fuel root item search).reads ∧
    (NewLeafCursorAtItem ns fuel root item search).cur.length = 1 ∧
    ((NewCursorAtItem ns fuel root item search).out = .ok () →
      position (NewLeafCursorAtItem ns fuel root item search).cur
        = (position (NewCursorAtItem ns fuel root item search).cur).take 1) ∧
    (WellFormed ns root.level root → root.level < fuel →
      (NewCursorAtItem ns fuel root item search).out = .ok () ∧
      (NewLeafCursorAtItem ns fuel root item search).out = .ok ()) := by
  obtain ⟨h1, h2, f2, h3, h4⟩ := leafCursorLoop_agrees ns item search fuel
    ⟨root, search item root, none⟩ ⟨root, search item root, none⟩ [] [] rfl rfl
  have e1 : NewLeafCursorAtItem ns fuel root item search
      = leafCursorLoop ns item search fuel ⟨root, search item root, none⟩ [] := rfl
  have e2 : NewCursorAtItem ns fuel root item search
      = fromSearchLoop ns (fun (_ : Unit) nd => (search item nd, ())) fuel ()
          [⟨root, search item root, none⟩] [] := rfl
  rw [e1, e2]
  refine ⟨h1, h2, by rw [h3]; rfl, ?_, ?_⟩
  · intro hok
    obtain ⟨g2, qs, hc, hn, hi⟩ := h4 hok
    rw [h3, hc]
    simp [position, hn, hi]
  · intro hwf hfuel
    have h := (fromSearchLoop_onTree (fun (_ : Unit) nd => (search item nd, ())) hwf root.level
      fuel root (search item root) () [] [] rfl rfl hfuel).1
    exact ⟨h, h1.trans h⟩

/-- C14 on the two-chunk tree: both factories stop on entry 0 of the second
chunk; the full cursor has the root frame above it. -/
theorem leaf_variant_agrees_witness :
    WellFormed twoChunkStore twoChunkRoot.level twoChunkRoot ∧
    position (NewCursorAtItem twoChunkStore 2 twoChunkRoot [20] (lowestIndexSearch bytesCompare)).cur
      = [(chunkB, 0), (twoChunkRoot, 1)] ∧
    position (NewLeafCursorAtItem twoChunkStore 2 twoChunkRoot [20]
      (lowestIndexSearch bytesCompare)).cur = [(chunkB, 0)] ∧
    (NewLeafCursorAtItem twoChunkStore 2 twoChunkRoot [20] (lowestIndexSearch bytesCompare)).out
      = .ok () :=
  ⟨by decide, by decide, by decide,
    ((leaf_variant_agrees twoChunkStore 2 twoChunkRoot [20] (lowestIndexSearch bytesCompare)).2.2.2.2
      (by decide) (by decide)).2⟩

/-! ## The moved flag of `Advance` and `Retreat` -/

theorem setIdx_self (f : Frame) (ps : Cursor) : setIdx f.idx (f :: ps) = f :: ps := rfl

theorem rank_leaf (ns : NodeStore) {f : Frame} (ps : Cursor) (hl0 : f.nd.level = 0)
    (h0 : 0 ≤ f.idx) : rank ns (f :: ps) = (rankAbove ns (f :: ps) : Int) := by
  simp only [rank, rankAbove, hl0, before]
  push_cast
  omega

/-- Outcome of `Advance` on a leaf cursor whose leaf index is in [-1, count]. -/
theorem Advance_flag {ns : NodeStore} {root : Node} (hroot : WellFormed ns root.level root)
    (f : Frame) (ps : Cursor) (hatt : Attached ns root f.nd ps) (hl0 : f.nd.level = 0)
    (hlo : -1 ≤ f.idx) (hhi : f.idx ≤ (f.nd.count : Int)) :
    ((Advance ns (f :: ps)).out = .ok false ∧
      (Advance ns (f :: ps)).cur = setIdx (f.nd.count : Int) (f :: ps) ∧
      (f.idx = (f.nd.count : Int) ∨
        (0 ≤ f.idx ∧ f.idx < (f.nd.count : Int) ∧
          rank ns (f :: ps) + 1 = (treeSize ns root.level root : Int)))) ∨
    ((Advance ns (f :: ps)).out = .ok true ∧ InBounds ns root (Advance ns (f :: ps)).cur ∧
      (levels (Advance ns (f :: ps)).cur).head? = some 0 ∧
      f.idx ≠ (f.nd.count : Int) ∧
      rank ns (f :: ps) + 1 ≠ (treeSize ns root.level root : Int)) := by
  have hwf := Attached.wf hroot hatt
  have hs := hwf.shape
  have hlast := lastKeyIdx_of_shape hs
  have hc1 := hs.1
  have hle := Attached.rank_le hroot hatt
  have hsz : treeSize ns f.nd.level f.nd = f.nd.count := by rw [hl0]; rfl
  by_cases hm : f.idx = -1
  · right
    have hlt : f.idx < lastKeyIdx f.nd := by omega
    have e := advanceInBounds_step ns ps hlt
    obtain ⟨a1, a2, -⟩ := @Advance_of_true ns (f :: ps) (by rw [e])
    rw [a1, a2, e]
    refine ⟨rfl, ⟨hatt, ?_, ?_⟩, by simp [levels, hl0], by omega, ?_⟩
    · show (0 : Int) ≤ f.idx + 1
      omega
    · show f.idx + 1 < (f.nd.count : Int)
      omega
    · simp only [rank]
      omega
  by_cases hp : f.idx = (f.nd.count : Int)
  · left
    have hnlt : ¬ f.idx < lastKeyIdx f.nd := by omega
    have e := advanceInBounds_past ns ps hnlt hp
    obtain ⟨a1, a2, -⟩ := @Advance_of_false ns (f :: ps) (by rw [e])
    rw [a1, a2, e]
    exact ⟨rfl, rfl, Or.inl hp⟩
  · have hib : InBounds ns root (f :: ps) := ⟨hatt, by omega, by omega⟩
    have hrk := rank_leaf ns ps hl0 hib.2.1
    have hra := rankAfter_leaf ns ps hl0
    rcases advanceInBounds_spec hroot ps f hib with ⟨ho, hcur, hr⟩ | ⟨ho, hib2, hlv, hr⟩
    · left
      obtain ⟨a1, a2, -⟩ := Advance_of_false ho
      rw [a1, a2, hcur]
      refine ⟨rfl, rfl, Or.inr ⟨hib.2.1, hib.2.2, ?_⟩⟩
      rw [hrk]
      omega
    · right
      obtain ⟨a1, a2, -⟩ := Advance_of_true ho
      rw [a1, a2]
      have hleaf : (levels (advanceInBounds ns (f :: ps)).cur).head? = some 0 := by
        rw [hlv]; simp [levels, hl0]
      have := rankAbove_lt_size hroot hib2 hleaf
      refine ⟨rfl, hib2, hleaf, hp, ?_⟩
      rw [hrk]
      omega

/-- Outcome of `Retreat` on a leaf cursor whose leaf index is in [-1, count]. -/
theorem Retreat_flag {ns : NodeStore} {root : Node} (hroot : WellFormed ns root.level root)
    (f : Frame) (ps : Cursor) (hatt : Attached ns root f.nd ps) (hl0 : f.nd.level = 0)
    (hlo : -1 ≤ f.idx) (hhi : f.idx ≤ (f.nd.count : Int)) :
    ((Retreat ns (f :: ps)).out = .ok false ∧
      (Retreat ns (f :: ps)).cur = setIdx (-1) (f :: ps) ∧
      (f.idx = -1 ∨ (0 ≤ f.idx ∧ f.idx < (f.nd.count : Int) ∧ rank ns (f :: ps) = 0))) ∨
    ((Retreat ns (f :: ps)).out = .ok true ∧ InBounds ns root (Retreat ns (f :: ps)).cur ∧
      (levels (Retreat ns (f :: ps)).cur).head? = some 0 ∧
      f.idx ≠ -1 ∧ rank ns (f :: ps) ≠ 0) := by
  have hwf := Attached.wf hroot hatt
  have hs := hwf.shape
  have hc1 := hs.1
  by_cases hp : f.idx = (f.nd.count : Int)
  · right
    have hgt : f.idx > 0 := by omega
    have e := retreatInBounds_step ns ps hgt
    obtain ⟨a1, a2, -⟩ := @Retreat_of_true ns (f :: ps) (by rw [e])
    rw [a1, a2, e]
    refine ⟨rfl, ⟨hatt, ?_, ?_⟩, by simp [levels, hl0], by omega, ?_⟩
    · show (0 : Int) ≤ f.idx - 1
      omega
    · show f.idx - 1 < (f.nd.count : Int)
      omega
    · simp only [rank]
      omega
  by_cases hm : f.idx = -1
  · left
    have e := retreatInBounds_past ns ps hm
    obtain ⟨a1, a2, -⟩ := @Retreat_of_false ns (f :: ps) (by rw [e])
    rw [a1, a2, e]
    refine ⟨rfl, rfl, Or.inl hm⟩
  · have hib : InBounds ns root (f :: ps) := ⟨hatt, by omega, by omega⟩
    have hrk := rank_leaf ns ps hl0 hib.2.1
    rcases retreatInBounds_spec hroot ps f hib with ⟨ho, hcur, hr⟩ | ⟨ho, hib2, hlv, hr⟩
    · left
      obtain ⟨a1, a2, -⟩ := Retreat_of_false ho
      rw [a1, a2, hcur]
      refine ⟨rfl, rfl, Or.inr ⟨hib.2.1, hib.2.2, ?_⟩⟩
      rw [hrk]
      omega
    · right
      obtain ⟨a1, a2, -⟩ := Retreat_of_true ho
      rw [a1, a2]
      have hleaf : (levels (retreatInBounds ns (f :: ps)).cur).head? = some 0 := by
        rw [hlv]; simp [levels, hl0]
      refine ⟨rfl, hib2, hleaf, hm, ?_⟩
      rw [hrk]
      cases hc : (retreatInBounds ns (f :: ps)).cur with
      | nil => rw [hc] at hib2; exact hib2.elim
      | cons g qs =>
        rw [hc] at hr hleaf
        have hg0 : g.nd.level = 0 := by simpa [levels] using hleaf
        rw [rankAfter_leaf ns qs hg0] at hr
        omega

theorem Advance_past_end (ns : NodeStore) (nd : Node) (s : Option (List Nat)) (ps : Cursor)
    (hs : NodeShape nd) :
    Advance ns (⟨nd, (nd.count : Int), s⟩ :: ps)
      = ⟨⟨nd, (nd.count : Int), s⟩ :: ps, [], .ok false⟩ := by
  have hlast := lastKeyIdx_of_shape hs
  have e := @advanceInBounds_past ns ⟨nd, (nd.count : Int), s⟩ ps
    (by show ¬ (nd.count : Int) < lastKeyIdx nd; omega) rfl
  unfold Advance
  rw [e]
  rfl

theorem Retreat_before_start (ns : NodeStore) (nd : Node) (s : Option (List Nat)) (ps : Cursor) :
    Retreat ns (⟨nd, -1, s⟩ :: ps) = ⟨⟨nd, -1, s⟩ :: ps, [], .ok false⟩ := by
  have e := @retreatInBounds_past ns ⟨nd, -1, s⟩ ps rfl
  unfold Retreat
  rw [e]
  rfl

/-- C15.  On a well-formed tree take a leaf cursor whose frames above the
leaf are in bounds and linked and whose leaf index is in [-1, count].
`Advance` returns no error; it returns false exactly when the leaf index
already equals count (past end) or the cursor is valid and on the last entry
of the tree, and then the cursor is the old one with the leaf index set to
count, and a further `Advance` returns false and changes nothing; when it
returns true the cursor is valid afterwards.  `Retreat` returns false exactly
when the leaf index is already -1 or the cursor is valid and on the first
entry, then the cursor is the old one with leaf index -1 and a further
`Retreat` returns false and changes nothing; when it returns true the cursor
is valid afterwards. -/
theorem moved_flag_sync {ns : NodeStore} {root : Node} (hroot : WellFormed ns root.level root)
    (c : Cursor) (hon : OnTree ns root c) (hleaf : (levels c).head? = some 0)
    (hlo : -1 ≤ headIdx c) (hhi : headIdx c ≤ headCount c) :
    ((Advance ns c).out = .ok false ∨ (Advance ns c).out = .ok true) ∧
    ((Advance ns c).out = .ok false ↔
      (PastEnd c ∨ (Valid c = true ∧ rank ns c + 1 = (treeSize ns root.level root : Int)))) ∧
    ((Advance ns c).out = .ok false →
      (Advance ns c).cur = setIdx (headCount c) c ∧
      Advance ns (Advance ns c).cur = ⟨(Advance ns c).cur, [], .ok false⟩) ∧
    ((Advance ns c).out = .ok true → Valid (Advance ns c).cur = true) ∧
    ((Retreat ns c).out = .ok false ∨ (Retreat ns c).out = .ok true) ∧
    ((Retreat ns c).out = .ok false ↔
      (headIdx c = -1 ∨ (Valid c = true ∧ rank ns c = 0))) ∧
    ((Retreat ns c).out = .ok false →
      (Retreat ns c).cur = setIdx (-1) c ∧
      Retreat ns (Retreat ns c).cur = ⟨(Retreat ns c).cur, [], .ok false⟩) ∧
    ((Retreat ns c).out = .ok true → Valid (Retreat ns c).cur = true) := by
  cases c with
  | nil => exact hon.elim
  | cons f ps =>
    have hatt : Attached ns root f.nd ps := hon
    have hl0 : f.nd.level = 0 := by simpa [levels] using hleaf
    have hs := (Attached.wf hroot hatt).shape
    have hA := Advance_flag hroot f ps hatt hl0 hlo hhi
    have hR := Retreat_flag hroot f ps hatt hl0 hlo hhi
    refine ⟨?_, ?_, ?_, ?_, ?_, ?_, ?_, ?_⟩
    · rcases hA with ⟨h, -⟩ | ⟨h, -⟩
      · exact Or.inl h
      · exact Or.inr h
    · rcases hA with ⟨h, -, hd⟩ | ⟨h, -, -, hn1, hn2⟩
      · refine ⟨fun _ => ?_, fun _ => h⟩
        rcases hd with hd | ⟨h0, h1, hr⟩
        · exact Or.inl hd
        · exact Or.inr ⟨Valid_of_inBounds hroot (show InBounds ns root (f :: ps) from ⟨hatt, h0, h1⟩), hr⟩
      · constructor
        · intro h2; rw [h] at h2; cases h2
        · rintro (hp | ⟨-, hr⟩)
          · exact (hn1 hp).elim
          · exact (hn2 hr).elim
    · intro h2
      rcases hA with ⟨-, hc, -⟩ | ⟨h, -⟩
      · refine ⟨hc, ?_⟩
        rw [hc]
        exact Advance_past_end ns f.nd f.subtrees ps hs
      · rw [h] at h2; cases h2
    · intro h2
      rcases hA with ⟨h, -⟩ | ⟨-, hib, -⟩
      · rw [h] at h2; cases h2
      · exact Valid_of_inBounds hroot hib
    · rcases hR with ⟨h, -⟩ | ⟨h, -⟩
      · exact Or.inl h
      · exact Or.inr h
    · rcases hR with ⟨h, -, hd⟩ | ⟨h, -, -, hn1, hn2⟩
      · refine ⟨fun _ => ?_, fun _ => h⟩
        rcases hd with hd | ⟨h0, h1, hr⟩
        · exact Or.inl hd
        · exact Or.inr ⟨Valid_of_inBounds hroot (show InBounds ns root (f :: ps) from ⟨hatt, h0, h1⟩), hr⟩
      · constructor
        · intro h2; rw [h] at h2; cases h2
        · rintro (hp | ⟨-, hr⟩)
          · exact (hn1 hp).elim
          · exact (hn2 hr).elim
    · intro h2
      rcases hR with ⟨-, hc, -⟩ | ⟨h, -⟩
      · refine ⟨hc, ?_⟩
        rw [hc]
        exact Retreat_before_start ns f.nd f.subtrees ps
      · rw [h] at h2; cases h2
    · intro h2
      rcases hR with ⟨h, -⟩ | ⟨-, hib, -⟩
      · rw [h] at h2; cases h2
      · exact Valid_of_inBounds hroot hib

/-- C15 on the two-chunk tree, from the last entry of the first chunk:
`Advance` crosses into the second chunk and returns true, and the cursor is
not on the last entry of the tree. -/
theorem moved_flag_sync_witness :
    WellFormed twoChunkStore twoChunkRoot.level twoChunkRoot ∧
    OnTree twoChunkStore twoChunkRoot lastOfChunkA ∧
    (levels lastOfChunkA).head? = some 0 ∧
    -1 ≤ headIdx lastOfChunkA ∧ headIdx lastOfChunkA ≤ headCount lastOfChunkA ∧
    (Advance twoChunkStore lastOfChunkA).out = .ok true ∧
    ((Advance twoChunkStore lastOfChunkA).out = .ok false ↔
      (PastEnd lastOfChunkA ∨ (Valid lastOfChunkA = true ∧
        rank twoChunkStore lastOfChunkA + 1
          = (treeSize twoChunkStore twoChunkRoot.level twoChunkRoot : Int)))) ∧
    Valid (Advance twoChunkStore lastOfChunkA).cur = true :=
  ⟨by decide, by decide, by decide, by decide, by decide, by decide,
    (moved_flag_sync (by decide : WellFormed twoChunkStore twoChunkRoot.level twoChunkRoot)
      lastOfChunkA (by decide) (by decide) (by decide) (by decide)).2.1,
    (moved_flag_sync (by decide : WellFormed twoChunkStore twoChunkRoot.level twoChunkRoot)
      lastOfChunkA (by decide) (by decide) (by decide) (by decide)).2.2.2.1 (by decide)⟩

/-- C16, as stated, fails.  The cursor on the last entry of the first chunk
and the cursor on the first entry of the second chunk have equal depth; the
leaf indices differ by 1 - 0 = 1, which the claim makes the result, but
`Compare` returns the difference 0 - 1 = -1 of the root frames. -/
theorem compare_deepest_counterexample :
    lastOfChunkA.length = startOfChunkB.length ∧
    headIdx lastOfChunkA - headIdx startOfChunkB = 1 ∧
    deepestDiff lastOfChunkA startOfChunkB = 1 ∧
    Compare lastOfChunkA startOfChunkB = some (-1) ∧
    Compare lastOfChunkA startOfChunkB ≠ some (deepestDiff lastOfChunkA startOfChunkB) := by
  decide

/-- The loop of `compareCursors` on cursors of equal depth whose indices fit
32 bits: the last non-zero difference met on the way to the root wins. -/
theorem compareLoop_wide : ∀ (c d : Cursor) (diff : Int), c.length = d.length → c ≠ [] →
    (∀ p ∈ c, -2147483648 ≤ p.idx ∧ p.idx ≤ 2147483647) →
    (∀ p ∈ d, -2147483648 ≤ p.idx ∧ p.idx ≤ 2147483647) →
    compareLoop diff c d = some (if lexDiff c d ≠ 0 then lexDiff c d else diff)
  | [], _, _, _, hne, _, _ => (hne rfl).elim
  | _ :: _, [], _, hlen, _, _, _ => by simp at hlen
  | l :: lp, r :: rp, diff, hlen, _, hc, hd => by
    have hl := hc l (by simp)
    have hr := hd r (by simp)
    have hw : wrapInt (l.idx - r.idx) = l.idx - r.idx := wrapInt_id (by omega) (by omega)
    have hlen2 : lp.length = rp.length := by simpa using hlen
    cases lp with
    | nil =>
      cases rp with
      | nil => simp [compareLoop, lexDiff, hw]
      | cons _ _ => simp at hlen2
    | cons l2 lp2 =>
      cases rp with
      | nil => simp at hlen2
      | cons r2 rp2 =>
        have ih := compareLoop_wide (l2 :: lp2) (r2 :: rp2)
          (if l.idx - r.idx ≠ 0 then l.idx - r.idx else diff) hlen2 (by simp)
          (fun p hp => hc p (List.mem_cons_of_mem _ hp))
          (fun p hp => hd p (List.mem_cons_of_mem _ hp))
        rw [compareLoop]
        simp only [hw, List.isEmpty_cons, Bool.or_self, Bool.false_eq_true, if_false]
        rw [ih]
        congr 1
        rw [lexDiff.eq_3 l (l2 :: lp2) r (r2 :: rp2)]
        by_cases h1 : lexDiff (l2 :: lp2) (r2 :: rp2) = 0
        · simp only [h1, ne_eq, not_true_eq_false, if_false]
        · simp [h1]

theorem lexDiff_eq_zero_iff : ∀ (c d : Cursor), c.length = d.length →
    (lexDiff c d = 0 ↔ c.map Frame.idx = d.map Frame.idx)
  | [], [], _ => by simp [lexDiff]
  | [], _ :: _, h => by simp at h
  | _ :: _, [], h => by simp at h
  | l :: lp, r :: rp, h => by
    have ih := lexDiff_eq_zero_iff lp rp (by simpa using h)
    rw [lexDiff]
    by_cases h1 : lexDiff lp rp = 0
    · simp only [h1, ne_eq, not_true_eq_false, if_false, List.map_cons, List.cons.injEq]
      constructor
      · intro h2
        exact ⟨by omega, ih.mp h1⟩
      · rintro ⟨h2, -⟩
        omega
    · simp only [ne_eq, h1, not_false_eq_true, if_true, List.map_cons, List.cons.injEq, false_iff]
      rintro ⟨-, h2⟩
      exact h1 (ih.mpr h2)

/-- C16, amended.  For two cursors of equal depth whose indices fit 32 bits
(so that no subtraction wraps), `Compare` returns the index difference at
the frame nearest the ROOT whose indices differ, and 0 when none differ: the
leaf difference is the result only when the indices of all frames above the
leaf are pairwise equal; otherwise the result is the difference that
`Compare` yields on the parent cursors, whatever the leaf indices are. -/
theorem compare_root_most (a b : Cursor) (hlen : a.length = b.length) (hne : a ≠ [])
    (ha : ∀ p ∈ a, -2147483648 ≤ p.idx ∧ p.idx ≤ 2147483647)
    (hb : ∀ p ∈ b, -2147483648 ≤ p.idx ∧ p.idx ≤ 2147483647) :
    Compare a b = some (lexDiff a b) ∧
    (Compare a b = some 0 ↔ a.map Frame.idx = b.map Frame.idx) ∧
    (a.tail.map Frame.idx = b.tail.map Frame.idx →
      Compare a b = some (headIdx a - headIdx b)) ∧
    (a.tail.map Frame.idx ≠ b.tail.map Frame.idx →
      Compare a b = Compare a.tail b.tail ∧ Compare a b ≠ some 0) := by
  have h1 : Compare a b = some (lexDiff a b) := by
    have := compareLoop_wide a b 0 hlen hne ha hb
    unfold Compare compareCursors
    rw [this]
    by_cases h : lexDiff a b = 0 <;> simp [h]
  refine ⟨h1, ?_, ?_, ?_⟩
  · rw [h1, ← lexDiff_eq_zero_iff a b hlen]
    simp
  · intro ht
    rw [h1]
    cases a with
    | nil => exact (hne rfl).elim
    | cons l lp =>
      cases b with
      | nil => simp at hlen
      | cons r rp =>
        have hz := (lexDiff_eq_zero_iff lp rp (by simpa using hlen)).mpr ht
        simp [lexDiff, hz, headIdx]
  · intro ht
    cases a with
    | nil => exact (hne rfl).elim
    | cons l lp =>
      cases b with
      | nil => simp at hlen
      | cons r rp =>
        have hlen2 : lp.length = rp.length := by simpa using hlen
        have hnz : lexDiff lp rp ≠ 0 := fun h => ht ((lexDiff_eq_zero_iff lp rp hlen2).mp h)
        have hlp : lp ≠ [] := by
          intro h0
          subst h0
          have : rp = [] := by
            cases rp with
            | nil => rfl
            | cons _ _ => simp at hlen2
          subst this
          exact ht rfl
        have h2 : Compare lp rp = some (lexDiff lp rp) := by
          have := compareLoop_wide lp rp 0 hlen2 hlp
            (fun p hp => ha p (List.mem_cons_of_mem _ hp))
            (fun p hp => hb p (List.mem_cons_of_mem _ hp))
          unfold Compare compareCursors
          rw [this]
          simp [hnz]
        have h3 : lexDiff (l :: lp) (r :: rp) = lexDiff lp rp := by
          rw [lexDiff]
          simp [hnz]
        show Compare (l :: lp) (r :: rp) = Compare lp rp ∧ _
        rw [h1, h2, h3]
        exact ⟨rfl, by simpa using hnz⟩

/-- C16, amended, on the two cursors around the chunk boundary: the result is
the difference -1 of the root frames, not the leaf difference 1. -/
theorem compare_root_most_witness :
    lastOfChunkA.length = startOfChunkB.length ∧ lastOfChunkA ≠ [] ∧
    lexDiff lastOfChunkA startOfChunkB = -1 ∧
    Compare lastOfChunkA startOfChunkB = some (lexDiff lastOfChunkA startOfChunkB) :=
  ⟨by decide, by decide, by decide,
    (compare_root_most lastOfChunkA startOfChunkB (by decide) (by decide) (by decide)
      (by decide)).1⟩

/-- C17 fails in the code.  On a well-formed, consistent tree of three levels
the cursor of `NewCursorAtStart` loads the cache of its parent frame
(`currentSubtreeSize` is 2 there, the count of the first chunk).  A `seek` to
`k6` then replaces the node of that frame by `midRight` and sets its index to
1, but keeps the cached counts of `midLeft`: `currentSubtreeSize` on the
frame returns 2, while the subtree count of `midRight` at index 1 is 3; a
fresh cursor on the same position returns 3.  The same stale frame results
from `copy` of the fresh cursor into the cached one.  `advanceInBounds`
instead drops the cache when it replaces a node. -/
theorem subtree_cache_stale :
    WellFormed tallStore tallRoot.level tallRoot ∧
    Consistent tallStore tallRoot.level tallRoot ∧
    tallRoot.TreeCount < 9223372036854775808 ∧
    (NewCursorAtStart tallStore 3 tallRoot).out = .ok () ∧
    (NewCursorAtStart tallStore 3 tallRoot).cur
      = [⟨chunkA, 0, none⟩, ⟨midLeft, 0, none⟩, ⟨tallRoot, 0, none⟩] ∧
    parentSubtreeSize (NewCursorAtStart tallStore 3 tallRoot).cur = some (2, cachedAtStart) ∧
    (seek tallStore [41] bytesCompare cachedAtStart).out = .ok () ∧
    (seek tallStore [41] bytesCompare cachedAtStart).reads = [6, 4] ∧
    (seek tallStore [41] bytesCompare cachedAtStart).cur = staleAtK6 ∧
    copy cachedAtStart atK6 = some staleAtK6 ∧
    position staleAtK6 = position atK6 ∧
    (parentSubtreeSize staleAtK6).map Prod.fst = some 2 ∧
    (parentSubtreeSize atK6).map Prod.fst = some 3 ∧
    midRight.getSubtreeCounts[1]? = some 3 ∧
    (Advance tallStore [⟨chunkB, 1, none⟩, ⟨midLeft, 1, some [2, 2]⟩, ⟨tallRoot, 0, some [4, 4]⟩]).cur
      = [⟨chunkC, 0, none⟩, ⟨midRight, 0, none⟩, ⟨tallRoot, 1, some [4, 4]⟩] := by
  decide

/-! ## Preservation of the frame linkage -/

/-- The loop of `sort.Search` ends inside the interval it starts from, for
any predicate that does not panic. -/
theorem sortSearchLoop_bounds {n : Nat} {f : Nat → Option Bool}
    (hf : ∀ h, h < n → ∃ b, f h = some b) :
    ∀ (fuel i j : Nat), i ≤ j → j ≤ n →
      ∃ r, sortSearchLoop f fuel i j = some r ∧ i ≤ r ∧ r ≤ j
  | 0, i, j, hij, _ => ⟨i, rfl, Nat.le_refl _, hij⟩
  | fuel + 1, i, j, hij, hjn => by
    by_cases hlt : i < j
    · obtain ⟨b, hb⟩ := hf ((i + j) / 2) (by omega)
      cases b with
      | false =>
        obtain ⟨r, hr, h1, h2⟩ := sortSearchLoop_bounds hf fuel ((i + j) / 2 + 1) j (by omega) hjn
        refine ⟨r, ?_, by omega, h2⟩
        simp [sortSearchLoop, hlt, hb, hr]
      | true =>
        obtain ⟨r, hr, h1, h2⟩ := sortSearchLoop_bounds hf fuel i ((i + j) / 2) (by omega)
          (by omega)
        refine ⟨r, ?_, h1, by omega⟩
        simp [sortSearchLoop, hlt, hb, hr]
    · exact ⟨i, by simp [sortSearchLoop, hlt], Nat.le_refl _, hij⟩

/-- On a node with as many keys as its count `Cursor.search` returns an index
in [0, count], whatever the compare function. -/
theorem search_bounds {nd : Node} (hlen : nd.keys.length = nd.count) (item : NodeItem)
    (cb : CompareFn) : ∃ i : Nat, search nd item cb = some (i : Int) ∧ i ≤ nd.count := by
  have hf : ∀ h, h < nd.count → ∃ b, searchPred nd item cb h = some b := by
    intro h hh
    have hlt : h < nd.keys.length := by omega
    refine ⟨decide (cb item nd.keys[h] ≤ 0), ?_⟩
    simp [searchPred, Node.GetKey, List.getElem?_eq_getElem hlt]
  obtain ⟨r, hr, -, h2⟩ := sortSearchLoop_bounds hf nd.count 0 nd.count (Nat.zero_le _)
    (Nat.le_refl _)
  refine ⟨r, ?_, h2⟩
  simp [search, sortSearch, hr]

/-- Method `seek` keeps the frames linked on a well-formed tree and never
fails there, for any compare function and any item. -/
theorem seek_onTree {ns : NodeStore} {root : Node} (item : NodeItem) (cb : CompareFn)
    (hroot : WellFormed ns root.level root) :
    ∀ (ps : Cursor) (f : Frame), Attached ns root f.nd ps →
      (seek ns item cb (f :: ps)).out = .ok () ∧
      ∃ f2 ps2, (seek ns item cb (f :: ps)).cur = f2 :: ps2 ∧ Attached ns root f2.nd ps2 ∧
        f2.nd.level = f.nd.level ∧ levels ps2 = levels ps ∧
        0 ≤ f2.idx ∧ f2.idx ≤ (f2.nd.count : Int)
  | [], f, hatt => by
    have hwf := Attached.wf hroot hatt
    obtain ⟨i, hi, hic⟩ := search_bounds hwf.shape.2.2.1 item cb
    rw [seek_inBounds ns [] (seekInBounds_root f item cb) hi]
    exact ⟨rfl, _, _, rfl, hatt, rfl, rfl, by show (0 : Int) ≤ (i : Int); omega,
      by show (i : Int) ≤ (f.nd.count : Int); omega⟩
  | p :: pps, f, hatt => by
    have hwf := Attached.wf hroot hatt
    obtain ⟨fk, lk, -, -, hsb⟩ := seekInBounds_parent (p := p) pps item cb hwf.shape
    by_cases hin : cb item fk ≥ 0 ∧ cb item lk ≤ 0
    · have hb : seekInBounds f (!(p :: pps).isEmpty) item cb = some true := by
        rw [hsb]; simp [hin.1, hin.2]
      obtain ⟨i, hi, hic⟩ := search_bounds hwf.shape.2.2.1 item cb
      rw [seek_inBounds ns (p :: pps) hb hi]
      exact ⟨rfl, _, _, rfl, hatt, rfl, rfl, by show (0 : Int) ≤ (i : Int); omega,
        by show (i : Int) ≤ (f.nd.count : Int); omega⟩
    · have hb : seekInBounds f (!(p :: pps).isEmpty) item cb = some false := by
        rw [hsb]
        by_cases h1 : cb item fk ≥ 0
        · have h2 : ¬ cb item lk ≤ 0 := fun h => hin ⟨h1, h⟩
          simp [h1, h2]
        · simp [h1]
      obtain ⟨ho, p2, pps2, hcur, hatt2, hlev2, hlvs2, -, -⟩ :=
        seek_onTree item cb hroot pps p hatt.2.2.2.2
      have hwf2 := Attached.wf hroot hatt2
      have hl2 : p2.nd.level = f.nd.level + 1 := by rw [hlev2]; exact hatt.2.2.1
      rw [hl2] at hwf2
      have hlk := lastKeyIdx_of_shape hwf2.shape
      obtain ⟨hb0, hb1⟩ := keepInBounds_bounds p2
      have hknd := keepInBounds_nd p2
      have hb2 : p2.keepInBounds.idx < (p2.nd.count : Int) := by
        rw [hlk] at hb1
        omega
      obtain ⟨r, hr, -, hok, hwfc⟩ := hwf2.child hb0 hb2
      have hr2 : p2.keepInBounds.CurrentRef = some r := by
        unfold Frame.CurrentRef
        rw [hknd]
        exact hr
      have hkh : keepInBoundsHead (seek ns item cb (p :: pps)).cur = p2.keepInBounds :: pps2 := by
        rw [hcur]
        rfl
      have hcr : CurrentRef (keepInBoundsHead (seek ns item cb (p :: pps)).cur) = some r := by
        rw [hkh]; exact hr2
      obtain ⟨i, hi, hic⟩ := search_bounds hwfc.shape.2.2.1 item cb
      rw [seek_climb ns (p :: pps) hb ho hcr hok hi, hkh]
      refine ⟨rfl, _, _, rfl, ?_, hwfc.level_eq, ?_, by show (0 : Int) ≤ (i : Int); omega,
        by show (i : Int) ≤ ((ns r).1.count : Int); omega⟩
      · exact ⟨hb0, by rw [hknd]; exact hb2,
          by rw [hknd]; show p2.nd.level = (ns r).1.level + 1; rw [hl2, hwfc.level_eq],
          by rw [hr2]; rfl, by rw [hknd]; exact hatt2⟩
      · simp only [levels, List.map_cons, hknd] at hlvs2 ⊢
        rw [hlev2, hlvs2]

theorem Linked.cons {ns : NodeStore} {root : Node} {c : Cursor} (h : Linked ns root c) :
    ∃ f ps, c = f :: ps ∧ Attached ns root f.nd ps ∧ f.nd.level = 0 ∧ -1 ≤ f.idx ∧
      f.idx ≤ (f.nd.count : Int) := by
  cases c with
  | nil => exact h.1.elim
  | cons f ps =>
    obtain ⟨h1, h2, h3, h4⟩ := h
    exact ⟨f, ps, rfl, h1, by simpa [levels] using h2, h3, h4⟩

theorem Linked.of_inBounds {ns : NodeStore} {root : Node} {c : Cursor}
    (h : InBounds ns root c) (hl : (levels c).head? = some 0) : Linked ns root c := by
  cases c with
  | nil => exact h.elim
  | cons f ps =>
    obtain ⟨h1, h2, h3⟩ := h
    exact ⟨h1, hl, by show -1 ≤ f.idx; omega, by show f.idx ≤ (f.nd.count : Int); omega⟩

theorem levels_setIdx (i : Int) (c : Cursor) : levels (setIdx i c) = levels c := by
  cases c <;> rfl

theorem length_setIdx (i : Int) (c : Cursor) : (setIdx i c).length = c.length := by
  cases c <;> rfl

theorem Advance_length (ns : NodeStore) (c : Cursor) : (Advance ns c).cur.length = c.length := by
  have hl := advanceInBounds_length ns c
  cases hq : (advanceInBounds ns c).out with
  | error e => simp only [Advance, hq]; exact hl
  | ok b =>
    cases b with
    | false => rw [(Advance_of_false hq).2.1, length_setIdx]; exact hl
    | true => rw [(Advance_of_true hq).2.1]; exact hl

theorem Retreat_length (ns : NodeStore) (c : Cursor) : (Retreat ns c).cur.length = c.length := by
  have hl := retreatInBounds_length ns c
  cases hq : (retreatInBounds ns c).out with
  | error e => simp only [Retreat, hq]; exact hl
  | ok b =>
    cases b with
    | false => rw [(Retreat_of_false hq).2.1, length_setIdx]; exact hl
    | true => rw [(Retreat_of_true hq).2.1]; exact hl

/-- One call of `Advance`, `Retreat` or `seek` on a linked cursor returns
normally, leaves the cursor linked and keeps the level of every frame. -/
theorem Linked.step {ns : NodeStore} {root : Node} (hroot : WellFormed ns root.level root)
    (cb : CompareFn) {c : Cursor} (h : Linked ns root c) :
    ((∃ b, (Advance ns c).out = .ok b) ∧ Linked ns root (Advance ns c).cur ∧
      (Advance ns c).cur.length = c.length) ∧
    ((∃ b, (Retreat ns c).out = .ok b) ∧ Linked ns root (Retreat ns c).cur ∧
      (Retreat ns c).cur.length = c.length) ∧
    (∀ item, (seek ns item cb c).out = .ok () ∧ Linked ns root (seek ns item cb c).cur ∧
      (seek ns item cb c).cur.length = c.length) := by
  obtain ⟨f, ps, rfl, hatt, hl0, hlo, hhi⟩ := h.cons
  have hleafset : ∀ i : Int, -1 ≤ i → i ≤ (f.nd.count : Int) →
      Linked ns root (setIdx i (f :: ps)) := fun i h1 h2 =>
    ⟨hatt, by simp [setIdx, levels, hl0], h1, h2⟩
  have hc1 := (Attached.wf hroot hatt).shape.1
  refine ⟨?_, ?_, ?_⟩
  · rcases Advance_flag hroot f ps hatt hl0 hlo hhi with ⟨ho, hcur, -⟩ | ⟨ho, hib, hlv, -⟩
    · refine ⟨⟨false, ho⟩, ?_, ?_⟩
      · rw [hcur]; exact hleafset _ (by omega) (Int.le_refl _)
      · rw [hcur]; rfl
    · refine ⟨⟨true, ho⟩, Linked.of_inBounds hib hlv, ?_⟩
      exact Advance_length ns (f :: ps)
  · rcases Retreat_flag hroot f ps hatt hl0 hlo hhi with ⟨ho, hcur, -⟩ | ⟨ho, hib, hlv, -⟩
    · refine ⟨⟨false, ho⟩, ?_, ?_⟩
      · rw [hcur]; exact hleafset _ (Int.le_refl _) (by omega)
      · rw [hcur]; rfl
    · refine ⟨⟨true, ho⟩, Linked.of_inBounds hib hlv, ?_⟩
      exact Retreat_length ns (f :: ps)
  · intro item
    obtain ⟨ho, f2, ps2, hcur, hatt2, hlev, -, h0, h1⟩ := seek_onTree item cb hroot ps f hatt
    refine ⟨ho, ?_, seek_length ns item cb (f :: ps)⟩
    rw [hcur]
    exact ⟨hatt2, by simp [levels, hlev, hl0], by show -1 ≤ f2.idx; omega, h1⟩

/-- Any sequence of calls on a linked cursor runs to its end, without a
failed assertion or an out-of-range reference, and ends linked. -/
theorem Linked.run {ns : NodeStore} {root : Node} (hroot : WellFormed ns root.level root)
    (cb : CompareFn) : ∀ (ops : List Op) (c : Cursor), Linked ns root c →
      ∃ c2, runOps ns cb ops c = .ok c2 ∧ Linked ns root c2 ∧ c2.length = c.length
  | [], c, h => ⟨c, rfl, h, rfl⟩
  | .advance :: ops, c, h => by
    obtain ⟨⟨⟨b, hb⟩, hl, hn⟩, -, -⟩ := Linked.step hroot cb h
    obtain ⟨c2, h1, h2, h3⟩ := Linked.run hroot cb ops _ hl
    exact ⟨c2, by simp only [runOps, hb]; exact h1, h2, by rw [h3, hn]⟩
  | .retreat :: ops, c, h => by
    obtain ⟨-, ⟨⟨b, hb⟩, hl, hn⟩, -⟩ := Linked.step hroot cb h
    obtain ⟨c2, h1, h2, h3⟩ := Linked.run hroot cb ops _ hl
    exact ⟨c2, by simp only [runOps, hb]; exact h1, h2, by rw [h3, hn]⟩
  | .seek item :: ops, c, h => by
    obtain ⟨-, -, hs⟩ := Linked.step hroot cb h
    obtain ⟨hb, hl, hn⟩ := hs item
    obtain ⟨c2, h1, h2, h3⟩ := Linked.run hroot cb ops _ hl
    exact ⟨c2, by simp only [runOps, hb]; exact h1, h2, by rw [h3, hn]⟩

/-! ## Factories establish the frame linkage -/

/-- A property of node and index that the callback guarantees holds of the
designated frame when `fromSearchLoop` succeeds. -/
theorem fromSearchLoop_head {σ : Type} (ns : NodeStore) (search : σ → Node → Int × σ)
    (P : Node → Int → Prop) (hP : ∀ s nd, P nd (search s nd).1) :
    ∀ (fuel : Nat) (s : σ) (f : Frame) (ps : Cursor) (rs : List Hash), P f.nd f.idx →
      (fromSearchLoop ns search fuel s (f :: ps) rs).out = .ok () →
      ∃ g qs, (fromSearchLoop ns search fuel s (f :: ps) rs).cur = g :: qs ∧ P g.nd g.idx
  | 0, s, f, ps, rs, _, ho => by simp [fromSearchLoop] at ho
  | fuel + 1, s, f, ps, rs, hf, ho => by
    cases hleaf : f.isLeaf with
    | true =>
      rw [fromSearchLoop_leaf ns search fuel s ps rs hleaf]
      exact ⟨f, ps, rfl, hf⟩
    | false =>
      cases hr : f.keepInBounds.CurrentRef with
      | none => simp [fromSearchLoop, hleaf, hr] at ho
      | some r =>
        cases hs : (ns r).2 with
        | some e => simp [fromSearchLoop, hleaf, hr, hs] at ho
        | none =>
          rw [fromSearchLoop_descend ns search fuel s ps rs hleaf hr hs] at ho ⊢
          exact fromSearchLoop_head ns search P hP fuel _ _ _ _ (hP s (ns r).1) ho

theorem NewCursorAtStart_linked {ns : NodeStore} {root : Node}
    (hroot : WellFormed ns root.level root) {fuel : Nat} (hfuel : root.level < fuel) :
    (NewCursorAtStart ns fuel root).out = .ok () ∧
    Linked ns root (NewCursorAtStart ns fuel root).cur := by
  obtain ⟨h1, h2, h3, -⟩ :=
    atStartLoop_spec hroot root.level fuel root [] [] rfl (rfl : root = root) hfuel
  exact ⟨h1, Linked.of_inBounds h2 h3⟩

theorem NewCursorAtEnd_linked {ns : NodeStore} {root : Node}
    (hroot : WellFormed ns root.level root) {fuel : Nat} (hfuel : root.level < fuel) :
    (NewCursorAtEnd ns fuel root).out = .ok () ∧
    Linked ns root (NewCursorAtEnd ns fuel root).cur := by
  obtain ⟨h1, h2, h3, -⟩ :=
    atEndLoop_spec hroot root.level fuel root [] [] rfl (rfl : root = root) hfuel
  exact ⟨h1, Linked.of_inBounds h2 h3⟩

theorem NewCursorPastEnd_linked {ns : NodeStore} {root : Node}
    (hroot : WellFormed ns root.level root) {fuel : Nat} (hfuel : root.level < fuel) :
    (NewCursorPastEnd ns fuel root).out = .ok () ∧
    Linked ns root (NewCursorPastEnd ns fuel root).cur := by
  obtain ⟨h1, hl⟩ := NewCursorAtEnd_linked hroot hfuel
  obtain ⟨⟨⟨b, hb⟩, hla, -⟩, -, -⟩ := Linked.step hroot (fun _ _ => 0) hl
  obtain ⟨-, -, h3, -⟩ := advance_at_end hroot hfuel
  obtain ⟨a1, -, -⟩ := Advance_of_false h3
  constructor
  · simp only [NewCursorPastEnd, h1, a1]
  · have : (NewCursorPastEnd ns fuel root).cur = (Advance ns (NewCursorAtEnd ns fuel root).cur).cur := by
      simp only [NewCursorPastEnd, h1, a1]
    rw [this]
    exact hla

theorem NewCursorFromSearchFn_linked {σ : Type} {ns : NodeStore} {root : Node}
    (hroot : WellFormed ns root.level root) {fuel : Nat} (hfuel : root.level < fuel)
    (search : σ → Node → Int × σ) (s : σ)
    (hsearch : ∀ s nd, nd.level = 0 → -1 ≤ (search s nd).1 ∧ (search s nd).1 ≤ (nd.count : Int)) :
    (NewCursorFromSearchFn ns fuel root search s).out = .ok () ∧
    Linked ns root (NewCursorFromSearchFn ns fuel root search s).cur := by
  have e : NewCursorFromSearchFn ns fuel root search s
      = fromSearchLoop ns search fuel (search s root).2 [⟨root, (search s root).1, none⟩] [] := rfl
  obtain ⟨h1, h2, h3, -⟩ := fromSearchLoop_onTree search hroot root.level fuel root
    (search s root).1 (search s root).2 [] [] rfl (rfl : root = root) hfuel
  obtain ⟨g, qs, hc, hg⟩ := fromSearchLoop_head ns search
    (fun nd i => nd.level = 0 → -1 ≤ i ∧ i ≤ (nd.count : Int)) hsearch fuel (search s root).2
    ⟨root, (search s root).1, none⟩ [] [] (hsearch s root) h1
  rw [e]
  refine ⟨h1, h2, h3, ?_⟩
  rw [hc] at h3 ⊢
  have hl0 : g.nd.level = 0 := by simpa [levels] using h3
  exact hg hl0

theorem NewCursorAtOrdinal_linked {ns : NodeStore} {root : Node}
    (hroot : WellFormed ns root.level root) (hcons : Consistent ns root.level root)
    (hbound : root.TreeCount < 9223372036854775808)
    {fuel : Nat} (hfuel : root.level < fuel) (ord : Nat) :
    (NewCursorAtOrdinal ns fuel root ord).out = .ok () ∧
    Linked ns root (NewCursorAtOrdinal ns fuel root ord).cur := by
  by_cases hge : ord ≥ root.TreeCount % 18446744073709551616
  · simp only [NewCursorAtOrdinal, if_pos hge]
    exact NewCursorPastEnd_linked hroot hfuel
  · have hsz : root.treeCount = treeSize ns root.level root := hcons.size_eq
    have hlt : treeSize ns root.level root < 9223372036854775808 := by
      rw [← hsz]; exact hbound
    have hk2 : ord < treeSize ns root.level root := by
      simp only [Node.TreeCount] at hge
      rw [← hsz]
      have := Nat.mod_le root.treeCount 18446744073709551616
      omega
    have hto : toInt64 ord = (ord : Int) := toInt64_id (by omega)
    have e : NewCursorAtOrdinal ns fuel root ord
        = fromSearchLoop ns ordinalSearch fuel (ordinalSearch (ord : Int) root).2
            [⟨root, (ordinalSearch (ord : Int) root).1, none⟩] [] := by
      simp only [NewCursorAtOrdinal, if_neg hge, NewCursorFromSearchFn, hto]
    obtain ⟨a1, a2, a3, -⟩ := fromSearchLoop_ordinal hroot root.level fuel root [] [] ord rfl
      (rfl : root = root) hcons hfuel hk2 hlt
    rw [← e] at a1 a2 a3
    exact ⟨a1, Linked.of_inBounds a2 a3⟩

/-- C18, amended.  On a well-formed tree, with fuel above the root level:
`NewCursorAtStart`, `NewCursorAtEnd` and `NewCursorPastEnd` succeed and
return a linked cursor (every frame above the leaf has its index in
[0, count-1] and its child reference reads the node of the frame below; the
leaf index is in [-1, count]); so does `NewCursorAtOrdinal` when the subtree
counts are consistent and the tree count is below 2^63, and so do
`NewCursorFromSearchFn` and `NewCursorAtItem` when the callback returns an
index in [-1, count] on every leaf (in particular an index in [0, count]).
From a linked cursor every sequence of `Advance`, `Retreat` and `seek` calls,
with any compare function, runs to its end: no call returns an error, no
reference is read outside [0, count-1], no `atNodeEnd` or `atNodeStart`
assertion fails, and the cursor ends linked with the same number of frames. -/
theorem frame_linkage {ns : NodeStore} {root : Node} (hroot : WellFormed ns root.level root)
    {fuel : Nat} (hfuel : root.level < fuel) :
    ((NewCursorAtStart ns fuel root).out = .ok () ∧
      Linked ns root (NewCursorAtStart ns fuel root).cur) ∧
    ((NewCursorAtEnd ns fuel root).out = .ok () ∧
      Linked ns root (NewCursorAtEnd ns fuel root).cur) ∧
    ((NewCursorPastEnd ns fuel root).out = .ok () ∧
      Linked ns root (NewCursorPastEnd ns fuel root).cur) ∧
    (Consistent ns root.level root → root.TreeCount < 9223372036854775808 → ∀ ord,
      (NewCursorAtOrdinal ns fuel root ord).out = .ok () ∧
      Linked ns root (NewCursorAtOrdinal ns fuel root ord).cur) ∧
    (∀ (σ : Type) (search : σ → Node → Int × σ) (s : σ),
      (∀ s nd, nd.level = 0 → -1 ≤ (search s nd).1 ∧ (search s nd).1 ≤ (nd.count : Int)) →
      (NewCursorFromSearchFn ns fuel root search s).out = .ok () ∧
      Linked ns root (NewCursorFromSearchFn ns fuel root search s).cur) ∧
    (∀ (item : NodeItem) (search : ItemSearchFn),
      (∀ nd, nd.level = 0 → -1 ≤ search item nd ∧ search item nd ≤ (nd.count : Int)) →
      (NewCursorAtItem ns fuel root item search).out = .ok () ∧
      Linked ns root (NewCursorAtItem ns fuel root item search).cur) ∧
    (∀ (cb : CompareFn) (c : Cursor) (ops : List Op), Linked ns root c →
      ∃ c2, runOps ns cb ops c = .ok c2 ∧ Linked ns root c2 ∧ c2.length = c.length) :=
  ⟨NewCursorAtStart_linked hroot hfuel, NewCursorAtEnd_linked hroot hfuel,
    NewCursorPastEnd_linked hroot hfuel,
    fun hcons hbound ord => NewCursorAtOrdinal_linked hroot hcons hbound hfuel ord,
    fun _ search s hs => NewCursorFromSearchFn_linked hroot hfuel search s hs,
    fun item search hs => NewCursorFromSearchFn_linked hroot hfuel
      (fun (_ : Unit) n => (search item n, ())) () (fun _ nd h => hs nd h),
    fun cb c ops h => Linked.run hroot cb ops c h⟩

/-- C18, amended, on the two-chunk tree: four calls from the cursor of
`NewCursorAtStart`, across the chunk boundary and back. -/
theorem frame_linkage_witness :
    WellFormed twoChunkStore twoChunkRoot.level twoChunkRoot ∧ twoChunkRoot.level < 2 ∧
    Linked twoChunkStore twoChunkRoot (NewCursorAtStart twoChunkStore 2 twoChunkRoot).cur ∧
    runOps twoChunkStore bytesCompare [.advance, .advance, .seek [10], .retreat]
      (NewCursorAtStart twoChunkStore 2 twoChunkRoot).cur
      = .ok [⟨chunkA, -1, none⟩, ⟨twoChunkRoot, 0, none⟩] ∧
    ∃ c2, runOps twoChunkStore bytesCompare [.advance, .advance, .seek [10], .retreat]
        (NewCursorAtStart twoChunkStore 2 twoChunkRoot).cur = .ok c2 ∧
      Linked twoChunkStore twoChunkRoot c2 ∧
      c2.length = (NewCursorAtStart twoChunkStore 2 twoChunkRoot).cur.length :=
  ⟨by decide, by decide,
    (frame_linkage (by decide : WellFormed twoChunkStore twoChunkRoot.level twoChunkRoot)
      (by decide : twoChunkRoot.level < 2)).1.2,
    by decide,
    (frame_linkage (by decide : WellFormed twoChunkStore twoChunkRoot.level twoChunkRoot)
      (by decide : twoChunkRoot.level < 2)).2.2.2.2.2.2 bytesCompare _
      [.advance, .advance, .seek [10], .retreat]
      ((frame_linkage (by decide : WellFormed twoChunkStore twoChunkRoot.level twoChunkRoot)
        (by decide : twoChunkRoot.level < 2)).1.2)⟩

/-- C19.  For a node with as many keys as its count, sorted non-decreasingly
under a compare function that is a total order, `Cursor.search` returns an
index `i` in [0, count] such that no index below `i` satisfies
`cmp(item, key) <= 0` and index `i`, when below count, does; `i` is count
exactly when no key satisfies it.  When some key equals the item the result
is at most the index of that key and the key at the result equals the item
(the leftmost of an equal run); when no key equals the item the key at the
result is greater than the item. -/
theorem search_lowest_index {cmp : CompareFn} (hcmp : TotalOrder cmp) (nd : Node)
    (hlen : nd.keys.length = nd.count)
    (hsorted : nd.keys.Pairwise (fun a b => cmp a b ≤ 0)) (item : NodeItem) :
    ∃ i : Nat, search nd item cmp = some (i : Int) ∧ i ≤ nd.count ∧
      (∀ (j : Nat) (k : NodeItem), j < i → nd.keys[j]? = some k → 0 < cmp item k) ∧
      (∀ k : NodeItem, nd.keys[i]? = some k → cmp item k ≤ 0) ∧
      (i = nd.count ↔ ∀ k ∈ nd.keys, 0 < cmp item k) ∧
      (∀ (j : Nat) (k : NodeItem), nd.keys[j]? = some k → cmp item k = 0 →
        i ≤ j ∧ ∃ k2, nd.keys[i]? = some k2 ∧ cmp item k2 = 0) ∧
      ((∀ k ∈ nd.keys, cmp item k ≠ 0) → ∀ k : NodeItem, nd.keys[i]? = some k → cmp item k < 0) := by
  have hbelow : ∀ (j : Nat) (k : NodeItem), j < lowerBound cmp item nd.keys →
      nd.keys[j]? = some k → 0 < cmp item k := by
    intro j k hj hk
    have hjl : j < nd.keys.length := Nat.lt_of_lt_of_le hj (lowerBound_le cmp item nd.keys)
    have h := List.not_of_lt_findIdx hj
    rw [List.getElem?_eq_getElem hjl] at hk
    cases hk
    simpa using h
  have hat : ∀ k : NodeItem, nd.keys[lowerBound cmp item nd.keys]? = some k → cmp item k ≤ 0 := by
    intro k hk
    have hil : lowerBound cmp item nd.keys < nd.keys.length := by
      rcases Nat.lt_or_ge (lowerBound cmp item nd.keys) nd.keys.length with h | h
      · exact h
      · rw [List.getElem?_eq_none h] at hk; cases hk
    have h := @List.findIdx_getElem _ (fun k => decide (cmp item k ≤ 0)) nd.keys hil
    rw [List.getElem?_eq_getElem hil] at hk
    cases hk
    simpa using h
  refine ⟨lowerBound cmp item nd.keys, search_eq_lowerBound hcmp hlen hsorted item, ?_, hbelow,
    hat, ?_, ?_, ?_⟩
  · rw [← hlen]; exact lowerBound_le cmp item nd.keys
  · rw [← hlen]; exact lowerBound_eq_length item nd.keys
  · intro j k hk h0
    have hij : lowerBound cmp item nd.keys ≤ j := by
      rcases Nat.lt_or_ge j (lowerBound cmp item nd.keys) with h | h
      · have := hbelow j k h hk
        omega
      · exact h
    have hjl : j < nd.keys.length := by
      rcases Nat.lt_or_ge j nd.keys.length with h | h
      · exact h
      · rw [List.getElem?_eq_none h] at hk; cases hk
    have hil : lowerBound cmp item nd.keys < nd.keys.length := by omega
    refine ⟨hij, nd.keys[lowerBound cmp item nd.keys], List.getElem?_eq_getElem hil, ?_⟩
    have hle := hat _ (List.getElem?_eq_getElem hil)
    rw [List.getElem?_eq_getElem hjl] at hk
    cases hk
    rcases Nat.lt_or_ge (lowerBound cmp item nd.keys) j with h | h
    · have hs := (List.pairwise_iff_getElem.mp hsorted) _ _ hil hjl h
      by_contra hne
      have hlt : cmp item nd.keys[lowerBound cmp item nd.keys] < 0 := by omega
      have := hcmp.lt_of_lt_of_le hlt hs
      omega
    · have e : lowerBound cmp item nd.keys = j := by omega
      simp only [e]
      exact h0
  · intro hne k hk
    have hle := hat k hk
    have hmem : k ∈ nd.keys := List.getElem?_mem hk
    have := hne k hmem
    omega

/-- C19 on the leaf `a, b, b, d`: item `b` is found at index 1, the first of
the two equal keys; item `c` lands on index 3, the next greater key. -/
theorem search_lowest_index_witness :
    dupLeaf.keys.length = dupLeaf.count ∧
    dupLeaf.keys.Pairwise (fun a b => bytesCompare a b ≤ 0) ∧
    search dupLeaf [98] bytesCompare = some 1 ∧
    search dupLeaf [99] bytesCompare = some 3 ∧
    search dupLeaf [101] bytesCompare = some 4 ∧
    ∃ i : Nat, search dupLeaf [98] bytesCompare = some (i : Int) ∧ i ≤ dupLeaf.count ∧
      (∀ (j : Nat) (k : NodeItem), j < i → dupLeaf.keys[j]? = some k → 0 < bytesCompare [98] k) ∧
      (∀ k : NodeItem, dupLeaf.keys[i]? = some k → bytesCompare [98] k ≤ 0) ∧
      (i = dupLeaf.count ↔ ∀ k ∈ dupLeaf.keys, 0 < bytesCompare [98] k) ∧
      (∀ (j : Nat) (k : NodeItem), dupLeaf.keys[j]? = some k → bytesCompare [98] k = 0 →
        i ≤ j ∧ ∃ k2, dupLeaf.keys[i]? = some k2 ∧ bytesCompare [98] k2 = 0) ∧
      ((∀ k ∈ dupLeaf.keys, bytesCompare [98] k ≠ 0) →
        ∀ k : NodeItem, dupLeaf.keys[i]? = some k → bytesCompare [98] k < 0) :=
  ⟨by decide, by decide, by decide, by decide, by decide,
    search_lowest_index bytesCompare_total dupLeaf (by decide) (by decide) [98]⟩

/-- C20 fails in the code.  On an empty root leaf (count 0) the expression
`int(cur.nd.count - 1)` is computed on `uint16` and is 65535, not -1:
`NewCursorAtStart` leaves index 0, which is in [-1, count], and `Advance`
takes the branch `cur.idx < lastKeyIdx`, moves the index to 1 and returns
(true, nil), although the node has no entry and `Valid()` is false before and
after; `Retreat` on the same cursor returns false.  From index -1 `Advance`
also returns true, with `Valid()` false afterwards. -/
theorem advance_empty_leaf :
    emptyLeaf.count = 0 ∧ lastKeyIdx emptyLeaf = 65535 ∧
    (NewCursorAtStart emptyStore 1 emptyLeaf).out = .ok () ∧
    (NewCursorAtStart emptyStore 1 emptyLeaf).cur = [⟨emptyLeaf, 0, none⟩] ∧
    Valid (NewCursorAtStart emptyStore 1 emptyLeaf).cur = false ∧
    (Advance emptyStore (NewCursorAtStart emptyStore 1 emptyLeaf).cur).out = .ok true ∧
    (Advance emptyStore (NewCursorAtStart emptyStore 1 emptyLeaf).cur).cur
      = [⟨emptyLeaf, 1, none⟩] ∧
    Valid (Advance emptyStore (NewCursorAtStart emptyStore 1 emptyLeaf).cur).cur = false ∧
    (Retreat emptyStore (NewCursorAtStart emptyStore 1 emptyLeaf).cur).out = .ok false ∧
    (Advance emptyStore [⟨emptyLeaf, -1, none⟩]).out = .ok true ∧
    Valid (Advance emptyStore [⟨emptyLeaf, -1, none⟩]).cur = false := by
  decide

/-! ## The tree of `giantRoot` is well-formed and consistent -/

theorem fanNode_wf {ns : NodeStore} {n : Nat} {k : NodeItem} {h : Hash} {size l : Nat} {c : Node}
    (h1 : 1 ≤ n) (h2 : n < 65536) (hs : ns h = (c, none)) (hc : WellFormed ns l c) :
    WellFormed ns (l + 1) (fanNode n k h size (l + 1)) := by
  refine ⟨⟨h1, h2, by simp [fanNode], rfl⟩, rfl, by simp [fanNode], ?_⟩
  intro r hr
  have : r = h := List.eq_of_mem_replicate hr
  subst this
  rw [hs]
  exact ⟨rfl, hc⟩

theorem fanNode_treeSize {ns : NodeStore} {n : Nat} {k : NodeItem} {h : Hash} {size l lev : Nat}
    {c : Node} (hs : ns h = (c, none)) :
    treeSize ns (l + 1) (fanNode n k h size lev) = n * treeSize ns l c := by
  simp [treeSize, fanNode, hs]

theorem fanNode_consistent {ns : NodeStore} {n : Nat} {k : NodeItem} {h : Hash} {size l lev : Nat}
    {c : Node} (hs : ns h = (c, none)) (hsz : size = treeSize ns l c) (hc : Consistent ns l c) :
    Consistent ns (l + 1) (fanNode n k h size lev) := by
  refine ⟨?_, ?_, ?_⟩
  · rw [fanNode_treeSize hs, hsz]
    rfl
  · simp [fanNode, hs, hsz]
  · intro r hr
    have : r = h := List.eq_of_mem_replicate hr
    subst this
    rw [hs]
    exact hc

theorem giantRoot_spec :
    WellFormed giantStore giantRoot.level giantRoot ∧
    Consistent giantStore giantRoot.level giantRoot := by
  have a0 : WellFormed giantStore 0 chunkA := by decide
  have a1 : WellFormed giantStore 1 (fanNode 1 [11] 10 2 1) :=
    fanNode_wf (by decide) (by decide) (rfl : giantStore 10 = (chunkA, none)) a0
  have a2 : WellFormed giantStore 2 (fanNode 1 [11] 11 2 2) :=
    fanNode_wf (by decide) (by decide) (rfl : giantStore 11 = (_, none)) a1
  have a3 : WellFormed giantStore 3 (fanNode 1 [11] 12 2 3) :=
    fanNode_wf (by decide) (by decide) (rfl : giantStore 12 = (_, none)) a2
  have a4 : WellFormed giantStore 4 (fanNode 1 [11] 13 2 4) :=
    fanNode_wf (by decide) (by decide) (rfl : giantStore 13 = (_, none)) a3
  have b0 : WellFormed giantStore 0 wideLeaf := by decide
  have b1 : WellFormed giantStore 1 (fanNode 32768 [23] 20 4 1) :=
    fanNode_wf (by decide) (by decide) (rfl : giantStore 20 = (wideLeaf, none)) b0
  have b2 : WellFormed giantStore 2 (fanNode 32768 [23] 21 131072 2) :=
    fanNode_wf (by decide) (by decide) (rfl : giantStore 21 = (_, none)) b1
  have b3 : WellFormed giantStore 3 (fanNode 32768 [23] 22 4294967296 3) :=
    fanNode_wf (by decide) (by decide) (rfl : giantStore 22 = (_, none)) b2
  have b4 : WellFormed giantStore 4 (fanNode 32768 [23] 23 140737488355328 4) :=
    fanNode_wf (by decide) (by decide) (rfl : giantStore 23 = (_, none)) b3
  have sa0 : treeSize giantStore 0 chunkA = 2 := rfl
  have sa1 : treeSize giantStore 1 (fanNode 1 [11] 10 2 1) = 2 := by
    rw [fanNode_treeSize (rfl : giantStore 10 = (chunkA, none)), sa0]
  have sa2 : treeSize giantStore 2 (fanNode 1 [11] 11 2 2) = 2 := by
    rw [fanNode_treeSize (rfl : giantStore 11 = (_, none)), sa1]
  have sa3 : treeSize giantStore 3 (fanNode 1 [11] 12 2 3) = 2 := by
    rw [fanNode_treeSize (rfl : giantStore 12 = (_, none)), sa2]
  have sa4 : treeSize giantStore 4 (fanNode 1 [11] 13 2 4) = 2 := by
    rw [fanNode_treeSize (rfl : giantStore 13 = (_, none)), sa3]
  have sb0 : treeSize giantStore 0 wideLeaf = 4 := rfl
  have sb1 : treeSize giantStore 1 (fanNode 32768 [23] 20 4 1) = 131072 := by
    rw [fanNode_treeSize (rfl : giantStore 20 = (wideLeaf, none)), sb0]
  have sb2 : treeSize giantStore 2 (fanNode 32768 [23] 21 131072 2) = 4294967296 := by
    rw [fanNode_treeSize (rfl : giantStore 21 = (_, none)), sb1]
  have sb3 : treeSize giantStore 3 (fanNode 32768 [23] 22 4294967296 3) = 140737488355328 := by
    rw [fanNode_treeSize (rfl : giantStore 22 = (_, none)), sb2]
  have sb4 : treeSize giantStore 4 (fanNode 32768 [23] 23 140737488355328 4)
      = 4611686018427387904 := by
    rw [fanNode_treeSize (rfl : giantStore 23 = (_, none)), sb3]
  have ca0 : Consistent giantStore 0 chunkA := by decide
  have ca1 : Consistent giantStore 1 (fanNode 1 [11] 10 2 1) :=
    fanNode_consistent (rfl : giantStore 10 = (chunkA, none)) sa0.symm ca0
  have ca2 : Consistent giantStore 2 (fanNode 1 [11] 11 2 2) :=
    fanNode_consistent (rfl : giantStore 11 = (_, none)) sa1.symm ca1
  have ca3 : Consistent giantStore 3 (fanNode 1 [11] 12 2 3) :=
    fanNode_consistent (rfl : giantStore 12 = (_, none)) sa2.symm ca2
  have ca4 : Consistent giantStore 4 (fanNode 1 [11] 13 2 4) :=
    fanNode_consistent (rfl : giantStore 13 = (_, none)) sa3.symm ca3
  have cb0 : Consistent giantStore 0 wideLeaf := by decide
  have cb1 : Consistent giantStore 1 (fanNode 32768 [23] 20 4 1) :=
    fanNode_consistent (rfl : giantStore 20 = (wideLeaf, none)) sb0.symm cb0
  have cb2 : Consistent giantStore 2 (fanNode 32768 [23] 21 131072 2) :=
    fanNode_consistent (rfl : giantStore 21 = (_, none)) sb1.symm cb1
  have cb3 : Consistent giantStore 3 (fanNode 32768 [23] 22 4294967296 3) :=
    fanNode_consistent (rfl : giantStore 22 = (_, none)) sb2.symm cb2
  have cb4 : Consistent giantStore 4 (fanNode 32768 [23] 23 140737488355328 4) :=
    fanNode_consistent (rfl : giantStore 23 = (_, none)) sb3.symm cb3
  have e14 : giantStore 14 = (fanNode 1 [11] 13 2 4, none) := rfl
  have e24 : giantStore 24 = (fanNode 32768 [23] 23 140737488355328 4, none) := rfl
  have hmem : ∀ r ∈ giantRoot.refs, r = 14 ∨ r = 24 := by
    intro r hr
    simp [giantRoot] at hr
    exact hr
  have hsize : treeSize giantStore 5 giantRoot = 13835058055282163714 := by
    show ([14, 24, 24, 24].map (fun h => treeSize giantStore 4 (giantStore h).1)).sum = _
    simp only [List.map_cons, List.map_nil, List.sum_cons, List.sum_nil, e14, e24, sa4, sb4]
    rfl
  constructor
  · show WellFormed giantStore 5 giantRoot
    refine ⟨by decide, rfl, rfl, ?_⟩
    intro r hr
    rcases hmem r hr with h | h
    · subst h; rw [e14]; exact ⟨rfl, a4⟩
    · subst h; rw [e24]; exact ⟨rfl, b4⟩
  · show Consistent giantStore 5 giantRoot
    refine ⟨?_, ?_, ?_⟩
    · rw [hsize]; rfl
    · show [2, 4611686018427387904, 4611686018427387904, 4611686018427387904]
        = [14, 24, 24, 24].map (fun h => treeSize giantStore 4 (giantStore h).1)
      simp only [List.map_cons, List.map_nil, e14, e24, sa4, sb4]
    · intro r hr
      rcases hmem r hr with h | h
      · subst h; rw [e14]; exact ca4
      · subst h; rw [e24]; exact cb4

/-- C4, as stated, fails on a tree with more than 2^63 entries.  The tree of
`giantRoot` is well-formed, its subtree counts are the numbers of leaf entries
under each child and sum to the tree count 2 + 3 * 2^62, and
k = 2^63 + 5 is below the tree count.  `int64(k)` is negative, so the search
closure stops at child 0 on every level and returns the distance at the
leaf: `NewCursorAtOrdinal(k)` succeeds with leaf index -9223372036854775803
in the first leaf chunk, and `Valid()` is false. -/
theorem ordinal_giant_counterexample :
    WellFormed giantStore giantRoot.level giantRoot ∧
    Consistent giantStore giantRoot.level giantRoot ∧
    giantRoot.subtrees.sum = giantRoot.TreeCount ∧
    9223372036854775813 < giantRoot.TreeCount ∧
    (NewCursorAtOrdinal giantStore 6 giantRoot 9223372036854775813).out = .ok () ∧
    position (NewCursorAtOrdinal giantStore 6 giantRoot 9223372036854775813).cur
      = [(chunkA, -9223372036854775803), (fanNode 1 [11] 10 2 1, 0), (fanNode 1 [11] 11 2 2, 0),
          (fanNode 1 [11] 12 2 3, 0), (fanNode 1 [11] 13 2 4, 0), (giantRoot, 0)] ∧
    Valid (NewCursorAtOrdinal giantStore 6 giantRoot 9223372036854775813).cur = false :=
  ⟨giantRoot_spec.1, giantRoot_spec.2, by decide, by decide, by decide, by decide, by decide⟩

/-- C18, as stated, fails on a tree with more than 2^63 entries.  The tree of
`giantRoot` is well-formed with consistent subtree counts.  The cursor of
`NewCursorAtOrdinal(2^63 + 5)` has every frame above the leaf in bounds and
linked, but its leaf index is -9223372036854775803: the first `Retreat`
fails the `atNodeStart` assertion of `retreatInBounds`. -/
theorem frame_linkage_counterexample :
    WellFormed giantStore giantRoot.level giantRoot ∧
    Consistent giantStore giantRoot.level giantRoot ∧
    9223372036854775813 < giantRoot.TreeCount ∧
    (NewCursorAtOrdinal giantStore 6 giantRoot 9223372036854775813).out = .ok () ∧
    OnTree giantStore giantRoot (NewCursorAtOrdinal giantStore 6 giantRoot 9223372036854775813).cur ∧
    headIdx (NewCursorAtOrdinal giantStore 6 giantRoot 9223372036854775813).cur
      = -9223372036854775803 ∧
    (Retreat giantStore (NewCursorAtOrdinal giantStore 6 giantRoot 9223372036854775813).cur).out
      = .error .panic ∧
    runOps giantStore bytesCompare [.retreat]
      (NewCursorAtOrdinal giantStore 6 giantRoot 9223372036854775813).cur = .error .panic :=
  ⟨giantRoot_spec.1, giantRoot_spec.2, by decide, by decide, by decide, by decide, by decide,
    by decide⟩

/-! ## Seek is idempotent -/

/-- A successful `seek` does not depend on the index of the designated
frame: it reads the node of that frame and overwrites the index. -/
theorem seek_head_idx (ns : NodeStore) (item : NodeItem) (cb : CompareFn) (ps : Cursor) :
    ∀ (f g : Frame), f.nd = g.nd → f.subtrees = g.subtrees →
      (seek ns item cb (g :: ps)).out = .ok () →
      seek ns item cb (f :: ps) = seek ns item cb (g :: ps)
  | ⟨nd, j, s⟩, ⟨nd2, i, s2⟩, hn, hs, ho => by
    simp only at hn hs
    subst hn
    subst hs
    have hbe : seekInBounds ⟨nd, j, s⟩ (!ps.isEmpty) item cb
        = seekInBounds ⟨nd, i, s⟩ (!ps.isEmpty) item cb := rfl
    cases hb : seekInBounds ⟨nd, i, s⟩ (!ps.isEmpty) item cb with
    | none => rw [seek_test_panic ns ps hb] at ho; simp at ho
    | some b =>
      cases b with
      | true =>
        cases hq : search nd item cb with
        | none =>
          rw [@seek_inBounds_panic ns item cb ⟨nd, i, s⟩ ps hb hq] at ho
          simp at ho
        | some k =>
          rw [@seek_inBounds ns item cb ⟨nd, j, s⟩ ps k (hbe.trans hb) hq,
            @seek_inBounds ns item cb ⟨nd, i, s⟩ ps k hb hq]
      | false =>
        cases ho2 : (seek ns item cb ps).out with
        | error e => rw [seek_up_err ns ps hb ho2] at ho; simp at ho
        | ok u =>
          cases hr : CurrentRef (keepInBoundsHead (seek ns item cb ps).cur) with
          | none => rw [seek_noref ns ps hb ho2 hr] at ho; simp at ho
          | some h =>
            cases hst : (ns h).2 with
            | some e => rw [seek_fetch_err ns ps hb ho2 hr hst] at ho; simp at ho
            | none =>
              cases hq : search (ns h).1 item cb with
              | none => rw [seek_climb_panic ns ps hb ho2 hr hst hq] at ho; simp at ho
              | some k =>
                rw [@seek_climb ns item cb ⟨nd, j, s⟩ ps h k (hbe.trans hb) ho2 hr hst hq,
                  @seek_climb ns item cb ⟨nd, i, s⟩ ps h k hb ho2 hr hst hq]

/-- A second `seek` with the same item succeeds and leaves the cursor of the
first one as it is, on any well-formed tree and for any compare function. -/
theorem seek_twice {ns : NodeStore} {root : Node} (item : NodeItem) (cb : CompareFn)
    (hroot : WellFormed ns root.level root) :
    ∀ (ps : Cursor) (f : Frame), Attached ns root f.nd ps →
      (seek ns item cb (seek ns item cb (f :: ps)).cur).out = .ok () ∧
      (seek ns item cb (seek ns item cb (f :: ps)).cur).cur = (seek ns item cb (f :: ps)).cur
  | [], f, hatt => by
    have hwf := Attached.wf hroot hatt
    obtain ⟨i, hi, -⟩ := search_bounds hwf.shape.2.2.1 item cb
    rw [seek_inBounds ns [] (seekInBounds_root f item cb) hi]
    have e := @seek_inBounds ns item cb ⟨f.nd, (i : Int), f.subtrees⟩ [] (i : Int)
      (seekInBounds_root _ item cb) hi
    exact ⟨by rw [e], by rw [e]⟩
  | p :: pps, f, hatt => by
    have hwf := Attached.wf hroot hatt
    obtain ⟨fk, lk, -, -, hsb⟩ := seekInBounds_parent (p := p) pps item cb hwf.shape
    by_cases hin : cb item fk ≥ 0 ∧ cb item lk ≤ 0
    · have hb : seekInBounds f (!(p :: pps).isEmpty) item cb = some true := by
        rw [hsb]; simp [hin.1, hin.2]
      obtain ⟨i, hi, -⟩ := search_bounds hwf.shape.2.2.1 item cb
      rw [seek_inBounds ns (p :: pps) hb hi]
      have e := @seek_inBounds ns item cb ⟨f.nd, (i : Int), f.subtrees⟩ (p :: pps) (i : Int) hb hi
      exact ⟨by rw [e], by rw [e]⟩
    · have hb : seekInBounds f (!(p :: pps).isEmpty) item cb = some false := by
        rw [hsb]
        by_cases h1 : cb item fk ≥ 0
        · have h2 : ¬ cb item lk ≤ 0 := fun h => hin ⟨h1, h⟩
          simp [h1, h2]
        · simp [h1]
      obtain ⟨ho, p2, pps2, hcur, hatt2, hlev2, -, -, -⟩ :=
        seek_onTree item cb hroot pps p hatt.2.2.2.2
      obtain ⟨ih1, ih2⟩ := seek_twice item cb hroot pps p hatt.2.2.2.2
      rw [hcur] at ih1 ih2
      have hwf2 := Attached.wf hroot hatt2
      have hl2 : p2.nd.level = f.nd.level + 1 := by rw [hlev2]; exact hatt.2.2.1
      rw [hl2] at hwf2
      have hlk := lastKeyIdx_of_shape hwf2.shape
      obtain ⟨hb0, hb1⟩ := keepInBounds_bounds p2
      have hknd := keepInBounds_nd p2
      have hb2 : p2.keepInBounds.idx < (p2.nd.count : Int) := by
        rw [hlk] at hb1
        omega
      obtain ⟨r, hr, -, hok, hwfc⟩ := hwf2.child hb0 hb2
      have hr2 : p2.keepInBounds.CurrentRef = some r := by
        unfold Frame.CurrentRef
        rw [hknd]
        exact hr
      have hkh : keepInBoundsHead (seek ns item cb (p :: pps)).cur = p2.keepInBounds :: pps2 := by
        rw [hcur]
        rfl
      have hcr : CurrentRef (keepInBoundsHead (seek ns item cb (p :: pps)).cur) = some r := by
        rw [hkh]; exact hr2
      obtain ⟨i, hi, -⟩ := search_bounds hwfc.shape.2.2.1 item cb
      rw [seek_climb ns (p :: pps) hb ho hcr hok hi, hkh]
      -- the second call, on the cursor the first one left
      obtain ⟨fk2, lk2, -, -, hsb2⟩ := @seekInBounds_parent ⟨(ns r).1, (i : Int), f.subtrees⟩
        p2.keepInBounds pps2 item cb hwfc.shape
      by_cases hin2 : cb item fk2 ≥ 0 ∧ cb item lk2 ≤ 0
      · have hb3 : seekInBounds ⟨(ns r).1, (i : Int), f.subtrees⟩
            (!(p2.keepInBounds :: pps2).isEmpty) item cb = some true := by
          rw [hsb2]; simp [hin2.1, hin2.2]
        have e := @seek_inBounds ns item cb ⟨(ns r).1, (i : Int), f.subtrees⟩
          (p2.keepInBounds :: pps2) (i : Int) hb3 hi
        exact ⟨by rw [e], by rw [e]⟩
      · have hb3 : seekInBounds ⟨(ns r).1, (i : Int), f.subtrees⟩
            (!(p2.keepInBounds :: pps2).isEmpty) item cb = some false := by
          rw [hsb2]
          by_cases h1 : cb item fk2 ≥ 0
          · have h2 : ¬ cb item lk2 ≤ 0 := fun h => hin2 ⟨h1, h⟩
            simp [h1, h2]
          · simp [h1]
        have hsame : seek ns item cb (p2.keepInBounds :: pps2) = seek ns item cb (p2 :: pps2) :=
          seek_head_idx ns item cb pps2 p2.keepInBounds p2 hknd (keepInBounds_subtrees p2) ih1
        have ho4 : (seek ns item cb (p2.keepInBounds :: pps2)).out = .ok () := by
          rw [hsame]; exact ih1
        have hcur4 : (seek ns item cb (p2.keepInBounds :: pps2)).cur = p2 :: pps2 := by
          rw [hsame]; exact ih2
        have hcr4 : CurrentRef (keepInBoundsHead (seek ns item cb (p2.keepInBounds :: pps2)).cur)
            = some r := by
          rw [hcur4]; exact hr2
        have e := @seek_climb ns item cb ⟨(ns r).1, (i : Int), f.subtrees⟩
          (p2.keepInBounds :: pps2) r (i : Int) hb3 ho4 hcr4 hok hi
        refine ⟨by rw [e], ?_⟩
        rw [e, hcur4]
        rfl

/-- C8 (seek idempotence, position).  On a well-formed tree, for every
compare function, every item and every cursor on the tree (frames above the
designated one in bounds and linked), two successive calls of `seek` with the
same item both succeed, and the second leaves every frame with the node and
index it had after the first; the whole cursor is unchanged by it. -/
theorem seek_idempotent_position (ns : NodeStore) (root : Node) (cmp : CompareFn)
    (item : NodeItem) (c : Cursor) (hwf : WellFormed ns root.level root)
    (hc : OnTree ns root c) :
    (seek ns item cmp c).out = .ok () ∧
    (seek ns item cmp (seek ns item cmp c).cur).out = .ok () ∧
    position (seek ns item cmp (seek ns item cmp c).cur).cur
      = position (seek ns item cmp c).cur ∧
    (seek ns item cmp (seek ns item cmp c).cur).cur = (seek ns item cmp c).cur := by
  cases c with
  | nil => exact hc.elim
  | cons f ps =>
    obtain ⟨ho, -⟩ := seek_onTree item cmp hwf ps f hc
    obtain ⟨h1, h2⟩ := seek_twice item cmp hwf ps f hc
    exact ⟨ho, h1, by rw [h2], h2⟩

/-- Witness of C8 for an item in the gap between the two leaf chunks, and for
a compare function that is no order at all. -/
theorem seek_idempotent_position_witness :
    (WellFormed twoChunkStore twoChunkRoot.level twoChunkRoot ∧
      OnTree twoChunkStore twoChunkRoot lastOfChunkA) ∧
    ((seek twoChunkStore [15] bytesCompare lastOfChunkA).out = .ok () ∧
      (seek twoChunkStore [15] bytesCompare
        (seek twoChunkStore [15] bytesCompare lastOfChunkA).cur).out = .ok () ∧
      position (seek twoChunkStore [15] bytesCompare
        (seek twoChunkStore [15] bytesCompare lastOfChunkA).cur).cur
        = position (seek twoChunkStore [15] bytesCompare lastOfChunkA).cur ∧
      (seek twoChunkStore [15] bytesCompare
        (seek twoChunkStore [15] bytesCompare lastOfChunkA).cur).cur
        = (seek twoChunkStore [15] bytesCompare lastOfChunkA).cur) ∧
    position (seek twoChunkStore [15] bytesCompare lastOfChunkA).cur = position startOfChunkB ∧
    position (seek twoChunkStore [15] (fun _ _ => 1) lastOfChunkA).cur
      = [(chunkB, 2), (twoChunkRoot, 1)] ∧
    position (seek twoChunkStore [15] (fun _ _ => 1)
        (seek twoChunkStore [15] (fun _ _ => 1) lastOfChunkA).cur).cur
      = position (seek twoChunkStore [15] (fun _ _ => 1) lastOfChunkA).cur :=
  ⟨by decide,
    seek_idempotent_position twoChunkStore twoChunkRoot bytesCompare [15] lastOfChunkA
      (by decide) (by decide),
    by decide, by decide,
    (seek_idempotent_position twoChunkStore twoChunkRoot (fun _ _ => 1) [15] lastOfChunkA
      (by decide) (by decide)).2.2.1⟩

/-! ## The cursor after a failed store read -/

/-- A call of `advanceInBounds` that returns true has changed the position. -/
theorem advanceInBounds_moved (ns : NodeStore) :
    ∀ c : Cursor, (advanceInBounds ns c).out = .ok true →
      position (advanceInBounds ns c).cur ≠ position c := by
  intro c
  induction c with
  | nil => intro h; simp [advanceInBounds] at h
  | cons f ps ih =>
    intro hout
    by_cases h1 : f.idx < lastKeyIdx f.nd
    · rw [advanceInBounds_step ns ps h1]
      simp [position]
    by_cases h2 : f.idx = (f.nd.count : Int)
    · rw [advanceInBounds_past ns ps h1 h2] at hout; simp at hout
    by_cases h3 : f.idx = lastKeyIdx f.nd
    swap
    · rw [advanceInBounds_assert ns ps h1 h2 h3] at hout; simp at hout
    cases ps with
    | nil => rw [advanceInBounds_root ns h3] at hout; simp at hout
    | cons p pps =>
      cases ho : (advanceInBounds ns (p :: pps)).out with
      | error e2 => rw [advanceInBounds_up_err ns pps h3 h2 ho] at hout; simp at hout
      | ok b =>
        cases b with
        | false => rw [advanceInBounds_up_false ns pps h3 h2 ho] at hout; simp at hout
        | true =>
          have hmv := ih ho
          cases hr : CurrentRef (advanceInBounds ns (p :: pps)).cur with
          | none => rw [advanceInBounds_up_noref ns pps h3 h2 ho hr] at hout; simp at hout
          | some r =>
            cases hs : (ns r).2 with
            | some e2 =>
              rw [advanceInBounds_up_fetch_err ns pps h3 h2 ho hr hs] at hout; simp at hout
            | none =>
              rw [advanceInBounds_up_true ns pps h3 h2 ho hr hs]
              intro heq
              apply hmv
              simp only [position, List.map_cons, List.cons.injEq] at heq
              simpa [position] using heq.2

/-- A call of `retreatInBounds` that returns true has changed the position. -/
theorem retreatInBounds_moved (ns : NodeStore) :
    ∀ c : Cursor, (retreatInBounds ns c).out = .ok true →
      position (retreatInBounds ns c).cur ≠ position c := by
  intro c
  induction c with
  | nil => intro h; simp [retreatInBounds] at h
  | cons f ps ih =>
    intro hout
    by_cases h1 : f.idx > 0
    · rw [retreatInBounds_step ns ps h1]
      simp [position]
    by_cases h2 : f.idx = -1
    · rw [retreatInBounds_past ns ps h2] at hout; simp at hout
    by_cases h3 : f.idx = 0
    swap
    · rw [retreatInBounds_assert ns ps h1 h2 h3] at hout; simp at hout
    cases ps with
    | nil => rw [retreatInBounds_root ns h3] at hout; simp at hout
    | cons p pps =>
      cases ho : (retreatInBounds ns (p :: pps)).out with
      | error e2 => rw [retreatInBounds_up_err ns pps h3 ho] at hout; simp at hout
      | ok b =>
        cases b with
        | false => rw [retreatInBounds_up_false ns pps h3 ho] at hout; simp at hout
        | true =>
          have hmv := ih ho
          cases hr : CurrentRef (retreatInBounds ns (p :: pps)).cur with
          | none => rw [retreatInBounds_up_noref ns pps h3 ho hr] at hout; simp at hout
          | some r =>
            cases hs : (ns r).2 with
            | some e2 =>
              rw [retreatInBounds_up_fetch_err ns pps h3 ho hr hs] at hout; simp at hout
            | none =>
              rw [retreatInBounds_up_true ns pps h3 ho hr hs]
              intro heq
              apply hmv
              simp only [position, List.map_cons, List.cons.injEq] at heq
              simpa [position] using heq.2

/-- A store error out of `advanceInBounds` comes from one failed fetch: the
frames below the fetching frame are untouched, the frames above it are those
left by the call on the parent, which returned true, and the fetching frame
holds what the read returned and index -1. -/
theorem advanceInBounds_store_error (ns : NodeStore) (e : StoreError) :
    ∀ c : Cursor, (advanceInBounds ns c).out = .error (.store e) →
      ∃ (lower : Cursor) (f : Frame) (upper : Cursor) (h : Hash),
        c = lower ++ f :: upper ∧ upper ≠ [] ∧
        (advanceInBounds ns upper).out = .ok true ∧
        CurrentRef (advanceInBounds ns upper).cur = some h ∧ (ns h).2 = some e ∧
        (advanceInBounds ns c).reads.getLast? = some h ∧
        (advanceInBounds ns c).cur
          = lower ++ ⟨(ns h).1, -1, f.subtrees⟩ :: (advanceInBounds ns upper).cur := by
  intro c
  induction c with
  | nil => intro h; simp [advanceInBounds] at h
  | cons f ps ih =>
    intro hout
    by_cases h1 : f.idx < lastKeyIdx f.nd
    · rw [advanceInBounds_step ns ps h1] at hout; simp at hout
    by_cases h2 : f.idx = (f.nd.count : Int)
    · rw [advanceInBounds_past ns ps h1 h2] at hout; simp at hout
    by_cases h3 : f.idx = lastKeyIdx f.nd
    swap
    · rw [advanceInBounds_assert ns ps h1 h2 h3] at hout; simp at hout
    cases ps with
    | nil => rw [advanceInBounds_root ns h3] at hout; simp at hout
    | cons p pps =>
      cases ho : (advanceInBounds ns (p :: pps)).out with
      | error e2 =>
        rw [advanceInBounds_up_err ns pps h3 h2 ho] at hout ⊢
        simp only [Except.error.injEq] at hout
        subst hout
        obtain ⟨lower, g, upper, h, hc, hne, hup, hr, hs, hl, hcur⟩ := ih ho
        exact ⟨f :: lower, g, upper, h, by simp [hc], hne, hup, hr, hs, hl, by simp [hcur]⟩
      | ok b =>
        cases b with
        | false => rw [advanceInBounds_up_false ns pps h3 h2 ho] at hout; simp at hout
        | true =>
          cases hr : CurrentRef (advanceInBounds ns (p :: pps)).cur with
          | none => rw [advanceInBounds_up_noref ns pps h3 h2 ho hr] at hout; simp at hout
          | some r =>
            cases hs : (ns r).2 with
            | none => rw [advanceInBounds_up_true ns pps h3 h2 ho hr hs] at hout; simp at hout
            | some e2 =>
              rw [advanceInBounds_up_fetch_err ns pps h3 h2 ho hr hs] at hout ⊢
              simp only [Except.error.injEq, Fault.store.injEq] at hout
              subst hout
              exact ⟨[], f, p :: pps, r, rfl, by simp, ho, hr, hs, by simp, rfl⟩

/-- A store error out of `retreatInBounds` comes from one failed fetch. -/
theorem retreatInBounds_store_error (ns : NodeStore) (e : StoreError) :
    ∀ c : Cursor, (retreatInBounds ns c).out = .error (.store e) →
      ∃ (lower : Cursor) (f : Frame) (upper : Cursor) (h : Hash),
        c = lower ++ f :: upper ∧ upper ≠ [] ∧
        (retreatInBounds ns upper).out = .ok true ∧
        CurrentRef (retreatInBounds ns upper).cur = some h ∧ (ns h).2 = some e ∧
        (retreatInBounds ns c).reads.getLast? = some h ∧
        (retreatInBounds ns c).cur
          = lower ++ ⟨(ns h).1, -1, f.subtrees⟩ :: (retreatInBounds ns upper).cur := by
  intro c
  induction c with
  | nil => intro h; simp [retreatInBounds] at h
  | cons f ps ih =>
    intro hout
    by_cases h1 : f.idx > 0
    · rw [retreatInBounds_step ns ps h1] at hout; simp at hout
    by_cases h2 : f.idx = -1
    · rw [retreatInBounds_past ns ps h2] at hout; simp at hout
    by_cases h3 : f.idx = 0
    swap
    · rw [retreatInBounds_assert ns ps h1 h2 h3] at hout; simp at hout
    cases ps with
    | nil => rw [retreatInBounds_root ns h3] at hout; simp at hout
    | cons p pps =>
      cases ho : (retreatInBounds ns (p :: pps)).out with
      | error e2 =>
        rw [retreatInBounds_up_err ns pps h3 ho] at hout ⊢
        simp only [Except.error.injEq] at hout
        subst hout
        obtain ⟨lower, g, upper, h, hc, hne, hup, hr, hs, hl, hcur⟩ := ih ho
        exact ⟨f :: lower, g, upper, h, by simp [hc], hne, hup, hr, hs, hl, by simp [hcur]⟩
      | ok b =>
        cases b with
        | false => rw [retreatInBounds_up_false ns pps h3 ho] at hout; simp at hout
        | true =>
          cases hr : CurrentRef (retreatInBounds ns (p :: pps)).cur with
          | none => rw [retreatInBounds_up_noref ns pps h3 ho hr] at hout; simp at hout
          | some r =>
            cases hs : (ns r).2 with
            | none => rw [retreatInBounds_up_true ns pps h3 ho hr hs] at hout; simp at hout
            | some e2 =>
              rw [retreatInBounds_up_fetch_err ns pps h3 ho hr hs] at hout ⊢
              simp only [Except.error.injEq, Fault.store.injEq] at hout
              subst hout
              exact ⟨[], f, p :: pps, r, rfl, by simp, ho, hr, hs, by simp, rfl⟩

/-- A store error out of `seek` comes from one failed fetch: the frames below
the fetching frame are untouched, the frames above it are those left by the
successful `seek` of the parent with `keepInBounds` applied, and the fetching
frame holds what the read returned and keeps its index. -/
theorem seek_store_error (ns : NodeStore) (item : NodeItem) (cb : CompareFn) (e : StoreError) :
    ∀ c : Cursor, (seek ns item cb c).out = .error (.store e) →
      ∃ (lower : Cursor) (f : Frame) (upper : Cursor) (h : Hash),
        c = lower ++ f :: upper ∧ upper ≠ [] ∧
        (seek ns item cb upper).out = .ok () ∧
        CurrentRef (keepInBoundsHead (seek ns item cb upper).cur) = some h ∧
        (ns h).2 = some e ∧
        (seek ns item cb c).reads.getLast? = some h ∧
        (seek ns item cb c).cur
          = lower ++ ⟨(ns h).1, f.idx, f.subtrees⟩ ::
              keepInBoundsHead (seek ns item cb upper).cur := by
  intro c
  induction c with
  | nil => intro h; simp [seek] at h
  | cons f ps ih =>
    intro hout
    cases hb : seekInBounds f (!ps.isEmpty) item cb with
    | none => rw [seek_test_panic ns ps hb] at hout; simp at hout
    | some b =>
      cases b with
      | true =>
        cases hs : search f.nd item cb with
        | none => rw [seek_inBounds_panic ns ps hb hs] at hout; simp at hout
        | some i => rw [seek_inBounds ns ps hb hs] at hout; simp at hout
      | false =>
        have hps : ps ≠ [] := by
          intro h0
          subst h0
          rw [seekInBounds_root] at hb
          simp at hb
        cases ho : (seek ns item cb ps).out with
        | error e2 =>
          rw [seek_up_err ns ps hb ho] at hout ⊢
          simp only [Except.error.injEq] at hout
          subst hout
          obtain ⟨lower, g, upper, h, hc, hne, hup, hr, hs, hl, hcur⟩ := ih ho
          exact ⟨f :: lower, g, upper, h, by simp [hc], hne, hup, hr, hs, hl, by simp [hcur]⟩
        | ok u =>
          cases hr : CurrentRef (keepInBoundsHead (seek ns item cb ps).cur) with
          | none => rw [seek_noref ns ps hb ho hr] at hout; simp at hout
          | some r =>
            cases hs : (ns r).2 with
            | some e2 =>
              rw [seek_fetch_err ns ps hb ho hr hs] at hout ⊢
              simp only [Except.error.injEq, Fault.store.injEq] at hout
              subst hout
              exact ⟨[], f, ps, r, rfl, hps, ho, hr, hs, by simp, rfl⟩
            | none =>
              cases hq : search (ns r).1 item cb with
              | none => rw [seek_climb_panic ns ps hb ho hr hs hq] at hout; simp at hout
              | some i => rw [seek_climb ns ps hb ho hr hs hq] at hout; simp at hout

/-- C12, amended.  When `Advance`, `Retreat` or `seek` returns a store error,
the error is the one of the last read, and the cursor splits at the frame
whose fetch failed.  The frames below it are unchanged.  The frame itself
holds the node value returned by the failed read, with index -1 after
`Advance` and `Retreat` and with its old index after `seek`.  The frames
above it are exactly what the call on the parent left: for `Advance` and
`Retreat` the parent call returned true, so the position of these frames
has changed; for `seek` the parent's `seek` succeeded and `keepInBounds`
was applied to the parent.  The failed read is the one of the child
reference of those frames, and their number is unchanged.  A fetch is only
made by a frame that has a parent. -/
theorem error_at_failing_frame (ns : NodeStore) (item : NodeItem) (cb : CompareFn)
    (c : Cursor) (e : StoreError) :
    ((Advance ns c).out = .error (.store e) →
      ∃ (lower : Cursor) (f : Frame) (upper : Cursor) (h : Hash),
        c = lower ++ f :: upper ∧ upper ≠ [] ∧
        (advanceInBounds ns upper).out = .ok true ∧
        position (advanceInBounds ns upper).cur ≠ position upper ∧
        (advanceInBounds ns upper).cur.length = upper.length ∧
        CurrentRef (advanceInBounds ns upper).cur = some h ∧ (ns h).2 = some e ∧
        (Advance ns c).reads.getLast? = some h ∧
        (Advance ns c).cur
          = lower ++ ⟨(ns h).1, -1, f.subtrees⟩ :: (advanceInBounds ns upper).cur) ∧
    ((Retreat ns c).out = .error (.store e) →
      ∃ (lower : Cursor) (f : Frame) (upper : Cursor) (h : Hash),
        c = lower ++ f :: upper ∧ upper ≠ [] ∧
        (retreatInBounds ns upper).out = .ok true ∧
        position (retreatInBounds ns upper).cur ≠ position upper ∧
        (retreatInBounds ns upper).cur.length = upper.length ∧
        CurrentRef (retreatInBounds ns upper).cur = some h ∧ (ns h).2 = some e ∧
        (Retreat ns c).reads.getLast? = some h ∧
        (Retreat ns c).cur
          = lower ++ ⟨(ns h).1, -1, f.subtrees⟩ :: (retreatInBounds ns upper).cur) ∧
    ((seek ns item cb c).out = .error (.store e) →
      ∃ (lower : Cursor) (f : Frame) (upper : Cursor) (h : Hash),
        c = lower ++ f :: upper ∧ upper ≠ [] ∧
        (seek ns item cb upper).out = .ok () ∧
        (keepInBoundsHead (seek ns item cb upper).cur).length = upper.length ∧
        CurrentRef (keepInBoundsHead (seek ns item cb upper).cur) = some h ∧
        (ns h).2 = some e ∧
        (seek ns item cb c).reads.getLast? = some h ∧
        (seek ns item cb c).cur
          = lower ++ ⟨(ns h).1, f.idx, f.subtrees⟩ ::
              keepInBoundsHead (seek ns item cb upper).cur) := by
  refine ⟨fun h => ?_, fun h => ?_, fun h => ?_⟩
  · obtain ⟨ho, hc, hr⟩ := Advance_error ns h
    rw [hc, hr]
    obtain ⟨lower, f, upper, r, h1, h2, h3, h4, h5, h6, h7⟩ :=
      advanceInBounds_store_error ns e c ho
    exact ⟨lower, f, upper, r, h1, h2, h3, advanceInBounds_moved ns upper h3,
      advanceInBounds_length ns upper, h4, h5, h6, h7⟩
  · obtain ⟨ho, hc, hr⟩ := Retreat_error ns h
    rw [hc, hr]
    obtain ⟨lower, f, upper, r, h1, h2, h3, h4, h5, h6, h7⟩ :=
      retreatInBounds_store_error ns e c ho
    exact ⟨lower, f, upper, r, h1, h2, h3, retreatInBounds_moved ns upper h3,
      retreatInBounds_length ns upper, h4, h5, h6, h7⟩
  · obtain ⟨lower, f, upper, r, h1, h2, h3, h4, h5, h6, h7⟩ :=
      seek_store_error ns item cb e c h
    exact ⟨lower, f, upper, r, h1, h2, h3,
      by rw [keepInBoundsHead_length, seek_length], h4, h5, h6, h7⟩

/-- C12, amended: the three operations fail on a store that has lost a leaf
chunk; the cursor splits at the leaf frame, and the root frame above it has
been moved to the other child. -/
theorem error_at_failing_frame_witness :
    (Advance brokenStore lastOfChunkA).out = .error (.store ⟨7⟩) ∧
    (Retreat brokenStoreA startOfChunkB).out = .error (.store ⟨7⟩) ∧
    (seek brokenStore [20] bytesCompare lastOfChunkA).out = .error (.store ⟨7⟩) ∧
    position (Advance brokenStore lastOfChunkA).cur = [(Node.zero, -1), (twoChunkRoot, 1)] ∧
    (∃ (lower : Cursor) (f : Frame) (upper : Cursor) (h : Hash),
        lastOfChunkA = lower ++ f :: upper ∧ upper ≠ [] ∧
        (advanceInBounds brokenStore upper).out = .ok true ∧
        position (advanceInBounds brokenStore upper).cur ≠ position upper ∧
        (advanceInBounds brokenStore upper).cur.length = upper.length ∧
        CurrentRef (advanceInBounds brokenStore upper).cur = some h ∧
        (brokenStore h).2 = some ⟨7⟩ ∧
        (Advance brokenStore lastOfChunkA).reads.getLast? = some h ∧
        (Advance brokenStore lastOfChunkA).cur
          = lower ++ ⟨(brokenStore h).1, -1, f.subtrees⟩ ::
              (advanceInBounds brokenStore upper).cur) ∧
    (∃ (lower : Cursor) (f : Frame) (upper : Cursor) (h : Hash),
        startOfChunkB = lower ++ f :: upper ∧ upper ≠ [] ∧
        (retreatInBounds brokenStoreA upper).out = .ok true ∧
        position (retreatInBounds brokenStoreA upper).cur ≠ position upper ∧
        (retreatInBounds brokenStoreA upper).cur.length = upper.length ∧
        CurrentRef (retreatInBounds brokenStoreA upper).cur = some h ∧
        (brokenStoreA h).2 = some ⟨7⟩ ∧
        (Retreat brokenStoreA startOfChunkB).reads.getLast? = some h ∧
        (Retreat brokenStoreA startOfChunkB).cur
          = lower ++ ⟨(brokenStoreA h).1, -1, f.subtrees⟩ ::
              (retreatInBounds brokenStoreA upper).cur) ∧
    (∃ (lower : Cursor) (f : Frame) (upper : Cursor) (h : Hash),
        lastOfChunkA = lower ++ f :: upper ∧ upper ≠ [] ∧
        (seek brokenStore [20] bytesCompare upper).out = .ok () ∧
        (keepInBoundsHead (seek brokenStore [20] bytesCompare upper).cur).length
          = upper.length ∧
        CurrentRef (keepInBoundsHead (seek brokenStore [20] bytesCompare upper).cur) = some h ∧
        (brokenStore h).2 = some ⟨7⟩ ∧
        (seek brokenStore [20] bytesCompare lastOfChunkA).reads.getLast? = some h ∧
        (seek brokenStore [20] bytesCompare lastOfChunkA).cur
          = lower ++ ⟨(brokenStore h).1, f.idx, f.subtrees⟩ ::
              keepInBoundsHead (seek brokenStore [20] bytesCompare upper).cur) :=
  ⟨by decide, by decide, by decide, by decide,
    (error_at_failing_frame brokenStore [20] bytesCompare lastOfChunkA ⟨7⟩).1 (by decide),
    (error_at_failing_frame brokenStoreA [20] bytesCompare startOfChunkB ⟨7⟩).2.1 (by decide),
    (error_at_failing_frame brokenStore [20] bytesCompare lastOfChunkA ⟨7⟩).2.2 (by decide)⟩

end Prolly
